import Mathlib

/-
Verification development for the knowledge-graph engine (src/graph/builder.ts)
and the lexical TF-IDF search index (src/search/tfidf.ts).

The TypeScript classes are embedded shallowly:
  - a JS `Map` is a `List (key × value)` in insertion order; `Map.set` on an
    existing key overwrites in place, otherwise it appends; iteration order is
    list order, exactly as in JS;
  - the mutable `GraphBuilder.graph` becomes explicit state passed through the
    translated methods; in-place mutation of a node object found by
    `resolveNode` becomes a keyed functional update at the entry where the
    object lives;
  - `async` vault reads become explicit arguments: the vault is a
    `List (path × Note)` and `readNote` is a lookup, matching the mocked vault
    of tests/graph.test.ts;
  - JS numbers used by the scorer (Math.log, Math.sqrt, floating division)
    are modelled as real numbers; floating-point rounding error is out of
    scope of this model.
-/

namespace Obsidian

/-- A parsed note as the vault layer delivers it to the graph builder:
`title`, `tags`, raw link targets (`note.links.map (link => link.target)` is
precomputed here as `links`), and raw `content` for the search index. -/
structure Note where
  title : String
  tags : List String
  links : List String
  content : String
deriving DecidableEq, Repr

/-- `GraphNode` from src/types.ts as the builder uses it. -/
structure GraphNode where
  path : String
  title : String
  tags : List String
  outlinks : List String
  inlinks : List String
deriving DecidableEq, Repr

/-- The builder's `graph : Map<string, GraphNode>` in insertion order. -/
abbrev Graph := List (String × GraphNode)

/-- JS `Map.get`, returning the whole entry (key and value). -/
def mapGetEntry {β : Type} : List (String × β) → String → Option (String × β)
  | [], _ => none
  | (k, v) :: rest, key => if k = key then some (k, v) else mapGetEntry rest key

/-- JS `Map.get`. -/
def mapGet {β : Type} (m : List (String × β)) (key : String) : Option β :=
  (mapGetEntry m key).map (·.2)

/-- JS `Map.set`: overwrite in place when the key exists, else append. -/
def mapSet {β : Type} : List (String × β) → String → β → List (String × β)
  | [], key, val => [(key, val)]
  | (k, v) :: rest, key, val =>
    if k = key then (key, val) :: rest else (k, v) :: mapSet rest key val

/-- JS `Map.delete`. -/
def mapDelete {β : Type} : List (String × β) → String → List (String × β)
  | [], _ => []
  | (k, v) :: rest, key => if k = key then rest else (k, v) :: mapDelete rest key

/-- The key list of a map, in iteration order. -/
def mapKeys {β : Type} (m : List (String × β)) : List String := m.map (·.1)

/-- `String.prototype.endsWith`, via character lists so that kernel
evaluation works on concrete inputs. -/
def strEndsWith (s pat : String) : Bool := pat.toList.isSuffixOf s.toList

/-- `String.prototype.toLowerCase` (ASCII; every identifier in this model is
ASCII). -/
def strToLower (s : String) : String := String.mk (s.toList.map Char.toLower)

/-- JS `split(sep)` for a one-character separator: at least one segment,
empty segments kept. -/
def splitOnChar (sep : Char) : List Char → List (List Char)
  | [] => [[]]
  | c :: rest =>
    match splitOnChar sep rest with
    | [] => [[]]
    | seg :: segs => if c = sep then [] :: seg :: segs else (c :: seg) :: segs

/-- `path.replace(/\.md$/, '')`. -/
def stripMd (s : String) : String := if strEndsWith s ".md" then s.dropRight 3 else s

/-- `path.replace(/\.md$/, '').split('/').pop()?.toLowerCase()` from
`resolveNode`'s filename fallback. -/
def fileBaseName (path : String) : String :=
  strToLower (String.mk ((splitOnChar '/' (stripMd path).toList).getLastD []))

/-- `GraphBuilder.resolveNode`, returning the map entry holding the resolved
node.  The four strategies in source order: exact path, path with `.md`
appended (unconditionally, mirroring the source), case-insensitive filename
match, case-insensitive title match. -/
def resolveEntry (g : Graph) (identifier : String) : Option (String × GraphNode) :=
  match mapGetEntry g identifier with
  | some e => some e
  | none =>
    match mapGetEntry g (identifier ++ ".md") with
    | some e => some e
    | none =>
      match g.find? (fun e => fileBaseName e.1 == strToLower identifier) with
      | some e => some e
      | none => g.find? (fun e => strToLower e.2.title == strToLower identifier)

/-- `GraphBuilder.resolveNode` as the source exposes it (the node object). -/
def resolveNode (g : Graph) (identifier : String) : Option GraphNode :=
  (resolveEntry g identifier).map (·.2)

/-- The key of the entry `resolveNode` finds. -/
def resolveKey (g : Graph) (identifier : String) : Option String :=
  (resolveEntry g identifier).map (·.1)

/-- The node `buildGraph`'s first pass stores for one note. -/
def initNode (path : String) (note : Note) : GraphNode :=
  { path := path, title := note.title, tags := note.tags,
    outlinks := note.links, inlinks := [] }

/-- First pass of `buildGraph`: create a node per note (index cleared first). -/
def firstPass (docs : List (String × Note)) : Graph :=
  docs.foldl (fun g pn => mapSet g pn.1 (initNode pn.1 pn.2)) []

/-- `targetNode.inlinks.push(src)` where `targetNode` is the node stored at
key `k`. -/
def pushInlink (g : Graph) (k src : String) : Graph :=
  g.map (fun e =>
    if e.1 = k then (e.1, { e.2 with inlinks := e.2.inlinks ++ [src] }) else e)

/-- One source node's contribution in the second pass: for each of its
outlinks, resolve in the current graph and push the source path onto the
target's inlinks. -/
def addInlinksFrom (src : String) (outs : List String) (g : Graph) : Graph :=
  outs.foldl (fun h o =>
    match resolveEntry h o with
    | some e => pushInlink h e.1 src
    | none => h) g

/-- Second pass of `buildGraph`: populate backlinks.  The iteration ranges
over the (key, outlinks) pairs present when the pass starts; the pass itself
only ever appends inlinks, so this snapshot equals the live JS iteration. -/
def secondPass (g : Graph) : Graph :=
  (g.map (fun e => (e.1, e.2.outlinks))).foldl (fun h po => addInlinksFrom po.1 po.2 h) g

/-- `GraphBuilder.buildGraph` (graph part; the search-index pass is the
separate `buildIndex` below). -/
def buildGraph (docs : List (String × Note)) : Graph :=
  secondPass (firstPass docs)

/-- `target.inlinks = target.inlinks.filter(l => l !== src)` at key `k`. -/
def removeInlink (g : Graph) (k src : String) : Graph :=
  g.map (fun e =>
    if e.1 = k then (e.1, { e.2 with inlinks := e.2.inlinks.filter (fun l => l != src) }) else e)

/-- `updateNode` step 1: remove the inlinks the previous version of this node
contributed to the targets of its previous outlinks. -/
def undoOldContribution (notePath : String) (g : Graph) : Graph :=
  match mapGet g notePath with
  | none => g
  | some oldNode =>
    oldNode.outlinks.foldl (fun h o =>
      match resolveEntry h o with
      | some e => removeInlink h e.1 notePath
      | none => h) g

/-- `updateNode` step 3: re-populate this node's inlinks from every other
node whose outlinks resolve to it (`path === notePath` entries are skipped by
the `continue`, and the resolved node's `path` field is compared). -/
def collectInboundFor (notePath : String) (g : Graph) : Graph :=
  ((g.map (fun e => (e.1, e.2.outlinks))).filter (fun po => po.1 != notePath)).foldl
    (fun h po =>
      po.2.foldl (fun h2 o =>
        match resolveEntry h2 o with
        | some e => if e.2.path = notePath then pushInlink h2 notePath po.1 else h2
        | none => h2) h) g

/-- `updateNode` step 4: push this node's path onto the inlinks of every
target its fresh outlinks resolve to, skipping targets whose `path` field
equals `notePath`. -/
def addOutboundFrom (notePath : String) (g : Graph) : Graph :=
  match mapGet g notePath with
  | none => g
  | some newNode =>
    newNode.outlinks.foldl (fun h o =>
      match resolveEntry h o with
      | some e => if e.2.path = notePath then h else pushInlink h e.1 notePath
      | none => h) g

/-- `GraphBuilder.updateNode` (graph part): `note` is what
`vault.readNote(notePath)` currently returns. -/
def updateNode (g : Graph) (notePath : String) (note : Note) : Graph :=
  addOutboundFrom notePath
    (collectInboundFor notePath
      (mapSet (undoOldContribution notePath g) notePath (initNode notePath note)))

/-- Placeholder node used where the source applies a non-null assertion
(`this.graph.get(x)!`); the well-formedness hypotheses of the theorems below
make these spots unreachable, so the placeholder never influences a proved
result. -/
def defaultNode : GraphNode :=
  { path := "", title := "", tags := [], outlinks := [], inlinks := [] }

/-- The neighbor list every traversal in builder.ts constructs: resolved
outlink targets (by the resolved node's `path` field) followed by inlinks. -/
def neighborList (g : Graph) (n : GraphNode) : List String :=
  n.outlinks.filterMap (fun o => (resolveNode g o).map (·.path)) ++ n.inlinks

/-- The recursive closure inside `getConnectedNodes`.  `fuel` stands for
`depth + 1 - currentDepth`, so `currentDepth > depth` is `fuel = 0`,
`currentDepth > 0` is `fuel + 1 ≤ depth`, and `currentDepth < depth` is
`2 ≤ fuel + 1`.  State is (visited, result). -/
def traverse (g : Graph) (depth : Nat) :
    Nat → String → List String × List GraphNode → List String × List GraphNode
  | 0, _, st => st
  | fuel + 1, path, st =>
    if path ∈ st.1 then st
    else
      let visited := st.1 ++ [path]
      match mapGet g path with
      | none => (visited, st.2)
      | some node =>
        let result := if fuel + 1 ≤ depth then st.2 ++ [node] else st.2
        if 2 ≤ fuel + 1 then
          (neighborList g node).foldl (fun st2 nb => traverse g depth fuel nb st2)
            (visited, result)
        else (visited, result)

/-- `GraphBuilder.getConnectedNodes`. -/
def getConnectedNodes (g : Graph) (notePath : String) (depth : Nat) : List GraphNode :=
  match resolveNode g notePath with
  | none => []
  | some startNode => (traverse g depth (depth + 1) startNode.path ([], [])).2

/-- The inner `for (neighbor of neighbors)` loop of `findShortestPath`:
either finishes with updated (queue, visited), or returns the found path. -/
def bfsStep (targetPath : String) (currentPath : List String) :
    List String → List (List String) → List String →
    (List (List String) × List String) ⊕ List String
  | [], queue, visited => Sum.inl (queue, visited)
  | nb :: rest, queue, visited =>
    if nb ∈ visited then bfsStep targetPath currentPath rest queue visited
    else if nb = targetPath then Sum.inr (currentPath ++ [nb])
    else bfsStep targetPath currentPath rest (queue ++ [currentPath ++ [nb]])
      (visited ++ [nb])

/-- The `while (queue.length > 0)` loop of `findShortestPath`.  The loop
terminates because every iteration either shortens the queue or moves an
unvisited graph key into `visited`; `g.length + 2` fuel is enough, which the
shortest-path theorem below proves rather than assumes. -/
def bfsLoop (g : Graph) (targetPath : String) :
    Nat → List (List String) → List String → Option (List String)
  | 0, _, _ => none
  | _ + 1, [], _ => none
  | fuel + 1, currentPath :: queue, visited =>
    let cur := currentPath.getLastD ""
    let node := (mapGet g cur).getD defaultNode
    match bfsStep targetPath currentPath (neighborList g node) queue visited with
    | Sum.inr found => some found
    | Sum.inl qv => bfsLoop g targetPath fuel qv.1 qv.2

/-- `GraphBuilder.findShortestPath`. -/
def findShortestPath (g : Graph) (sourcePath targetPath : String) :
    Option (List String) :=
  match resolveNode g sourcePath, resolveNode g targetPath with
  | some sourceNode, some targetNode =>
    if sourceNode.path = targetNode.path then some [sourceNode.path]
    else bfsLoop g targetNode.path (g.length + 2) [[sourceNode.path]] [sourceNode.path]
  | _, _ => none

/-- `GraphBuilder.bfsVisit`: mark everything reachable from the queue,
skipping `exclude` (`undefined` is `none`). -/
def bfsVisit (g : Graph) (exclude : Option String) :
    Nat → List String → List String → List String
  | 0, _, visited => visited
  | _ + 1, [], visited => visited
  | fuel + 1, cur :: queue, visited =>
    let node := (mapGet g cur).getD defaultNode
    let qv := (neighborList g node).foldl
      (fun qv2 nb =>
        if nb ∉ qv2.2 ∧ some nb ≠ exclude then (qv2.1 ++ [nb], qv2.2 ++ [nb]) else qv2)
      (queue, visited)
    bfsVisit g exclude fuel qv.1 qv.2

/-- The shared loop of `countComponents` / `countComponentsWithout`. -/
def countComponentsAux (g : Graph) (exclude : Option String) :
    List String → List String → Nat → Nat
  | [], _, count => count
  | p :: rest, visited, count =>
    if p ∈ visited then countComponentsAux g exclude rest visited count
    else countComponentsAux g exclude rest
      (bfsVisit g exclude (g.length + 2) [p] (visited ++ [p])) (count + 1)

/-- `GraphBuilder.countComponents`. -/
def countComponents (g : Graph) : Nat :=
  countComponentsAux g none (mapKeys g) [] 0

/-- `GraphBuilder.countComponentsWithout`. -/
def countComponentsWithout (g : Graph) (excludePath : String) : Nat :=
  countComponentsAux g (some excludePath) (mapKeys g) [excludePath] 0

/-- `GraphBuilder.findBridgeNotes`. -/
def findBridgeNotes (g : Graph) : List GraphNode :=
  let baseline := countComponents g
  g.foldl (fun acc e =>
    if baseline < countComponentsWithout g e.1 then acc ++ [e.2] else acc) []

/-- `GraphBuilder.findOrphanedNodes`. -/
def findOrphanedNodes (g : Graph) : List GraphNode :=
  (g.map (·.2)).filter (fun n => n.inlinks.length == 0 && n.outlinks.length == 0)

/-- Result record of `GraphBuilder.getStats`; the two float fields are
modelled as rationals. -/
structure Stats where
  totalNodes : Nat
  totalEdges : Nat
  orphanedNodes : Nat
  averageConnections : ℚ
  density : ℚ
  components : Nat
deriving Repr

/-- `GraphBuilder.getStats`. -/
def getStats (g : Graph) : Stats :=
  let nodes := g.map (·.2)
  let totalNodes := nodes.length
  let totalEdges := (nodes.map (·.outlinks.length)).sum
  let maxPossibleEdges := totalNodes * (totalNodes - 1)
  { totalNodes := totalNodes
    totalEdges := totalEdges
    orphanedNodes := (findOrphanedNodes g).length
    averageConnections := if 0 < totalNodes then
        (((nodes.map (fun n => n.inlinks.length + n.outlinks.length)).sum : ℕ) : ℚ) / totalNodes
      else 0
    density := if 0 < maxPossibleEdges then (totalEdges : ℚ) / maxPossibleEdges else 0
    components := countComponents g }

/-- `GraphBuilder.exportGraph`: all nodes plus the resolved edge list. -/
def exportGraph (g : Graph) : List GraphNode × List (String × String) :=
  (g.map (·.2),
   (g.map (·.2)).foldl (fun acc n =>
     acc ++ n.outlinks.filterMap (fun o => (resolveNode g o).map (fun t => (n.path, t.path)))) [])

/-! ## Lexical search index (src/search/tfidf.ts) -/

/-- The `STOPWORDS` set. -/
def STOPWORDS : List String :=
  ["the", "a", "an", "is", "are", "was", "were", "be", "been", "being",
   "have", "has", "had", "do", "does", "did", "will", "would", "could",
   "should", "may", "might", "can", "shall", "must",
   "in", "on", "at", "to", "for", "of", "with", "from", "by", "as",
   "and", "or", "but", "not", "nor", "so", "yet",
   "this", "that", "these", "those", "it", "its",
   "if", "then", "than", "when", "where", "how", "what", "which", "who",
   "all", "each", "every", "both", "few", "more", "most", "some", "any",
   "no", "only", "own", "same", "such", "too", "very",
   "just", "about", "above", "after", "again", "also", "because", "before",
   "between", "during", "into", "through", "under", "until", "while"]

/-- Index of the first occurrence of `pat` in `s`, like a regex literal
search. -/
def findSub (pat : List Char) : List Char → Option Nat
  | [] => if pat = [] then some 0 else none
  | c :: rest =>
    if pat.isPrefixOf (c :: rest) then some 0
    else (findSub pat rest).map (· + 1)

/-- `replace(/```[\s\S]*?```/g, ' ')`: each fenced block (lazy match to the
next closing fence) becomes one space; an unclosed opening fence matches
nothing. -/
def stripFenced : Nat → List Char → List Char
  | 0, s => s
  | fuel + 1, s =>
    match findSub ("```".toList) s with
    | none => s
    | some i =>
      let after := s.drop (i + 3)
      match findSub ("```".toList) after with
      | none => s
      | some j => s.take i ++ [' '] ++ stripFenced fuel (after.drop (j + 3))

/-- `replace(/`[^`]+`/g, ' ')`. -/
def stripInlineCode : Nat → List Char → List Char
  | 0, s => s
  | _ + 1, [] => []
  | fuel + 1, c :: rest =>
    if c = '`' then
      match findSub ['`'] rest with
      | none => c :: rest
      | some j =>
        if 0 < j then ' ' :: stripInlineCode fuel (rest.drop (j + 1))
        else c :: stripInlineCode fuel rest
    else c :: stripInlineCode fuel rest

/-- Try to match the tail of `[[target]]` or `[[target|display]]` right after
the opening brackets; on success return the capture (`$1`, the target) and
the remaining input. -/
def wikiMatch (s : List Char) : Option (List Char × List Char) :=
  let target := s.takeWhile (fun c => c != ']' && c != '|')
  if target.isEmpty then none
  else
    match s.drop target.length with
    | ']' :: ']' :: tail => some (target, tail)
    | '|' :: rest2 =>
      let disp := rest2.takeWhile (fun c => c != ']')
      if disp.isEmpty then none
      else
        match rest2.drop disp.length with
        | ']' :: ']' :: tail => some (target, tail)
        | _ => none
    | _ => none

/-- `replace(/\[\[([^\]|]+)(\|[^\]]+)?\]\]/g, '$1')`. -/
def stripWikilinks : Nat → List Char → List Char
  | 0, s => s
  | _ + 1, [] => []
  | fuel + 1, c :: rest =>
    if c = '[' then
      match rest with
      | '[' :: rest2 =>
        match wikiMatch rest2 with
        | some (target, tail) => target ++ stripWikilinks fuel tail
        | none => c :: stripWikilinks fuel rest
      | _ => c :: stripWikilinks fuel rest
    else c :: stripWikilinks fuel rest

/-- Try to match the tail of `[label](url)` right after the opening bracket;
on success return the capture (`$1`, the label) and the remaining input. -/
def mdLinkMatch (s : List Char) : Option (List Char × List Char) :=
  let label := s.takeWhile (fun c => c != ']')
  if label.isEmpty then none
  else
    match s.drop label.length with
    | ']' :: '(' :: rest2 =>
      let url := rest2.takeWhile (fun c => c != ')')
      if url.isEmpty then none
      else
        match rest2.drop url.length with
        | ')' :: tail => some (label, tail)
        | _ => none
    | _ => none

/-- `replace(/\[([^\]]+)\]\([^)]+\)/g, '$1')`. -/
def stripMdLinks : Nat → List Char → List Char
  | 0, s => s
  | _ + 1, [] => []
  | fuel + 1, c :: rest =>
    if c = '[' then
      match mdLinkMatch rest with
      | some (label, tail) => label ++ stripMdLinks fuel tail
      | none => c :: stripMdLinks fuel rest
    else c :: stripMdLinks fuel rest

/-- A JS `\s` character (the ASCII ones; the model's inputs are ASCII). -/
def isJsSpace (c : Char) : Bool :=
  c == ' ' || c == '\t' || c == '\n' || c == '\r' || c == Char.ofNat 11 || c == Char.ofNat 12

/-- `replace(/^#{1,6}\s+/gm, '')`; the Bool tracks whether the scanner is at
a line start (string start or just after a newline). -/
def stripHeadings : Nat → Bool → List Char → List Char
  | 0, _, s => s
  | _ + 1, _, [] => []
  | fuel + 1, atStart, c :: rest =>
    if atStart ∧ c = '#' then
      let hashes := (c :: rest).takeWhile (fun c2 => c2 == '#')
      let n := hashes.length
      let after := (c :: rest).drop n
      let ws := after.takeWhile isJsSpace
      if n ≤ 6 ∧ ¬ ws.isEmpty then
        stripHeadings fuel (ws.getLastD ' ' == '\n') (after.drop ws.length)
      else c :: stripHeadings fuel false rest
    else c :: stripHeadings fuel (c == '\n') rest

/-- `replace(/[*_~]+/g, ' ')` and `replace(/[-|]+/g, ' ')`: collapse every
maximal run of matching characters into one space. -/
def collapseRuns (isTarget : Char → Bool) : Nat → List Char → List Char
  | 0, s => s
  | _ + 1, [] => []
  | fuel + 1, c :: rest =>
    if isTarget c then ' ' :: collapseRuns isTarget fuel (rest.dropWhile isTarget)
    else c :: collapseRuns isTarget fuel rest

/-- The frontmatter replacement (regexp: line-initial dashes `---`, lazy
`[\s\S]*?` body, closing `---`, flag `m`, no `g`): one replacement of the
lazily shortest region from a line-initial `---` to the next `---`,
replaced by a single space. -/
def stripFrontmatter : Nat → Bool → List Char → List Char
  | 0, _, s => s
  | _ + 1, _, [] => []
  | fuel + 1, atStart, c :: rest =>
    if atStart ∧ ("---".toList).isPrefixOf (c :: rest) then
      match findSub ("---".toList) ((c :: rest).drop 3) with
      | some j => ' ' :: ((c :: rest).drop 3).drop (j + 3)
      | none => c :: stripFrontmatter fuel (c == '\n') rest
    else c :: stripFrontmatter fuel (c == '\n') rest

/-- `replace(/^>\s+/gm, ' ')`. -/
def stripBlockquotes : Nat → Bool → List Char → List Char
  | 0, _, s => s
  | _ + 1, _, [] => []
  | fuel + 1, atStart, c :: rest =>
    if atStart ∧ c = '>' then
      let ws := rest.takeWhile isJsSpace
      if ws.isEmpty then c :: stripBlockquotes fuel false rest
      else ' ' :: stripBlockquotes fuel (ws.getLastD ' ' == '\n') (rest.drop ws.length)
    else c :: stripBlockquotes fuel (c == '\n') rest

/-- One of `[a-z0-9]` (the splitting alphabet after lowercasing). -/
def isTokenChar (c : Char) : Bool := ('a' ≤ c && c ≤ 'z') || ('0' ≤ c && c ≤ '9')

/-- The maximal `[a-z0-9]+` runs of the cleaned text.  `split(/[^a-z0-9]+/)`
can also produce empty strings at the two ends, but those never survive the
`length >= 2` filter in `tokenize`, so the run list yields the same tokens. -/
def alnumRuns : Nat → List Char → List (List Char)
  | 0, _ => []
  | fuel + 1, s =>
    let s2 := s.dropWhile (fun c => !(isTokenChar c))
    if s2.isEmpty then []
    else s2.takeWhile isTokenChar :: alnumRuns fuel (s2.dropWhile isTokenChar)

/-- `TfIdfIndex.stem`: ordered first-match-wins suffix stripping. -/
def stem (word : String) : String :=
  if word.length ≤ 3 then word
  else if strEndsWith word "ation" then word.dropRight 5
  else if strEndsWith word "tion" then word.dropRight 4
  else if strEndsWith word "ness" then word.dropRight 4
  else if strEndsWith word "ment" then word.dropRight 4
  else if strEndsWith word "able" then word.dropRight 4
  else if strEndsWith word "ible" then word.dropRight 4
  else if strEndsWith word "ing" ∧ 5 < word.length then word.dropRight 3
  else if strEndsWith word "ies" ∧ 4 < word.length then word.dropRight 3 ++ "y"
  else if strEndsWith word "ed" ∧ 4 < word.length then word.dropRight 2
  else if strEndsWith word "ly" ∧ 4 < word.length then word.dropRight 2
  else if strEndsWith word "es" ∧ 4 < word.length then word.dropRight 2
  else if strEndsWith word "s" ∧ ¬ strEndsWith word "ss" ∧ 3 < word.length then word.dropRight 1
  else word

/-- The markdown-stripping pipeline of `TfIdfIndex.tokenize` followed by
lowercasing, in source order.  Each scanner consumes at least one character
per step, so `length + 1` fuel never runs out. -/
def cleanText (text : String) : List Char :=
  let s0 := text.toList
  let s1 := stripFenced (s0.length + 1) s0
  let s2 := stripInlineCode (s1.length + 1) s1
  let s3 := stripWikilinks (s2.length + 1) s2
  let s4 := stripMdLinks (s3.length + 1) s3
  let s5 := stripHeadings (s4.length + 1) true s4
  let s6 := collapseRuns (fun c => c == '*' || c == '_' || c == '~') (s5.length + 1) s5
  let s7 := stripFrontmatter (s6.length + 1) true s6
  let s8 := stripBlockquotes (s7.length + 1) true s7
  let s9 := collapseRuns (fun c => c == '-' || c == '|') (s8.length + 1) s8
  s9.map Char.toLower

/-- `TfIdfIndex.tokenize`: clean, split, drop short tokens and stopwords,
then stem.  The length filter runs before stemming, so stems may be shorter
than 2 characters. -/
def tokenize (text : String) : List String :=
  let cleaned := cleanText text
  ((alnumRuns (cleaned.length + 1) cleaned).map (fun cs => String.mk cs)).filter
    (fun t => decide (2 ≤ t.length) && !(STOPWORDS.contains t)) |>.map stem

/-- `DocumentVector` from tfidf.ts; the lazily cached L2 magnitude is a real
number. -/
structure DocumentVector where
  path : String
  termFreqs : List (String × Nat)
  totalTerms : Nat
  magnitude : ℝ

/-- The mutable state of the `TfIdfIndex` class. -/
structure TfIdfIndex where
  documents : List (String × DocumentVector)
  documentFreqs : List (String × Nat)
  totalDocuments : Nat
  dirty : Bool

/-- The term-frequency counting loop of `addDocumentInternal`. -/
def countTokens (tokens : List String) : List (String × Nat) :=
  tokens.foldl (fun m t => mapSet m t ((mapGet m t).getD 0 + 1)) []

/-- The document-frequency increment loop of `addDocumentInternal`. -/
def bumpDocFreqs (dfs : List (String × Nat)) (terms : List String) : List (String × Nat) :=
  terms.foldl (fun m t => mapSet m t ((mapGet m t).getD 0 + 1)) dfs

/-- `TfIdfIndex.addDocumentInternal`. -/
def addDocumentInternal (s : TfIdfIndex) (path content : String) : TfIdfIndex :=
  let tokens := tokenize content
  let tf := countTokens tokens
  { documents := mapSet s.documents path
      { path := path, termFreqs := tf, totalTerms := tokens.length, magnitude := 0 }
    documentFreqs := bumpDocFreqs s.documentFreqs (mapKeys tf)
    totalDocuments := s.totalDocuments + 1
    dirty := s.dirty }

/-- The document-frequency decrement loop of `removeDocumentInternal`. -/
def dropDocFreqs (dfs : List (String × Nat)) (terms : List String) : List (String × Nat) :=
  terms.foldl (fun m t =>
    let c := (mapGet m t).getD 0
    if c ≤ 1 then mapDelete m t else mapSet m t (c - 1)) dfs

/-- `TfIdfIndex.removeDocumentInternal`.  (`totalDocuments--` is only reached
when the document existed, so the counter never underflows on states the
class can produce; ℕ subtraction models it.) -/
def removeDocumentInternal (s : TfIdfIndex) (path : String) : TfIdfIndex :=
  match mapGet s.documents path with
  | none => s
  | some doc =>
    { documents := mapDelete s.documents path
      documentFreqs := dropDocFreqs s.documentFreqs (mapKeys doc.termFreqs)
      totalDocuments := s.totalDocuments - 1
      dirty := s.dirty }

/-- `TfIdfIndex.buildIndex` from a path → content map. -/
def buildIndex (docs : List (String × String)) : TfIdfIndex :=
  docs.foldl (fun s pc => addDocumentInternal s pc.1 pc.2)
    { documents := [], documentFreqs := [], totalDocuments := 0, dirty := true }

/-- `TfIdfIndex.updateDocument`: remove-then-add, then mark dirty. -/
def updateDocument (s : TfIdfIndex) (path content : String) : TfIdfIndex :=
  let s2 := addDocumentInternal (removeDocumentInternal s path) path content
  { s2 with dirty := true }

/-- `TfIdfIndex.removeDocument`. -/
def removeDocument (s : TfIdfIndex) (path : String) : TfIdfIndex :=
  { removeDocumentInternal s path with dirty := true }

/-- `TfIdfIndex.tfidf`: smoothed TF-IDF weight of a term. -/
noncomputable def tfidfWeight (s : TfIdfIndex) (term : String)
    (termFreq totalTerms : Nat) : ℝ :=
  let tf : ℝ := (termFreq : ℝ) / (totalTerms : ℝ)
  let df := (mapGet s.documentFreqs term).getD 0
  tf * Real.log (((s.totalDocuments : ℝ) + 1) / ((df : ℝ) + 1))

/-- The per-document magnitude `ensureMagnitudes` computes. -/
noncomputable def docMagnitude (s : TfIdfIndex) (doc : DocumentVector) : ℝ :=
  Real.sqrt ((doc.termFreqs.map
    (fun tc => tfidfWeight s tc.1 tc.2 doc.totalTerms *
               tfidfWeight s tc.1 tc.2 doc.totalTerms)).sum)

/-- `TfIdfIndex.ensureMagnitudes`. -/
noncomputable def ensureMagnitudes (s : TfIdfIndex) : TfIdfIndex :=
  if s.dirty then
    { s with
      documents := s.documents.map (fun pd => (pd.1, { pd.2 with magnitude := docMagnitude s pd.2 }))
      dirty := false }
  else s

/-- `TfIdfIndex.cosineSimilarityWithQuery`.  The loop accumulates the dot
product and the squared query magnitude; `if (docFreq)` is JS truthiness, so
a missing or zero entry contributes nothing. -/
noncomputable def cosineSimilarityWithQuery (s : TfIdfIndex)
    (queryFreqs : List (String × Nat)) (queryTotalTerms : Nat)
    (doc : DocumentVector) : ℝ :=
  if doc.magnitude = 0 then 0
  else
    let dq := queryFreqs.foldl
      (fun acc tc =>
        let qWeight := tfidfWeight s tc.1 tc.2 queryTotalTerms
        let docFreq := (mapGet doc.termFreqs tc.1).getD 0
        if docFreq = 0 then (acc.1, acc.2 + qWeight * qWeight)
        else (acc.1 + qWeight * tfidfWeight s tc.1 docFreq doc.totalTerms,
              acc.2 + qWeight * qWeight))
      ((0 : ℝ), (0 : ℝ))
    let queryMag := Real.sqrt dq.2
    if queryMag = 0 then 0 else dq.1 / (queryMag * doc.magnitude)

/-- JS `Math.round`: round half toward positive infinity. -/
noncomputable def jsRound (x : ℝ) : ℤ := ⌊x + 1 / 2⌋

/-- `Math.round(score * 10000) / 10000`. -/
noncomputable def round4 (x : ℝ) : ℝ := ((jsRound (x * 10000) : ℤ) : ℝ) / 10000

/-- One insertion step of a stable descending sort, matching the stable JS
`sort((a, b) => b.score - a.score)`: an element moves past later elements
only when its score is strictly smaller, so ties keep their original
order. -/
noncomputable def insertScoreDesc (r : String × ℝ) :
    List (String × ℝ) → List (String × ℝ)
  | [] => [r]
  | x :: xs => if r.2 < x.2 then x :: insertScoreDesc r xs else r :: x :: xs

/-- Stable descending insertion sort on scores. -/
noncomputable def sortScoresDesc (l : List (String × ℝ)) : List (String × ℝ) :=
  l.foldr insertScoreDesc []

/-- `TfIdfIndex.search`. -/
noncomputable def tfSearch (s : TfIdfIndex) (query : String) (limit : Nat) :
    List (String × ℝ) :=
  let queryTokens := tokenize query
  if queryTokens.isEmpty then []
  else
    let s2 := ensureMagnitudes s
    let queryFreqs := countTokens queryTokens
    let results := s2.documents.foldl
      (fun acc pd =>
        let score := cosineSimilarityWithQuery s2 queryFreqs queryTokens.length pd.2
        if 0 < score then acc ++ [(pd.1, round4 score)] else acc) []
    (sortScoresDesc results).take limit

/-! ## Specification-side notions

Semantic vocabulary the claims speak in: adjacency, walks, distance bounds,
well-formedness of a graph state, and (for the refinement claim about
`resolveNode`) the spec's own precedence order. -/

/-- The adjacency the builder's traversals realize, read off a key: the
neighbor list of the node stored at `u` (empty for an absent key). -/
def nbrPaths (g : Graph) (u : String) : List String :=
  match mapGet g u with
  | some n => neighborList g n
  | none => []

/-- Walks of a given length along an abstract neighbor function. -/
inductive PathIn (nbr : String → List String) (s : String) : String → Nat → Prop
  | refl : PathIn nbr s s 0
  | step {u v : String} {n : Nat} :
      PathIn nbr s u n → v ∈ nbr u → PathIn nbr s v (n + 1)

/-- A walk of exact length `n` from `s` to `t` in the graph. -/
def PathTo (g : Graph) (s t : String) (n : Nat) : Prop := PathIn (nbrPaths g) s t n

/-- `t` lies within distance `d` of `s`. -/
def ReachesWithin (g : Graph) (s t : String) (d : Nat) : Prop :=
  ∃ n, n ≤ d ∧ PathTo g s t n

/-- `s` and `t` are connected by some walk. -/
def Connected (g : Graph) (s t : String) : Prop := ∃ n, PathTo g s t n

/-- Adjacency of the subgraph with one node (and all its incident edges)
excluded. -/
def nbrPathsWithout (g : Graph) (excl u : String) : List String :=
  if u = excl then [] else (nbrPaths g u).filter (fun v => v != excl)

/-- Connectivity in the subgraph with `excl` removed. -/
def ConnectedWithout (g : Graph) (excl s t : String) : Prop :=
  ∃ n, PathIn (nbrPathsWithout g excl) s t n

/-- Every stored node's `path` field equals its map key (true of every node
the builder ever stores). -/
def PathFieldsMatch (g : Graph) : Prop :=
  ∀ e ∈ g, (e : String × GraphNode).2.path = e.1

/-- Every inlink entry names a present key (the builder only ever records
source keys, and removal prunes them). -/
def InlinkKeysClosed (g : Graph) : Prop :=
  ∀ e ∈ g, ∀ i ∈ (e : String × GraphNode).2.inlinks, i ∈ mapKeys g

/-- Well-formed graph state: distinct keys, path fields matching keys,
inlinks naming present keys. -/
def WFGraph (g : Graph) : Prop :=
  (mapKeys g).Nodup ∧ PathFieldsMatch g ∧ InlinkKeysClosed g

/-- The adjacency is symmetric (holds for graphs the builder produces, where
`v ∈ resolvedOutlinks u ↔ u ∈ inlinks v`). -/
def SymmAdj (g : Graph) : Prop :=
  ∀ u ∈ mapKeys g, ∀ v ∈ nbrPaths g u, u ∈ nbrPaths g v

/-- Fallback strategies 3 and 4 shared by the code and the spec reading of
`resolveNode`: first (in map iteration order) case-insensitive base-name
match, then first case-insensitive title match. -/
def resolveFallback (g : Graph) (r : String) : Option GraphNode :=
  match g.find? (fun e => fileBaseName e.1 == strToLower r) with
  | some e => some e.2
  | none => (g.find? (fun e => strToLower e.2.title == strToLower r)).map (·.2)

/-- Claim C5's reading of the resolution precedence: strategy 2 (append the
standard `.md` extension) applies only when the reference lacks that
extension.  Strategies 3 and 4 are deterministically the first match in map
order, which is one admissible instance of the claim's "some node" — the
counterexample below is independent of that choice because no node matches
either fallback there. -/
def resolveNodeSpecC5 (g : Graph) (r : String) : Option GraphNode :=
  match mapGetEntry g r with
  | some e => some e.2
  | none =>
    if ¬ strEndsWith r ".md" then
      match mapGetEntry g (r ++ ".md") with
      | some e => some e.2
      | none => resolveFallback g r
    else resolveFallback g r

/-- Number of outlink occurrences over the whole graph whose resolution
fails (dangling references). -/
def danglingCount (g : Graph) : Nat :=
  ((g.map (·.2)).map
    (fun n => (n.outlinks.filter (fun o => (resolveNode g o).isNone)).length)).sum

/-- How many outlink occurrences of node `n` resolve to the key `y`. -/
def outlinksResolvingTo (g : Graph) (n : GraphNode) (y : String) : Nat :=
  (n.outlinks.filter (fun o => resolveKey g o == some y)).length

/-- The inlink list stored at key `y` (empty when `y` is absent). -/
def inlinksAt (g : Graph) (y : String) : List String :=
  ((mapGet g y).map (·.inlinks)).getD []

/-- The inlink list a full rebuild assigns to key `y`: one entry per source
node (in map order) and outlink occurrence whose resolution lands on `y`. -/
def specInlinks (g : Graph) (y : String) : List String :=
  (g.map (fun e => (e.1, e.2.outlinks))).flatMap
    (fun po => (po.2.filter (fun o => resolveKey g o == some y)).map (fun _ => po.1))

/-- A graph with all inlink lists blanked: the "skeleton" (keys, titles,
paths, tags, outlinks) that resolution and edge construction read. -/
def eraseInlinks (g : Graph) : Graph :=
  g.map (fun e => (e.1, { e.2 with inlinks := [] }))

/-- One BFS queue entry: a nonempty chain of consecutive neighbors starting
at `s`. -/
def ValidEntry (g : Graph) (s : String) (p : List String) : Prop :=
  p ≠ [] ∧ p.head? = some s ∧ List.Chain' (fun u v => v ∈ nbrPaths g u) p

/-- The node a BFS queue entry currently ends at
(`currentPath[currentPath.length - 1]`). -/
def entryEnd (p : List String) : String := p.getLastD ""

/-- A queue entry is an optimal route to its end node. -/
def EntryOpt (g : Graph) (s : String) (p : List String) : Prop :=
  ∀ n, PathTo g s (entryEnd p) n → p.length ≤ n + 1

/-- A BFS queue holds chains of at most two consecutive lengths, shorter
first. -/
def TwoLevel (queue : List (List String)) : Prop :=
  ∃ (A B : List (List String)) (l : Nat), queue = A ++ B ∧
    (∀ p ∈ A, p.length = l) ∧ (∀ p ∈ B, p.length = l + 1)

/-- The loop invariant of `findShortestPath`'s BFS: visited nodes are
distinct present keys containing the source but never the target; queue
entries are optimal chains from the source ending at visited nodes; every
visited node that no queue entry ends at has been fully expanded; and the
queue is two-level length-sorted. -/
def BfsInv (g : Graph) (s t : String) (queue : List (List String))
    (visited : List String) : Prop :=
  visited.Nodup ∧ s ∈ visited ∧ t ∉ visited ∧ (∀ v ∈ visited, v ∈ mapKeys g) ∧
  (∀ p ∈ queue, ValidEntry g s p ∧ entryEnd p ∈ visited ∧ EntryOpt g s p) ∧
  (∀ v ∈ visited, (∀ p ∈ queue, entryEnd p ≠ v) → ∀ w ∈ nbrPaths g v, w ∈ visited) ∧
  TwoLevel queue

/-- Number of graph keys not yet visited (the BFS termination potential). -/
def unvisitedCount (g : Graph) (visited : List String) : Nat :=
  ((mapKeys g).filter (fun k => decide (k ∉ visited))).length

/-- The adjacency `bfsVisit` effectively explores: neighbors other than the
excluded node (`none` excludes nothing). -/
def nbrEx (g : Graph) (ex : Option String) (u : String) : List String :=
  (nbrPaths g u).filter (fun w => decide (some w ≠ ex))

/-- Reachability along the exclusion-filtered adjacency. -/
def ReachEx (g : Graph) (ex : Option String) (s t : String) : Prop :=
  ∃ n, PathIn (nbrEx g ex) s t n

/-- `c` is the number of connected components of the graph on `univ` with
adjacency `nbr`: witnessed by a duplicate-free list of representatives, one
per class — pairwise unreachable from each other and jointly covering
`univ`. -/
def IsComponentCount (nbr : String → List String) (univ : List String)
    (c : Nat) : Prop :=
  ∃ reps : List String, reps.length = c ∧ reps.Nodup ∧
    (∀ r ∈ reps, r ∈ univ) ∧
    (∀ r1 ∈ reps, ∀ r2 ∈ reps, (∃ n, PathIn nbr r1 r2 n) → r1 = r2) ∧
    (∀ k ∈ univ, ∃ r ∈ reps, ∃ n, PathIn nbr r k n)

/-! ## Concrete fixtures used by counterexamples and witnesses -/

/-- A note with only the fields the graph part reads. -/
def mkNote (t : String) (links : List String) : Note :=
  { title := t, tags := [], links := links, content := "" }

/-- One document whose outlink resolves to itself. -/
def docsSelfLink : List (String × Note) := [("a.md", mkNote "A" ["a.md"])]

/-- Two documents; the first links to the second twice. -/
def docsDoubleLink : List (String × Note) :=
  [("a.md", mkNote "A" ["b.md", "b.md"]), ("b.md", mkNote "B" [])]

/-- One document with a dangling outlink. -/
def docsDangling : List (String × Note) := [("a.md", mkNote "A" ["missing"])]

/-- Graph where the depth-limited depth-first traversal of
`getConnectedNodes` reaches b first through the longer branch s-a-b and
therefore never expands b, missing c although c is at undirected distance 2
from s. -/
def docsDfsMiss : List (String × Note) :=
  [("s.md", mkNote "S" ["a.md", "b.md"]), ("a.md", mkNote "A" ["b.md"]),
   ("b.md", mkNote "B" ["c.md"]), ("c.md", mkNote "C" [])]

/-- Node whose id already ends in a doubled extension. -/
def nodeExt : GraphNode :=
  { path := "dir/a.md.md", title := "zzz", tags := [], outlinks := [], inlinks := [] }

/-- Graph exercising the unconditional extension-append of `resolveNode`. -/
def gExt : Graph := [("dir/a.md.md", nodeExt)]

/-- Document vector of a 10101-word note: 10100 occurrences of "zz" and one
of "uq" (the state `addDocumentInternal` produces for such a note, before
magnitudes are cached). -/
def s8doc : DocumentVector :=
  { path := "d.md", termFreqs := [("zz", 10100), ("uq", 1)],
    totalTerms := 10101, magnitude := 0 }

/-- Document vector of the one-word note "vq". -/
def s8other : DocumentVector :=
  { path := "e.md", termFreqs := [("vq", 1)], totalTerms := 1, magnitude := 0 }

/-- The index state `buildIndex` produces for the two notes above: term
frequencies per document, global document frequencies, two documents,
magnitudes not yet cached. -/
def s8 : TfIdfIndex :=
  { documents := [("d.md", s8doc), ("e.md", s8other)]
    documentFreqs := [("zz", 1), ("uq", 1), ("vq", 1)]
    totalDocuments := 2
    dirty := true }

/-- Chain a → b → c. -/
def docsChain3 : List (String × Note) :=
  [("a.md", mkNote "A" ["b"]), ("b.md", mkNote "B" ["c"]), ("c.md", mkNote "C" [])]

/-- Triangle a → b → c → a. -/
def docsTriangle : List (String × Note) :=
  [("a.md", mkNote "A" ["b"]), ("b.md", mkNote "B" ["c"]), ("c.md", mkNote "C" ["a"])]

/-! ## Theorems -/

theorem mapGetEntry_eq_some {β : Type} : ∀ {m : List (String × β)} {k : String}
    {e : String × β}, mapGetEntry m k = some e → e.1 = k ∧ e ∈ m := by
  intro m
  induction m with
  | nil => intro k e h; simp [mapGetEntry] at h
  | cons hd tl ih =>
    intro k e h
    obtain ⟨k1, v1⟩ := hd
    simp only [mapGetEntry] at h
    by_cases hk : k1 = k
    · subst hk
      rw [if_pos rfl] at h
      injection h with h2
      subst h2
      exact ⟨rfl, List.mem_cons_self _ _⟩
    · rw [if_neg hk] at h
      rcases ih h with ⟨h1, h2⟩
      exact ⟨h1, List.mem_cons_of_mem _ h2⟩

theorem mapGet_eq_none_iff {β : Type} {m : List (String × β)} {k : String} :
    mapGet m k = none ↔ mapGetEntry m k = none := by
  unfold mapGet; cases mapGetEntry m k <;> simp

/-- C5 amended: resolution precedence as the source implements it — exact
id; then the id with ".md" appended (unconditionally, whether or not the
reference already ends in ".md"); then first case-insensitive base-name
match; then first case-insensitive title match; none when nothing matches. -/
theorem c5_resolution_precedence (g : Graph) (r : String) :
    (∀ n, mapGet g r = some n → resolveNode g r = some n) ∧
    (mapGet g r = none → ∀ n, mapGet g (r ++ ".md") = some n → resolveNode g r = some n) ∧
    (mapGet g r = none → mapGet g (r ++ ".md") = none →
      resolveNode g r = resolveFallback g r) ∧
    (∀ n, resolveFallback g r = some n →
      ∃ e ∈ g, (e : String × GraphNode).2 = n ∧
        (fileBaseName e.1 = strToLower r ∨ strToLower e.2.title = strToLower r)) ∧
    ((∀ e ∈ g, ¬ (fileBaseName (e : String × GraphNode).1 = strToLower r) ∧
        ¬ (strToLower e.2.title = strToLower r)) → resolveFallback g r = none) := by
  refine ⟨?_, ?_, ?_, ?_, ?_⟩
  · intro n h
    unfold resolveNode resolveEntry
    unfold mapGet at h
    cases h1 : mapGetEntry g r with
    | none => rw [h1] at h; simp at h
    | some e => rw [h1] at h; simp at h ⊢; exact h
  · intro h0 n h
    rw [mapGet_eq_none_iff] at h0
    unfold resolveNode resolveEntry
    unfold mapGet at h
    rw [h0]
    cases h1 : mapGetEntry g (r ++ ".md") with
    | none => rw [h1] at h; simp at h
    | some e => rw [h1] at h; simp at h ⊢; exact h
  · intro h0 h1
    rw [mapGet_eq_none_iff] at h0 h1
    unfold resolveNode resolveEntry resolveFallback
    rw [h0, h1]
    cases h2 : g.find? (fun e => fileBaseName e.1 == strToLower r) with
    | none => simp
    | some e => simp
  · intro n h
    unfold resolveFallback at h
    cases h2 : g.find? (fun e => fileBaseName e.1 == strToLower r) with
    | some e =>
      rw [h2] at h
      simp at h
      refine ⟨e, List.mem_of_find?_eq_some h2, h ▸ rfl, Or.inl ?_⟩
      have := List.find?_some h2
      simpa using this
    | none =>
      rw [h2] at h
      cases h3 : g.find? (fun e => strToLower e.2.title == strToLower r) with
      | none => rw [h3] at h; simp at h
      | some e =>
        rw [h3] at h
        simp at h
        refine ⟨e, List.mem_of_find?_eq_some h3, h, Or.inr ?_⟩
        have := List.find?_some h3
        simpa using this
  · intro hall
    unfold resolveFallback
    have hb : g.find? (fun e => fileBaseName e.1 == strToLower r) = none := by
      rw [List.find?_eq_none]
      intro e he
      simpa using (hall e he).1
    have ht : g.find? (fun e => strToLower e.2.title == strToLower r) = none := by
      rw [List.find?_eq_none]
      intro e he
      simpa using (hall e he).2
    rw [hb, ht]
    rfl

/-- Witness instantiating `c5_resolution_precedence` at a concrete graph,
discharging the exact-match hypothesis. -/
theorem c5_resolution_precedence_witness :
    resolveNode gExt "dir/a.md.md" = some nodeExt :=
  (c5_resolution_precedence gExt "dir/a.md.md").1 nodeExt (by decide)

theorem foldl_append_length {α β : Type} (f : α → List β) :
    ∀ (l : List α) (init : List β),
      (l.foldl (fun acc n => acc ++ f n) init).length
        = init.length + (l.map (fun n => (f n).length)).sum := by
  intro l
  induction l with
  | nil => intro init; simp
  | cons hd tl ih =>
    intro init
    simp only [List.foldl_cons, List.map_cons, List.sum_cons]
    rw [ih]
    simp [Nat.add_assoc]

theorem length_filterMap_add_filter_isNone {α β : Type} (f : α → Option β) :
    ∀ l : List α,
      (l.filterMap f).length + (l.filter (fun o => (f o).isNone)).length = l.length := by
  intro l
  induction l with
  | nil => simp
  | cons hd tl ih =>
    cases h : f hd with
    | none =>
      simp only [List.filterMap_cons, h, List.filter_cons]
      simp only [h, Option.isNone_none]
      simp only [List.length_cons, ← ih]
      simp
      omega
    | some b =>
      simp only [List.filterMap_cons, h, List.filter_cons]
      simp only [h, Option.isNone_some]
      simp only [List.length_cons, ← ih]
      simp
      omega

theorem sum_map_add {α : Type} (f h : α → Nat) :
    ∀ l : List α, (l.map (fun n => f n + h n)).sum = (l.map f).sum + (l.map h).sum := by
  intro l
  induction l with
  | nil => simp
  | cons hd tl ih => simp [ih]; omega

/-- C3 amended: `getStats().totalEdges` counts one per outlink occurrence
regardless of whether it resolves; it equals the resolved-edge count that
`exportGraph` reports plus the number of dangling outlinks. -/
theorem c3_total_edges_decomposition (g : Graph) :
    (getStats g).totalEdges = (exportGraph g).2.length + danglingCount g := by
  unfold getStats exportGraph danglingCount
  simp only
  rw [foldl_append_length]
  simp only [List.length_nil, Nat.zero_add]
  have hpt : ∀ n : GraphNode,
      (n.outlinks.filterMap (fun o => (resolveNode g o).map (fun t => (n.path, t.path)))).length
        + (n.outlinks.filter (fun o => (resolveNode g o).isNone)).length
      = n.outlinks.length := by
    intro n
    have h1 := length_filterMap_add_filter_isNone
      (fun o => (resolveNode g o).map (fun t => (n.path, t.path))) n.outlinks
    have h2 : (n.outlinks.filter
        (fun o => ((resolveNode g o).map (fun t => (n.path, t.path))).isNone)).length
        = (n.outlinks.filter (fun o => (resolveNode g o).isNone)).length := by
      congr 1
      apply List.filter_congr
      intro o _
      cases resolveNode g o <;> simp
    rw [h2] at h1
    exact h1
  have := sum_map_add
    (fun n : GraphNode =>
      (n.outlinks.filterMap (fun o => (resolveNode g o).map (fun t => (n.path, t.path)))).length)
    (fun n : GraphNode =>
      (n.outlinks.filter (fun o => (resolveNode g o).isNone)).length) (g.map (·.2))
  rw [← this]
  congr 1
  apply List.map_congr_left
  intro n _
  exact (hpt n).symm

/-- C9: the `length >= 2` filter of `tokenize` runs before suffix stripping,
so stemming can shrink a surviving word below two characters: "nation" stems
to the single-character token "n" and "ation" stems to the empty token. -/
theorem c9_filter_before_stemming :
    tokenize "nation" = ["n"] ∧ tokenize "ation" = [""] ∧
    ∃ t ∈ tokenize "nation", t.length < 2 := by
  refine ⟨by decide, by decide, "n", by decide, by decide⟩

/-- Counterexample to C1 as stated: for the one-document collection whose
document links to itself, the full build records the self-link inlink
`["a.md"]`, but `updateNode` on that very graph drops it (both repopulation
loops skip the node itself), so the inlink multisets differ. -/
theorem c1_counterexample :
    (mapGet (buildGraph docsSelfLink) "a.md").map (·.inlinks) = some ["a.md"] ∧
    (mapGet (updateNode (buildGraph docsSelfLink) "a.md" (mkNote "A" ["a.md"])) "a.md").map
      (·.inlinks) = some [] ∧
    ¬ (inlinksAt (updateNode (buildGraph docsSelfLink) "a.md" (mkNote "A" ["a.md"]))
        "a.md").Perm (inlinksAt (buildGraph docsSelfLink) "a.md") := by
  refine ⟨by decide, by decide, by decide⟩

/-- Counterexample to C2 as stated: (i) with two outlinks of a.md both
resolving to b.md, the full build stores a.md twice in b.md's inlinks, not
exactly once; (ii) for the self-linking single document, the full build
stores the inlink once but `updateNode` from the empty graph stores it zero
times, so the two routes do not agree either. -/
theorem c2_counterexample :
    ((mapGet (buildGraph docsDoubleLink) "b.md").map (fun n => n.inlinks.count "a.md")
      = some 2) ∧
    (resolveKey (buildGraph docsDoubleLink) "b.md" = some "b.md") ∧
    ((mapGet (buildGraph docsSelfLink) "a.md").map (fun n => n.inlinks.count "a.md")
      = some 1) ∧
    ((mapGet (updateNode ([] : Graph) "a.md" (mkNote "A" ["a.md"])) "a.md").map
      (fun n => n.inlinks.count "a.md") = some 0) ∧
    (resolveKey (buildGraph docsSelfLink) "a.md" = some "a.md") := by
  refine ⟨by decide, by decide, by decide, by decide, by decide⟩

/-- Counterexample to C3 as stated: a single dangling outlink still counts
toward `totalEdges` (the source sums raw `outlinks.length`), although it
creates no resolved edge. -/
theorem c3_counterexample :
    (getStats (buildGraph docsDangling)).totalEdges = 1 ∧
    (exportGraph (buildGraph docsDangling)).2 = [] ∧
    resolveNode (buildGraph docsDangling) "missing" = none := by
  refine ⟨by decide, by decide, by decide⟩

/-- Counterexample to C4 as stated: with depth 2 from s.md, the traversal
first reaches b.md at depth 2 through the branch s-a-b and therefore never
expands it, so c.md — at undirected distance 2 via the direct edge s-b and
then b-c — is missing from the result. -/
theorem c4_counterexample :
    ((getConnectedNodes (buildGraph docsDfsMiss) "s.md" 2).map (·.path)
       = ["a.md", "b.md"]) ∧
    ReachesWithin (buildGraph docsDfsMiss) "s.md" "c.md" 2 ∧
    "c.md" ∉ (getConnectedNodes (buildGraph docsDfsMiss) "s.md" 2).map (·.path) := by
  refine ⟨by decide, ⟨2, le_refl 2, ?_⟩, by decide⟩
  show PathIn (nbrPaths (buildGraph docsDfsMiss)) "s.md" "c.md" 2
  exact PathIn.step (u := "b.md") (PathIn.step PathIn.refl (by decide)) (by decide)

/-- Counterexample to C5 as stated: the source appends ".md" even when the
reference already ends with it.  With the single node "dir/a.md.md" (title
"zzz"), the reference "dir/a.md" resolves through that unconditional append,
although under the claim's precedence (strategy 2 skipped because the
reference has the extension; no base-name or title match — the base name of
the node is "a.md", not "dir/a.md") resolution must fail. -/
theorem c5_counterexample :
    resolveNode gExt "dir/a.md" = some nodeExt ∧
    resolveNodeSpecC5 gExt "dir/a.md" = none ∧
    strEndsWith "dir/a.md" ".md" = true ∧
    fileBaseName "dir/a.md.md" = "a.md" := by
  refine ⟨by decide, by decide, by decide, by decide⟩

/-! ### Map and skeleton machinery for the build/update refinement -/

theorem mapGetEntry_map {β : Type} (f : String × β → String × β)
    (hf : ∀ e, (f e).1 = e.1) :
    ∀ (m : List (String × β)) (k : String),
      mapGetEntry (m.map f) k = (mapGetEntry m k).map f := by
  intro m
  induction m with
  | nil => intro k; rfl
  | cons hd tl ih =>
    intro k
    simp only [List.map_cons]
    obtain ⟨k1, v1⟩ := hd
    show mapGetEntry (f (k1, v1) :: tl.map f) k = _
    rcases hfe : f (k1, v1) with ⟨k2, v2⟩
    have hk : k2 = k1 := by
      have := hf (k1, v1)
      rw [hfe] at this
      exact this
    subst hk
    by_cases h : k2 = k
    · subst h
      simp [mapGetEntry, hfe]
    · simp only [mapGetEntry, if_neg h]
      exact ih k

theorem find?_map_pred {β : Type} (f : String × β → String × β) (p q : String × β → Bool)
    (hpq : ∀ e, p (f e) = q e) :
    ∀ m : List (String × β), (m.map f).find? p = (m.find? q).map f := by
  intro m
  induction m with
  | nil => rfl
  | cons hd tl ih =>
    simp only [List.map_cons, List.find?_cons]
    rw [hpq hd]
    cases q hd <;> simp [ih]

/-- Resolution over a field-preserving entry map: the resolved entry is the
image of the original resolved entry.  Covers `pushInlink`, `removeInlink`
and `eraseInlinks`, all of which keep keys and titles. -/
theorem resolveEntry_map (g : Graph) (f : String × GraphNode → String × GraphNode)
    (hf1 : ∀ e, (f e).1 = e.1) (hft : ∀ e, (f e).2.title = e.2.title) (o : String) :
    resolveEntry (g.map f) o = (resolveEntry g o).map f := by
  unfold resolveEntry
  rw [mapGetEntry_map f hf1, mapGetEntry_map f hf1,
    find?_map_pred f _ (fun e => fileBaseName e.1 == strToLower o) (fun e => by rw [hf1 e]),
    find?_map_pred f _ (fun e => strToLower e.2.title == strToLower o) (fun e => by rw [hft e])]
  cases mapGetEntry g o with
  | some e => rfl
  | none =>
    cases mapGetEntry g (o ++ ".md") with
    | some e => rfl
    | none =>
      cases g.find? (fun e => fileBaseName e.1 == strToLower o) with
      | some e => rfl
      | none => rfl

theorem resolveKey_map (g : Graph) (f : String × GraphNode → String × GraphNode)
    (hf1 : ∀ e, (f e).1 = e.1) (hft : ∀ e, (f e).2.title = e.2.title) (o : String) :
    resolveKey (g.map f) o = resolveKey g o := by
  unfold resolveKey
  rw [resolveEntry_map g f hf1 hft]
  cases resolveEntry g o with
  | none => rfl
  | some e => simp [hf1 e]

theorem eraseInlinks_key (e : String × GraphNode) :
    ((fun e : String × GraphNode => (e.1, { e.2 with inlinks := [] })) e).1 = e.1 := rfl

theorem resolveKey_eraseInlinks (g : Graph) (o : String) :
    resolveKey (eraseInlinks g) o = resolveKey g o := by
  unfold eraseInlinks
  exact resolveKey_map g (fun e => (e.1, { e.2 with inlinks := [] }))
    (fun _ => rfl) (fun _ => rfl) o

/-- Two graphs with the same skeleton resolve every reference to the same
key. -/
theorem resolveKey_congr {g h : Graph} (hsk : eraseInlinks g = eraseInlinks h)
    (o : String) : resolveKey g o = resolveKey h o := by
  rw [← resolveKey_eraseInlinks g, ← resolveKey_eraseInlinks h, hsk]

theorem eraseInlinks_pushInlink (g : Graph) (k src : String) :
    eraseInlinks (pushInlink g k src) = eraseInlinks g := by
  unfold eraseInlinks pushInlink
  rw [List.map_map]
  apply List.map_congr_left
  intro e _
  by_cases h : e.1 = k <;> simp [h]

theorem eraseInlinks_removeInlink (g : Graph) (k src : String) :
    eraseInlinks (removeInlink g k src) = eraseInlinks g := by
  unfold eraseInlinks removeInlink
  rw [List.map_map]
  apply List.map_congr_left
  intro e _
  by_cases h : e.1 = k <;> simp [h]

theorem mapGetEntry_pushInlink (g : Graph) (k src y : String) :
    mapGetEntry (pushInlink g k src) y
      = (mapGetEntry g y).map (fun e =>
          if e.1 = k then (e.1, { e.2 with inlinks := e.2.inlinks ++ [src] }) else e) :=
  mapGetEntry_map _ (fun e => by by_cases h : e.1 = k <;> simp [h]) g y

theorem mapGetEntry_removeInlink (g : Graph) (k src y : String) :
    mapGetEntry (removeInlink g k src) y
      = (mapGetEntry g y).map (fun e =>
          if e.1 = k then (e.1, { e.2 with inlinks := e.2.inlinks.filter (fun l => l != src) })
          else e) :=
  mapGetEntry_map _ (fun e => by by_cases h : e.1 = k <;> simp [h]) g y

theorem inlinksAt_pushInlink_same {g : Graph} {k : String}
    (hk : (mapGetEntry g k).isSome) (src : String) :
    inlinksAt (pushInlink g k src) k = inlinksAt g k ++ [src] := by
  unfold inlinksAt mapGet
  rw [mapGetEntry_pushInlink]
  cases h : mapGetEntry g k with
  | none => rw [h] at hk; simp at hk
  | some e =>
    have he1 : e.1 = k := (mapGetEntry_eq_some h).1
    simp [he1]

theorem inlinksAt_pushInlink_other {g : Graph} {k y : String} (hne : y ≠ k)
    (src : String) : inlinksAt (pushInlink g k src) y = inlinksAt g y := by
  unfold inlinksAt mapGet
  rw [mapGetEntry_pushInlink]
  cases h : mapGetEntry g y with
  | none => rfl
  | some e =>
    have he1 : e.1 = y := (mapGetEntry_eq_some h).1
    have : ¬ (e.1 = k) := by rw [he1]; exact hne
    simp [this]

theorem inlinksAt_removeInlink_same {g : Graph} {k : String}
    (hk : (mapGetEntry g k).isSome) (src : String) :
    inlinksAt (removeInlink g k src) k = (inlinksAt g k).filter (fun l => l != src) := by
  unfold inlinksAt mapGet
  rw [mapGetEntry_removeInlink]
  cases h : mapGetEntry g k with
  | none => rw [h] at hk; simp at hk
  | some e =>
    have he1 : e.1 = k := (mapGetEntry_eq_some h).1
    simp [he1]

theorem inlinksAt_removeInlink_other {g : Graph} {k y : String} (hne : y ≠ k)
    (src : String) : inlinksAt (removeInlink g k src) y = inlinksAt g y := by
  unfold inlinksAt mapGet
  rw [mapGetEntry_removeInlink]
  cases h : mapGetEntry g y with
  | none => rfl
  | some e =>
    have he1 : e.1 = y := (mapGetEntry_eq_some h).1
    have : ¬ (e.1 = k) := by rw [he1]; exact hne
    simp [this]

theorem resolveEntry_mem {g : Graph} {o : String} {e : String × GraphNode}
    (h : resolveEntry g o = some e) : e ∈ g := by
  unfold resolveEntry at h
  cases h1 : mapGetEntry g o with
  | some e1 =>
    rw [h1] at h
    obtain rfl := Option.some.inj h
    exact (mapGetEntry_eq_some h1).2
  | none =>
    rw [h1] at h
    cases h2 : mapGetEntry g (o ++ ".md") with
    | some e2 =>
      rw [h2] at h
      obtain rfl := Option.some.inj h
      exact (mapGetEntry_eq_some h2).2
    | none =>
      rw [h2] at h
      cases h3 : g.find? (fun e => fileBaseName e.1 == strToLower o) with
      | some e3 =>
        rw [h3] at h
        obtain rfl := Option.some.inj h
        exact List.mem_of_find?_eq_some h3
      | none =>
        rw [h3] at h
        exact List.mem_of_find?_eq_some h

theorem mapGetEntry_isSome_of_mem {β : Type} {m : List (String × β)}
    {e : String × β} (h : e ∈ m) : (mapGetEntry m e.1).isSome := by
  induction m with
  | nil => simp at h
  | cons hd tl ih =>
    obtain ⟨k1, v1⟩ := hd
    rcases List.mem_cons.mp h with h1 | h1
    · subst h1
      simp [mapGetEntry]
    · show (if k1 = e.1 then some (k1, v1) else mapGetEntry tl e.1).isSome
      by_cases hk : k1 = e.1
      · simp [hk]
      · rw [if_neg hk]
        exact ih h1

theorem resolveKey_isSome_key {g : Graph} {o k : String}
    (h : resolveKey g o = some k) : (mapGetEntry g k).isSome := by
  unfold resolveKey at h
  cases he : resolveEntry g o with
  | none => rw [he] at h; simp at h
  | some e =>
    rw [he] at h
    simp at h
    have := mapGetEntry_isSome_of_mem (resolveEntry_mem he)
    rw [h] at this
    exact this

theorem resolveKey_pushInlink (g : Graph) (k src o : String) :
    resolveKey (pushInlink g k src) o = resolveKey g o :=
  resolveKey_map g _ (fun e => by by_cases h : e.1 = k <;> simp [h])
    (fun e => by by_cases h : e.1 = k <;> simp [h]) o

theorem addInlinksFrom_cons (src o : String) (rest : List String) (g : Graph) :
    addInlinksFrom src (o :: rest) g
      = addInlinksFrom src rest
          (match resolveEntry g o with
           | some e => pushInlink g e.1 src
           | none => g) := by
  unfold addInlinksFrom
  rw [List.foldl_cons]

theorem eraseInlinks_addInlinksFrom (src : String) :
    ∀ (outs : List String) (g : Graph),
      eraseInlinks (addInlinksFrom src outs g) = eraseInlinks g := by
  intro outs
  induction outs with
  | nil => intro g; rfl
  | cons o rest ih =>
    intro g
    rw [addInlinksFrom_cons]
    cases he : resolveEntry g o with
    | none =>
      simp only [he]
      exact ih g
    | some e =>
      simp only [he]
      rw [ih (pushInlink g e.1 src), eraseInlinks_pushInlink]

theorem inlinksAt_addInlinksFrom (src : String) :
    ∀ (outs : List String) (g : Graph) (y : String),
      inlinksAt (addInlinksFrom src outs g) y
        = inlinksAt g y
          ++ (outs.filter (fun o => resolveKey g o == some y)).map (fun _ => src) := by
  intro outs
  induction outs with
  | nil => intro g y; simp [addInlinksFrom]
  | cons o rest ih =>
    intro g y
    rw [addInlinksFrom_cons]
    cases he : resolveEntry g o with
    | none =>
      simp only [he]
      rw [ih g y]
      have hko : resolveKey g o = none := by unfold resolveKey; rw [he]; rfl
      rw [List.filter_cons]
      simp [hko]
    | some e =>
      simp only [he]
      rw [ih (pushInlink g e.1 src) y]
      have hko : resolveKey g o = some e.1 := by unfold resolveKey; rw [he]; rfl
      have hrk : ∀ o2, resolveKey (pushInlink g e.1 src) o2 = resolveKey g o2 :=
        fun o2 => resolveKey_pushInlink g e.1 src o2
      rw [List.filter_congr (fun o2 _ => by rw [hrk o2])]
      rw [List.filter_cons]
      by_cases hy : y = e.1
      · subst hy
        have hpresent : (mapGetEntry g e.1).isSome :=
          mapGetEntry_isSome_of_mem (resolveEntry_mem he)
        rw [inlinksAt_pushInlink_same hpresent src]
        simp [hko]
      · rw [inlinksAt_pushInlink_other hy src]
        have : (resolveKey g o == some y) = false := by
          rw [hko]
          simp
          intro hc
          exact hy hc.symm
        simp [this]

theorem eraseInlinks_secondPassFold :
    ∀ (L : List (String × List String)) (g : Graph),
      eraseInlinks (L.foldl (fun h po => addInlinksFrom po.1 po.2 h) g) = eraseInlinks g := by
  intro L
  induction L with
  | nil => intro g; rfl
  | cons po rest ih =>
    intro g
    show eraseInlinks (rest.foldl _ (addInlinksFrom po.1 po.2 g)) = _
    rw [ih (addInlinksFrom po.1 po.2 g), eraseInlinks_addInlinksFrom]

theorem inlinksAt_secondPassFold :
    ∀ (L : List (String × List String)) (g : Graph) (y : String),
      inlinksAt (L.foldl (fun h po => addInlinksFrom po.1 po.2 h) g) y
        = inlinksAt g y
          ++ L.flatMap (fun po =>
              (po.2.filter (fun o => resolveKey g o == some y)).map (fun _ => po.1)) := by
  intro L
  induction L with
  | nil => intro g y; simp
  | cons po rest ih =>
    intro g y
    show inlinksAt (rest.foldl _ (addInlinksFrom po.1 po.2 g)) y = _
    rw [ih (addInlinksFrom po.1 po.2 g) y, inlinksAt_addInlinksFrom]
    have hrk : ∀ o2, resolveKey (addInlinksFrom po.1 po.2 g) o2 = resolveKey g o2 :=
      fun o2 => resolveKey_congr (eraseInlinks_addInlinksFrom po.1 po.2 g) o2
    rw [List.flatMap_cons, List.append_assoc]
    congr 1
    congr 1
    apply List.flatMap_congr  -- hmm may not exist; fallback below
    intro po2 _
    rw [List.filter_congr (fun o2 _ => by rw [hrk o2])]

theorem eraseInlinks_secondPass (g : Graph) :
    eraseInlinks (secondPass g) = eraseInlinks g :=
  eraseInlinks_secondPassFold _ g

/-- The skeleton determines the (key, outlinks) snapshot. -/
theorem snapshot_congr {g h : Graph} (hsk : eraseInlinks g = eraseInlinks h) :
    g.map (fun e => (e.1, e.2.outlinks)) = h.map (fun e => (e.1, e.2.outlinks)) := by
  have hg : g.map (fun e => (e.1, e.2.outlinks))
      = (eraseInlinks g).map (fun e => (e.1, e.2.outlinks)) := by
    unfold eraseInlinks
    rw [List.map_map]
    rfl
  have hh : h.map (fun e => (e.1, e.2.outlinks))
      = (eraseInlinks h).map (fun e => (e.1, e.2.outlinks)) := by
    unfold eraseInlinks
    rw [List.map_map]
    rfl
  rw [hg, hh, hsk]

theorem specInlinks_congr {g h : Graph} (hsk : eraseInlinks g = eraseInlinks h)
    (y : String) : specInlinks g y = specInlinks h y := by
  unfold specInlinks
  rw [snapshot_congr hsk]
  apply List.flatMap_congr
  intro po _
  rw [List.filter_congr (fun o _ => by rw [resolveKey_congr hsk o])]

theorem mem_mapSet {β : Type} {k : String} {v : β} {e : String × β} :
    ∀ {m : List (String × β)}, e ∈ mapSet m k v → e ∈ m ∨ e = (k, v) := by
  intro m
  induction m with
  | nil => intro h; simp [mapSet] at h; right; exact h
  | cons hd tl ih =>
    intro h
    obtain ⟨k1, v1⟩ := hd
    unfold mapSet at h
    by_cases hk : k1 = k
    · rw [if_pos hk] at h
      rcases List.mem_cons.mp h with h1 | h1
      · right; exact h1
      · left; exact List.mem_cons_of_mem _ h1
    · rw [if_neg hk] at h
      rcases List.mem_cons.mp h with h1 | h1
      · left; exact h1 ▸ List.mem_cons_self _ _
      · rcases ih h1 with h2 | h2
        · left; exact List.mem_cons_of_mem _ h2
        · right; exact h2

theorem firstPass_inlinks_nil (docs : List (String × Note)) :
    ∀ e ∈ firstPass docs, (e : String × GraphNode).2.inlinks = [] := by
  unfold firstPass
  suffices h : ∀ (acc : Graph), (∀ e ∈ acc, (e : String × GraphNode).2.inlinks = []) →
      ∀ e ∈ docs.foldl (fun g pn => mapSet g pn.1 (initNode pn.1 pn.2)) acc,
        (e : String × GraphNode).2.inlinks = [] by
    intro e he
    exact h [] (by intro e2 he2; simp at he2) e he
  induction docs with
  | nil => intro acc hacc e he; exact hacc e he
  | cons d rest ih =>
    intro acc hacc e he
    rw [List.foldl_cons] at he
    refine ih (mapSet acc d.1 (initNode d.1 d.2)) ?_ e he
    intro e2 he2
    rcases mem_mapSet he2 with h1 | h1
    · exact hacc e2 h1
    · rw [h1]
      rfl

theorem inlinksAt_eq_nil (g : Graph) (hg : ∀ e ∈ g, (e : String × GraphNode).2.inlinks = [])
    (y : String) : inlinksAt g y = [] := by
  unfold inlinksAt mapGet
  cases h : mapGetEntry g y with
  | none => rfl
  | some e =>
    have := hg e (mapGetEntry_eq_some h).2
    simp [this]

/-- The full build stores at every key exactly the spec inlink list: one
entry per source node and per outlink occurrence resolving there, in map
iteration order. -/
theorem buildGraph_inlinksAt (docs : List (String × Note)) (y : String) :
    inlinksAt (buildGraph docs) y = specInlinks (buildGraph docs) y := by
  have h1 : inlinksAt (buildGraph docs) y = specInlinks (firstPass docs) y := by
    unfold buildGraph secondPass
    rw [inlinksAt_secondPassFold,
      inlinksAt_eq_nil (firstPass docs) (firstPass_inlinks_nil docs) y,
      List.nil_append]
    rfl
  rw [h1]
  exact (specInlinks_congr (eraseInlinks_secondPass (firstPass docs)) y).symm

theorem count_map_const {x c : String} (l : List String) :
    ((l.map (fun _ => c)).count x) = if c = x then l.length else 0 := by
  induction l with
  | nil => simp
  | cons hd tl ih =>
    rw [List.map_cons, List.count_cons, ih]
    by_cases h : c = x
    · subst h
      simp
    · have h2 : ¬ (x = c) := fun hc => h hc.symm
      simp [h, h2]

theorem count_flatMap_snapshot (x : String) (R : String → Bool) :
    ∀ (L : List (String × List String)), (L.map (·.1)).Nodup →
      ∀ outs, mapGetEntry L x = some (x, outs) →
        ((L.flatMap (fun po => (po.2.filter R).map (fun _ => po.1))).count x)
          = (outs.filter R).length := by
  intro L
  induction L with
  | nil => intro _ outs h; simp [mapGetEntry] at h
  | cons hd tl ih =>
    intro hnd outs h
    obtain ⟨k1, os1⟩ := hd
    rw [List.flatMap_cons, List.count_append]
    by_cases hk : k1 = x
    · subst hk
      rw [show mapGetEntry ((k1, os1) :: tl) k1 = some (k1, os1) from by
        simp [mapGetEntry]] at h
      injection h with h2
      have hos : os1 = outs := congrArg Prod.snd h2
      subst hos
      rw [count_map_const]
      simp only [if_pos rfl]
      have hnotin : k1 ∉ tl.map (·.1) := by
        simp only [List.map_cons, List.nodup_cons] at hnd
        exact hnd.1
      have hzero : ((tl.flatMap (fun po => (po.2.filter R).map (fun _ => po.1))).count k1) = 0 := by
        rw [List.count_eq_zero]
        intro hcontra
        rcases List.mem_flatMap.mp hcontra with ⟨po, hpo, hmem⟩
        rcases List.mem_map.mp hmem with ⟨o, _, rfl⟩
        exact hnotin (List.mem_map.mpr ⟨po, hpo, rfl⟩)
      rw [hzero]
      simp
    · rw [show mapGetEntry ((k1, os1) :: tl) x = mapGetEntry tl x from by
        simp [mapGetEntry, hk]] at h
      have hnd2 : (tl.map (·.1)).Nodup := by
        simp only [List.map_cons, List.nodup_cons] at hnd
        exact hnd.2
      rw [ih hnd2 outs h, count_map_const]
      simp [hk]

theorem mapGetEntry_snapshot (g : Graph) (x : String) :
    mapGetEntry (g.map (fun e => (e.1, e.2.outlinks))) x
      = (mapGetEntry g x).map (fun e => (e.1, e.2.outlinks)) := by
  induction g with
  | nil => rfl
  | cons hd tl ih =>
    obtain ⟨k1, v1⟩ := hd
    show mapGetEntry ((k1, v1.outlinks) :: _) x = _
    by_cases hk : k1 = x
    · simp [mapGetEntry, hk]
    · simp only [mapGetEntry, if_neg hk]
      exact ih

/-- C2 amended: in a graph produced by a full build over documents with
distinct ids, Y's inlinks contain X's id exactly as many times as X has
outlink occurrences resolving to Y — so at least once when some outlink of X
resolves to Y, and more than once exactly when several do.  (The claim's
"exactly once" fails for repeated outlinks, and the updateNode-from-empty
route fails for self-links; see the counterexample.) -/
theorem count_inlinksAt_buildGraph (docs : List (String × Note)) (x y : String)
    (nx : GraphNode) (hnd : ((buildGraph docs).map (·.1)).Nodup)
    (hx : mapGet (buildGraph docs) x = some nx) :
    (inlinksAt (buildGraph docs) y).count x
      = outlinksResolvingTo (buildGraph docs) nx y := by
  rw [buildGraph_inlinksAt docs y]
  unfold specInlinks outlinksResolvingTo
  have hkeys : ((buildGraph docs).map (fun e => (e.1, e.2.outlinks))).map (·.1)
      = (buildGraph docs).map (·.1) := by
    rw [List.map_map]; rfl
  have hentry : mapGetEntry (buildGraph docs) x = some (x, nx) := by
    unfold mapGet at hx
    cases h : mapGetEntry (buildGraph docs) x with
    | none => rw [h] at hx; simp at hx
    | some e =>
      rw [h] at hx
      simp at hx
      have h1 := (mapGetEntry_eq_some h).1
      exact congrArg some (Prod.ext h1 hx)
  have hsnap : mapGetEntry ((buildGraph docs).map (fun e => (e.1, e.2.outlinks))) x
      = some (x, nx.outlinks) := by
    rw [mapGetEntry_snapshot, hentry]
    rfl
  exact count_flatMap_snapshot x (fun o => resolveKey (buildGraph docs) o == some y)
    ((buildGraph docs).map (fun e => (e.1, e.2.outlinks))) (by rw [hkeys]; exact hnd)
    nx.outlinks hsnap

/-- C2 amended: in a graph produced by a full build, Y's inlinks contain X's
id exactly as many times as X has outlink occurrences resolving to Y — at
least once when some outlink of X resolves to Y, and more than once exactly
when several do.  (The claim's "exactly once" fails for repeated outlinks,
and the claim's updateNode-from-empty route fails for self-links; see the
counterexample.) -/
theorem c2_inlink_multiplicity (docs : List (String × Note)) (x y : String)
    (nx ny : GraphNode) (hnd : ((buildGraph docs).map (·.1)).Nodup)
    (hx : mapGet (buildGraph docs) x = some nx)
    (hy : mapGet (buildGraph docs) y = some ny) :
    ny.inlinks.count x = outlinksResolvingTo (buildGraph docs) nx y ∧
    ((∃ o ∈ nx.outlinks, resolveKey (buildGraph docs) o = some y) →
      1 ≤ ny.inlinks.count x) := by
  have hinl : ny.inlinks = inlinksAt (buildGraph docs) y := by
    unfold inlinksAt
    unfold mapGet at hy ⊢
    rw [hy]
    rfl
  refine ⟨?_, ?_⟩
  · rw [hinl]
    exact count_inlinksAt_buildGraph docs x y nx hnd hx
  · rintro ⟨o, ho, hro⟩
    rw [hinl, count_inlinksAt_buildGraph docs x y nx hnd hx]
    unfold outlinksResolvingTo
    have : o ∈ nx.outlinks.filter (fun o => resolveKey (buildGraph docs) o == some y) := by
      rw [List.mem_filter]
      exact ⟨ho, by rw [hro]; simp⟩
    exact List.length_pos_of_mem this

/-- Witness instantiating `c2_inlink_multiplicity` on the two-document
double-link collection, discharging its hypotheses by computation. -/
theorem c2_inlink_multiplicity_witness :
    ∃ nx ny : GraphNode,
      mapGet (buildGraph docsDoubleLink) "a.md" = some nx ∧
      mapGet (buildGraph docsDoubleLink) "b.md" = some ny ∧
      ny.inlinks.count "a.md" = outlinksResolvingTo (buildGraph docsDoubleLink) nx "b.md" ∧
      ny.inlinks.count "a.md" = 2 := by
  refine ⟨{ path := "a.md", title := "A", tags := [], outlinks := ["b.md", "b.md"],
            inlinks := [] },
          { path := "b.md", title := "B", tags := [], outlinks := [],
            inlinks := ["a.md", "a.md"] }, by decide, by decide, ?_, by decide⟩
  exact (c2_inlink_multiplicity docsDoubleLink "a.md" "b.md" _ _
    (by decide) (by decide) (by decide)).1

/-! ### updateNode phase lemmas -/

theorem filter_idem (p : String → Bool) (l : List String) :
    (l.filter p).filter p = l.filter p := by
  rw [List.filter_filter]
  apply List.filter_congr
  intro a _
  cases p a <;> rfl

theorem mapGetEntry_mapSet {β : Type} (k : String) (v : β) :
    ∀ (m : List (String × β)) (k2 : String),
      mapGetEntry (mapSet m k v) k2 = if k2 = k then some (k, v) else mapGetEntry m k2 := by
  intro m
  induction m with
  | nil =>
    intro k2
    by_cases h : k2 = k
    · subst h; simp [mapSet, mapGetEntry]
    · have h2 : ¬ (k = k2) := fun hc => h hc.symm
      simp [mapSet, mapGetEntry, h, h2]
  | cons hd tl ih =>
    intro k2
    obtain ⟨k1, v1⟩ := hd
    unfold mapSet
    by_cases h1 : k1 = k
    · subst h1
      rw [if_pos rfl]
      by_cases h2 : k2 = k1
      · subst h2; simp [mapGetEntry]
      · have h3 : ¬ (k1 = k2) := fun hc => h2 hc.symm
        simp [mapGetEntry, h2, h3]
    · rw [if_neg h1]
      by_cases h2 : k1 = k2
      · subst h2
        have h3 : ¬ (k1 = k) := h1
        simp [mapGetEntry, h3]
      · have lhs : mapGetEntry ((k1, v1) :: mapSet tl k v) k2
            = mapGetEntry (mapSet tl k v) k2 := by
          simp [mapGetEntry, h2]
        have rhs : mapGetEntry ((k1, v1) :: tl) k2 = mapGetEntry tl k2 := by
          simp [mapGetEntry, h2]
        rw [lhs, ih k2, rhs]

theorem inlinksAt_mapSet (g : Graph) (k : String) (v : GraphNode) (y : String) :
    inlinksAt (mapSet g k v) y = if y = k then v.inlinks else inlinksAt g y := by
  unfold inlinksAt mapGet
  rw [mapGetEntry_mapSet]
  by_cases h : y = k <;> simp [h]

theorem mapSet_eraseInlinks_stable :
    ∀ (g : Graph) (p : String) (v : GraphNode),
      mapGetEntry (eraseInlinks g) p = some (p, { v with inlinks := [] }) →
      eraseInlinks (mapSet g p v) = eraseInlinks g := by
  intro g
  induction g with
  | nil => intro p v h; simp [eraseInlinks, mapGetEntry] at h
  | cons hd tl ih =>
    intro p v h
    obtain ⟨k1, v1⟩ := hd
    show eraseInlinks (if k1 = p then (p, v) :: tl else (k1, v1) :: mapSet tl p v) = _
    by_cases hk : k1 = p
    · subst hk
      rw [if_pos rfl]
      have h2 : mapGetEntry (eraseInlinks ((k1, v1) :: tl)) k1
          = some (k1, { v1 with inlinks := [] }) := by
        show mapGetEntry ((k1, { v1 with inlinks := [] }) :: eraseInlinks tl) k1 = _
        simp [mapGetEntry]
      rw [h2] at h
      injection h with h3
      have h4 : { v1 with inlinks := [] } = { v with inlinks := [] } :=
        congrArg Prod.snd h3
      show (k1, { v with inlinks := [] }) :: eraseInlinks tl
          = (k1, { v1 with inlinks := [] }) :: eraseInlinks tl
      rw [h4]
    · rw [if_neg hk]
      have h2 : mapGetEntry (eraseInlinks tl) p = some (p, { v with inlinks := [] }) := by
        have h3 : mapGetEntry (eraseInlinks ((k1, v1) :: tl)) p
            = mapGetEntry (eraseInlinks tl) p := by
          show mapGetEntry ((k1, { v1 with inlinks := [] }) :: eraseInlinks tl) p = _
          simp [mapGetEntry, hk]
        rw [← h3, h]
      show (k1, { v1 with inlinks := [] }) :: eraseInlinks (mapSet tl p v)
          = (k1, { v1 with inlinks := [] }) :: eraseInlinks tl
      rw [ih p v h2]

theorem mapSet_append_of_not_mem {β : Type} {k : String} (v : β) :
    ∀ {m : List (String × β)}, k ∉ mapKeys m → mapSet m k v = m ++ [(k, v)] := by
  intro m
  induction m with
  | nil => intro _; rfl
  | cons hd tl ih =>
    intro h
    obtain ⟨k1, v1⟩ := hd
    have hk : ¬ (k1 = k) := by
      intro hc
      exact h (by simp [mapKeys, hc])
    show (if k1 = k then (k, v) :: tl else (k1, v1) :: mapSet tl k v) = _
    rw [if_neg hk]
    have h2 : k ∉ mapKeys tl := fun hc => h (by simp [mapKeys] at hc ⊢; right; exact hc)
    rw [ih h2]
    rfl

theorem firstPass_shape :
    ∀ (docs : List (String × Note)) (acc : Graph),
      (mapKeys acc ++ docs.map (·.1)).Nodup →
      docs.foldl (fun g pn => mapSet g pn.1 (initNode pn.1 pn.2)) acc
        = acc ++ docs.map (fun pn => (pn.1, initNode pn.1 pn.2)) := by
  intro docs
  induction docs with
  | nil => intro acc _; simp
  | cons d rest ih =>
    intro acc hnd
    rw [List.foldl_cons]
    have hnotin : d.1 ∉ mapKeys acc := by
      simp only [List.map_cons] at hnd
      intro hc
      have := List.Nodup.not_mem (l := mapKeys acc) (a := d.1)
      rcases (List.nodup_append.mp hnd) with ⟨-, -, hdisj⟩
      exact hdisj hc (by simp)
    rw [mapSet_append_of_not_mem _ hnotin]
    have hnd2 : (mapKeys (acc ++ [(d.1, initNode d.1 d.2)]) ++ rest.map (·.1)).Nodup := by
      have : mapKeys (acc ++ [(d.1, initNode d.1 d.2)]) = mapKeys acc ++ [d.1] := by
        simp [mapKeys]
      rw [this, List.append_assoc]
      simpa using hnd
    rw [ih (acc ++ [(d.1, initNode d.1 d.2)]) hnd2]
    simp

theorem firstPass_eq (docs : List (String × Note)) (hnd : (docs.map (·.1)).Nodup) :
    firstPass docs = docs.map (fun pn => (pn.1, initNode pn.1 pn.2)) := by
  unfold firstPass
  have := firstPass_shape docs [] (by simpa [mapKeys] using hnd)
  simpa using this

theorem mapGetEntry_eraseInlinks (g : Graph) (k : String) :
    mapGetEntry (eraseInlinks g) k
      = (mapGetEntry g k).map (fun e => (e.1, { e.2 with inlinks := [] })) := by
  unfold eraseInlinks
  apply mapGetEntry_map
  intro e
  rfl

theorem isSome_congr {g h : Graph} (hsk : eraseInlinks g = eraseInlinks h) (k : String) :
    (mapGetEntry g k).isSome = (mapGetEntry h k).isSome := by
  have h1 := mapGetEntry_eraseInlinks g k
  have h2 := mapGetEntry_eraseInlinks h k
  rw [hsk] at h1
  rw [h2] at h1
  cases hg : mapGetEntry g k <;> cases hh : mapGetEntry h k <;>
    rw [hg, hh] at h1 <;> simp at h1 ⊢

theorem outlinks_congr {g h : Graph} (hsk : eraseInlinks g = eraseInlinks h) (k : String) :
    (mapGetEntry g k).map (fun e => e.2.outlinks)
      = (mapGetEntry h k).map (fun e => e.2.outlinks) := by
  have h1 := mapGetEntry_eraseInlinks g k
  have h2 := mapGetEntry_eraseInlinks h k
  rw [hsk, h2] at h1
  cases hg : mapGetEntry g k <;> cases hh : mapGetEntry h k <;>
    rw [hg, hh] at h1 <;> simp at h1 ⊢
  · obtain ⟨ha, hb⟩ := h1
    exact hb.2.2.2.symm

theorem keys_congr {g h : Graph} (hsk : eraseInlinks g = eraseInlinks h) :
    mapKeys g = mapKeys h := by
  have hg : mapKeys g = mapKeys (eraseInlinks g) := by
    unfold mapKeys eraseInlinks
    rw [List.map_map]
    rfl
  have hh : mapKeys h = mapKeys (eraseInlinks h) := by
    unfold mapKeys eraseInlinks
    rw [List.map_map]
    rfl
  rw [hg, hh, hsk]

theorem pathFieldsMatch_congr {g h : Graph} (hsk : eraseInlinks g = eraseInlinks h)
    (hp : PathFieldsMatch h) : PathFieldsMatch g := by
  intro e he
  have hmem : (e.1, { e.2 with inlinks := [] }) ∈ eraseInlinks h := by
    rw [← hsk]
    unfold eraseInlinks
    exact List.mem_map.mpr ⟨e, he, rfl⟩
  unfold eraseInlinks at hmem
  rcases List.mem_map.mp hmem with ⟨e2, he2, heq⟩
  have hpath : e.2.path = e2.2.path := by
    have := congrArg (fun q : String × GraphNode => q.2.path) heq
    simpa using this.symm
  have hkey : e2.1 = e.1 := by
    have := congrArg Prod.fst heq
    simpa using this
  rw [hpath, hp e2 he2, hkey]

theorem buildGraph_pathFieldsMatch (docs : List (String × Note))
    (hnd : (docs.map (·.1)).Nodup) : PathFieldsMatch (buildGraph docs) := by
  apply pathFieldsMatch_congr (eraseInlinks_secondPass (firstPass docs))
  rw [firstPass_eq docs hnd]
  intro e he
  rcases List.mem_map.mp he with ⟨pn, _, rfl⟩
  rfl

theorem buildGraph_keys_nodup (docs : List (String × Note))
    (hnd : (docs.map (·.1)).Nodup) : (mapKeys (buildGraph docs)).Nodup := by
  have h1 : mapKeys (buildGraph docs) = mapKeys (firstPass docs) :=
    keys_congr (eraseInlinks_secondPass (firstPass docs))
  rw [h1, firstPass_eq docs hnd]
  unfold mapKeys
  rw [List.map_map]
  exact hnd

theorem removeInlink_fold_skeleton (p : String) :
    ∀ (outs : List String) (g : Graph),
      eraseInlinks (outs.foldl (fun h o =>
          match resolveEntry h o with
          | some e => removeInlink h e.1 p
          | none => h) g) = eraseInlinks g := by
  intro outs
  induction outs with
  | nil => intro g; rfl
  | cons o rest ih =>
    intro g
    rw [List.foldl_cons]
    cases he : resolveEntry g o with
    | none =>
      simp only [he]
      exact ih g
    | some e =>
      simp only [he]
      rw [ih (removeInlink g e.1 p), eraseInlinks_removeInlink]

theorem removeInlink_fold_inlinks (G : Graph) (p : String) :
    ∀ (outs : List String) (g : Graph), eraseInlinks g = eraseInlinks G →
      ∀ y, inlinksAt (outs.foldl (fun h o =>
          match resolveEntry h o with
          | some e => removeInlink h e.1 p
          | none => h) g) y
        = if outs.any (fun o => resolveKey G o == some y)
          then (inlinksAt g y).filter (fun l => l != p)
          else inlinksAt g y := by
  intro outs
  induction outs with
  | nil => intro g _ y; simp
  | cons o rest ih =>
    intro g hsk y
    rw [List.foldl_cons]
    have hrko : resolveKey g o = resolveKey G o := resolveKey_congr hsk o
    cases he : resolveEntry g o with
    | none =>
      simp only [he]
      have hnone : resolveKey G o = none := by
        rw [← hrko]
        unfold resolveKey
        rw [he]
        rfl
      rw [ih g hsk y, List.any_cons]
      simp [hnone]
    | some e =>
      simp only [he]
      have hsome : resolveKey G o = some e.1 := by
        rw [← hrko]
        unfold resolveKey
        rw [he]
        rfl
      have hsk2 : eraseInlinks (removeInlink g e.1 p) = eraseInlinks G := by
        rw [eraseInlinks_removeInlink]
        exact hsk
      rw [ih (removeInlink g e.1 p) hsk2 y, List.any_cons]
      by_cases hy : y = e.1
      · subst hy
        have hpresent : (mapGetEntry g e.1).isSome :=
          mapGetEntry_isSome_of_mem (resolveEntry_mem he)
        rw [inlinksAt_removeInlink_same hpresent p]
        have hbeq : (resolveKey G o == some e.1) = true := by rw [hsome]; simp
        rw [hbeq]
        simp only [Bool.true_or, if_true]
        cases hrest : rest.any (fun o => resolveKey G o == some e.1)
        · simp
        · simp [filter_idem]
      · rw [inlinksAt_removeInlink_other hy p]
        have : (resolveKey G o == some y) = false := by
          rw [hsome]
          simp
          intro hc
          exact hy hc.symm
        rw [this]
        simp

theorem filter_ne_eq_self_of_count_zero {l : List String} {p : String}
    (h : l.count p = 0) : l.filter (fun a => a != p) = l := by
  apply List.filter_eq_self.mpr
  intro a ha
  have hne : a ≠ p := by
    intro hc
    subst hc
    rw [List.count_eq_zero] at h
    exact h ha
  simpa using hne

/-- `updateNode` step 1 on a freshly built graph removes exactly the
occurrences of `p` from every inlink list. -/
theorem undo_char (docs : List (String × Note)) (hnd : (docs.map (·.1)).Nodup)
    (p : String) (np : GraphNode) (hp : mapGet (buildGraph docs) p = some np) :
    eraseInlinks (undoOldContribution p (buildGraph docs))
      = eraseInlinks (buildGraph docs) ∧
    ∀ y, inlinksAt (undoOldContribution p (buildGraph docs)) y
        = (inlinksAt (buildGraph docs) y).filter (fun l => l != p) := by
  unfold undoOldContribution
  rw [hp]
  constructor
  · exact removeInlink_fold_skeleton p np.outlinks (buildGraph docs)
  · intro y
    rw [removeInlink_fold_inlinks (buildGraph docs) p np.outlinks (buildGraph docs) rfl y]
    cases hany : np.outlinks.any (fun o => resolveKey (buildGraph docs) o == some y)
    · rw [if_neg Bool.false_ne_true]
      have hcount : (inlinksAt (buildGraph docs) y).count p = 0 := by
        rw [count_inlinksAt_buildGraph docs p y np (buildGraph_keys_nodup docs hnd) hp]
        unfold outlinksResolvingTo
        have hfil : np.outlinks.filter
            (fun o => resolveKey (buildGraph docs) o == some y) = [] := by
          rw [List.filter_eq_nil_iff]
          intro a ha
          have := List.any_eq_false.mp hany a ha
          simp at this ⊢
          exact this
        rw [hfil]
        rfl
      exact (filter_ne_eq_self_of_count_zero hcount).symm
    · rw [if_pos rfl]

/-- Skeleton preservation for the inner loop of `updateNode` step 3. -/
theorem inbound_inner_skeleton (p q : String) :
    ∀ (outs : List String) (h : Graph),
      eraseInlinks (outs.foldl (fun h2 o =>
          match resolveEntry h2 o with
          | some e => if e.2.path = p then pushInlink h2 p q else h2
          | none => h2) h) = eraseInlinks h := by
  intro outs
  induction outs with
  | nil => intro h; rfl
  | cons o rest ih =>
    intro h
    rw [List.foldl_cons]
    cases he : resolveEntry h o with
    | none => simp only [he]; exact ih h
    | some e =>
      simp only [he]
      by_cases hpath : e.2.path = p
      · rw [if_pos hpath, ih (pushInlink h p q), eraseInlinks_pushInlink]
      · rw [if_neg hpath]; exact ih h

/-- Inlink effect of the inner loop of `updateNode` step 3: appends `q` to
`p`'s inlinks once per outlink of `q` resolving to `p`, and changes nothing
else. -/
theorem inbound_inner_inlinks (G : Graph) (hPFM : PathFieldsMatch G) (p q : String)
    (hpres : (mapGetEntry G p).isSome) :
    ∀ (outs : List String) (h : Graph), eraseInlinks h = eraseInlinks G →
      ∀ y, inlinksAt (outs.foldl (fun h2 o =>
          match resolveEntry h2 o with
          | some e => if e.2.path = p then pushInlink h2 p q else h2
          | none => h2) h) y
        = if y = p
          then inlinksAt h p
            ++ ((outs.filter (fun o => resolveKey G o == some p)).map (fun _ => q))
          else inlinksAt h y := by
  intro outs
  induction outs with
  | nil =>
    intro h _ y
    by_cases hy : y = p
    · subst hy; simp
    · simp [hy]
  | cons o rest ih =>
    intro h hsk y
    rw [List.foldl_cons]
    have hPFMh : PathFieldsMatch h := pathFieldsMatch_congr hsk hPFM
    have hrko : resolveKey h o = resolveKey G o := resolveKey_congr hsk o
    cases he : resolveEntry h o with
    | none =>
      simp only [he]
      have hnone : resolveKey G o = none := by
        rw [← hrko]; unfold resolveKey; rw [he]; rfl
      rw [ih h hsk y, List.filter_cons]
      simp [hnone]
    | some e =>
      simp only [he]
      have hkey : resolveKey G o = some e.1 := by
        rw [← hrko]; unfold resolveKey; rw [he]; rfl
      have hpath : e.2.path = e.1 := hPFMh e (resolveEntry_mem he)
      by_cases hep : e.1 = p
      · rw [if_pos (by rw [hpath, hep])]
        have hsk2 : eraseInlinks (pushInlink h p q) = eraseInlinks G := by
          rw [eraseInlinks_pushInlink]; exact hsk
        rw [ih (pushInlink h p q) hsk2 y, List.filter_cons]
        have hpredo : (resolveKey G o == some p) = true := by
          rw [hkey, hep]; simp
        rw [hpredo]
        have hpresh : (mapGetEntry h p).isSome := by
          rw [isSome_congr hsk p]; exact hpres
        by_cases hy : y = p
        · subst hy
          rw [if_pos rfl, if_pos rfl, inlinksAt_pushInlink_same hpresh q]
          simp
        · rw [if_neg hy, if_neg hy, inlinksAt_pushInlink_other hy q]
      · rw [if_neg (by rw [hpath]; exact hep)]
        rw [ih h hsk y, List.filter_cons]
        have hpredo : (resolveKey G o == some p) = false := by
          rw [hkey]
          simp
          exact hep
        rw [hpredo]
        simp

/-- `updateNode` step 3 over the whole snapshot of other nodes. -/
theorem inbound_outer (G : Graph) (hPFM : PathFieldsMatch G) (p : String)
    (hpres : (mapGetEntry G p).isSome) :
    ∀ (L : List (String × List String)) (h : Graph), eraseInlinks h = eraseInlinks G →
      (eraseInlinks (L.foldl (fun h po => po.2.foldl (fun h2 o =>
          match resolveEntry h2 o with
          | some e => if e.2.path = p then pushInlink h2 p po.1 else h2
          | none => h2) h) h) = eraseInlinks G) ∧
      ∀ y, inlinksAt (L.foldl (fun h po => po.2.foldl (fun h2 o =>
          match resolveEntry h2 o with
          | some e => if e.2.path = p then pushInlink h2 p po.1 else h2
          | none => h2) h) h) y
        = if y = p
          then inlinksAt h p
            ++ L.flatMap (fun po =>
                (po.2.filter (fun o => resolveKey G o == some p)).map (fun _ => po.1))
          else inlinksAt h y := by
  intro L
  induction L with
  | nil =>
    intro h hsk
    refine ⟨hsk, ?_⟩
    intro y
    by_cases hy : y = p
    · subst hy; simp
    · simp [hy]
  | cons po rest ih =>
    intro h hsk
    rw [List.foldl_cons]
    have hsk2 : eraseInlinks (po.2.foldl (fun h2 o =>
        match resolveEntry h2 o with
        | some e => if e.2.path = p then pushInlink h2 p po.1 else h2
        | none => h2) h) = eraseInlinks G := by
      rw [inbound_inner_skeleton p po.1 po.2 h]
      exact hsk
    obtain ⟨ihsk, ihin⟩ := ih _ hsk2
    refine ⟨ihsk, ?_⟩
    intro y
    by_cases hy : y = p
    · subst hy
      rw [ihin y, if_pos rfl,
        inbound_inner_inlinks G hPFM y po.1 hpres po.2 h hsk y, if_pos rfl,
        List.flatMap_cons, List.append_assoc, if_pos rfl]
    · rw [ihin y, if_neg hy,
        inbound_inner_inlinks G hPFM p po.1 hpres po.2 h hsk y, if_neg hy,
        if_neg hy]

/-- `updateNode` step 4: appends `p` to each resolved non-self target's
inlinks, once per outlink occurrence; `p`'s own inlinks are untouched. -/
theorem outbound_char (G : Graph) (hPFM : PathFieldsMatch G) (p : String) :
    ∀ (outs : List String) (h : Graph), eraseInlinks h = eraseInlinks G →
      (eraseInlinks (outs.foldl (fun h2 o =>
          match resolveEntry h2 o with
          | some e => if e.2.path = p then h2 else pushInlink h2 e.1 p
          | none => h2) h) = eraseInlinks G) ∧
      ∀ y, inlinksAt (outs.foldl (fun h2 o =>
            match resolveEntry h2 o with
            | some e => if e.2.path = p then h2 else pushInlink h2 e.1 p
            | none => h2) h) y
          = if y = p
            then inlinksAt h p
            else inlinksAt h y
              ++ ((outs.filter (fun o => resolveKey G o == some y)).map (fun _ => p)) := by
  intro outs
  induction outs with
  | nil =>
    intro h hsk
    refine ⟨hsk, ?_⟩
    intro y
    by_cases hy : y = p
    · subst hy; simp
    · simp [hy]
  | cons o rest ih =>
    intro h hsk
    rw [List.foldl_cons]
    have hPFMh : PathFieldsMatch h := pathFieldsMatch_congr hsk hPFM
    have hrko : resolveKey h o = resolveKey G o := resolveKey_congr hsk o
    cases he : resolveEntry h o with
    | none =>
      simp only [he]
      have hnone : resolveKey G o = none := by
        rw [← hrko]; unfold resolveKey; rw [he]; rfl
      obtain ⟨ihsk, ihin⟩ := ih h hsk
      refine ⟨ihsk, ?_⟩
      intro y
      rw [ihin y]
      by_cases hy : y = p
      · subst hy; rw [if_pos rfl, if_pos rfl]
      · rw [if_neg hy, if_neg hy, List.filter_cons]
        simp [hnone]
    | some e =>
      simp only [he]
      have hkey : resolveKey G o = some e.1 := by
        rw [← hrko]; unfold resolveKey; rw [he]; rfl
      have hpath : e.2.path = e.1 := hPFMh e (resolveEntry_mem he)
      by_cases hep : e.1 = p
      · rw [if_pos (by rw [hpath]; exact hep)]
        obtain ⟨ihsk, ihin⟩ := ih h hsk
        refine ⟨ihsk, ?_⟩
        intro y
        rw [ihin y]
        by_cases hy : y = p
        · subst hy; rw [if_pos rfl, if_pos rfl]
        · rw [if_neg hy, if_neg hy, List.filter_cons]
          have hbq : (resolveKey G o == some y) = false := by
            rw [hkey, hep]
            simp
            intro hc
            exact hy hc.symm
          simp [hbq]
      · rw [if_neg (by rw [hpath]; exact hep)]
        have hsk2 : eraseInlinks (pushInlink h e.1 p) = eraseInlinks G := by
          rw [eraseInlinks_pushInlink]; exact hsk
        obtain ⟨ihsk, ihin⟩ := ih (pushInlink h e.1 p) hsk2
        refine ⟨ihsk, ?_⟩
        intro y
        rw [ihin y]
        by_cases hy : y = p
        · subst hy
          rw [if_pos rfl, if_pos rfl,
            inlinksAt_pushInlink_other (fun hc => hep hc.symm) y]
        · rw [if_neg hy, if_neg hy, List.filter_cons]
          by_cases hye : y = e.1
          · subst hye
            have hpresh : (mapGetEntry h e.1).isSome :=
              mapGetEntry_isSome_of_mem (resolveEntry_mem he)
            rw [inlinksAt_pushInlink_same hpresh p]
            have hbq : (resolveKey G o == some e.1) = true := by rw [hkey]; simp
            rw [hbq]
            simp
          · rw [inlinksAt_pushInlink_other hye p]
            have hbq : (resolveKey G o == some y) = false := by
              rw [hkey]
              simp
              intro hc
              exact hye hc.symm
            rw [hbq]
            simp

theorem mapGetEntry_hmap {β γ : Type} (f : String × β → String × γ)
    (hf : ∀ e, (f e).1 = e.1) :
    ∀ (m : List (String × β)) (k : String),
      mapGetEntry (m.map f) k = (mapGetEntry m k).map f := by
  intro m
  induction m with
  | nil => intro k; rfl
  | cons hd tl ih =>
    intro k
    simp only [List.map_cons]
    obtain ⟨k1, v1⟩ := hd
    rcases hfe : f (k1, v1) with ⟨k2, v2⟩
    have hk : k2 = k1 := by
      have := hf (k1, v1)
      rw [hfe] at this
      exact this
    subst hk
    by_cases h : k2 = k
    · subst h
      simp [mapGetEntry, hfe]
    · simp only [mapGetEntry, if_neg h]
      exact ih k

theorem map_const_eq_replicate {α : Type} (c : String) :
    ∀ X : List α, X.map (fun _ => c) = List.replicate X.length c := by
  intro X
  induction X with
  | nil => rfl
  | cons hd tl ih => simp [List.replicate, ih]

theorem filter_map_const {α : Type} (p c : String) (X : List α) :
    ((X.map (fun _ => c)).filter (fun l => l != p))
      = if c != p then X.map (fun _ => c) else [] := by
  induction X with
  | nil => simp
  | cons hd tl ih =>
    rw [List.map_cons, List.filter_cons, ih]
    cases h : (c != p) <;> simp [h]

theorem filter_flatMap_ne (p : String) (R : String → Bool) :
    ∀ (L : List (String × List String)),
      ((L.flatMap (fun po => (po.2.filter R).map (fun _ => po.1))).filter
          (fun l => l != p))
        = ((L.filter (fun po => po.1 != p)).flatMap
            (fun po => (po.2.filter R).map (fun _ => po.1))) := by
  intro L
  induction L with
  | nil => rfl
  | cons po rest ih =>
    rw [List.flatMap_cons, List.filter_append, ih, List.filter_cons, filter_map_const]
    cases h : (po.1 != p) <;> simp [h]

theorem replicate_count_eq_filter_beq (l : List String) (p : String) :
    List.replicate (l.count p) p = l.filter (fun a => a == p) := by
  induction l with
  | nil => simp
  | cons a l ih =>
    rw [List.count_cons, List.filter_cons]
    by_cases h : a = p
    · subst h
      simp [List.replicate_succ, ih]
    · have h2 : ¬ (p = a) := fun hc => h hc.symm
      simp [h, h2, ih]

theorem filter_ne_append_map_const_perm {α : Type} (l : List String) (p : String)
    (X : List α) (hlen : X.length = l.count p) :
    ((l.filter (fun a => a != p)) ++ (X.map (fun _ => p))).Perm l := by
  rw [map_const_eq_replicate, hlen, replicate_count_eq_filter_beq]
  have h3 := List.filter_append_perm (fun a => a != p) l
  have h4 : l.filter (fun x => !(x != p)) = l.filter (fun x => x == p) := by
    apply List.filter_congr
    intro a _
    simp [bne]
  rw [← h4]
  exact h3

/-- C1 amended: on the freshly built graph, `updateNode(p)` with the same
document leaves every node's skeleton (keys, titles, tags, outlink lists)
unchanged, rebuilds `p`'s inlink list as the full build's list with the
self-link entries dropped, and leaves every other node's inlink multiset
exactly as the full build produced it (order may change, multiset does not).
The only divergence from the claim is the dropped self-link entries, which
the counterexample forces. -/
theorem c1_update_single_node (docs : List (String × Note)) (p : String) (note : Note)
    (hnd : (docs.map (·.1)).Nodup) (hp : mapGet docs p = some note) :
    eraseInlinks (updateNode (buildGraph docs) p note)
      = eraseInlinks (buildGraph docs) ∧
    inlinksAt (updateNode (buildGraph docs) p note) p
      = (inlinksAt (buildGraph docs) p).filter (fun l => l != p) ∧
    ∀ y, y ≠ p →
      (inlinksAt (updateNode (buildGraph docs) p note) y).Perm
        (inlinksAt (buildGraph docs) y) := by
  have hskG : eraseInlinks (buildGraph docs) = eraseInlinks (firstPass docs) :=
    eraseInlinks_secondPass (firstPass docs)
  have hPFM : PathFieldsMatch (buildGraph docs) := buildGraph_pathFieldsMatch docs hnd
  have hndG : ((buildGraph docs).map (·.1)).Nodup := buildGraph_keys_nodup docs hnd
  -- the document's entry in the first pass
  have hdocs : mapGetEntry docs p = some (p, note) := by
    unfold mapGet at hp
    cases h : mapGetEntry docs p with
    | none => rw [h] at hp; simp at hp
    | some e =>
      rw [h] at hp
      simp at hp
      exact congrArg some (Prod.ext (mapGetEntry_eq_some h).1 hp)
  have hg0p : mapGetEntry (firstPass docs) p = some (p, initNode p note) := by
    rw [firstPass_eq docs hnd,
      mapGetEntry_hmap (fun pn => (pn.1, initNode pn.1 pn.2)) (fun _ => rfl) docs p,
      hdocs]
    rfl
  -- the built node at p
  have hGp : ∃ np : GraphNode, mapGetEntry (buildGraph docs) p = some (p, np) ∧
      { np with inlinks := [] } = initNode p note := by
    have h1 := mapGetEntry_eraseInlinks (buildGraph docs) p
    have h2 := mapGetEntry_eraseInlinks (firstPass docs) p
    rw [hskG, h2, hg0p] at h1
    cases hG : mapGetEntry (buildGraph docs) p with
    | none => rw [hG] at h1; simp at h1
    | some e =>
      rw [hG] at h1
      simp at h1
      refine ⟨e.2, ?_, ?_⟩
      · exact congrArg some (Prod.ext h1.1.symm rfl)
      · obtain ⟨ha, hb, hc, hd⟩ := h1.2
        simp [initNode]
        exact ⟨ha.symm, hb.symm, hc.symm, hd.symm⟩
  obtain ⟨np, hGpe, hnpskel⟩ := hGp
  have hGetp : mapGet (buildGraph docs) p = some np := by
    unfold mapGet
    rw [hGpe]
    rfl
  have hnpout : np.outlinks = note.links := by
    have := congrArg GraphNode.outlinks hnpskel
    simpa [initNode] using this
  have hpres : (mapGetEntry (buildGraph docs) p).isSome := by rw [hGpe]; rfl
  -- phase 1
  obtain ⟨hsk1, hin1⟩ := undo_char docs hnd p np hGetp
  -- phase 2
  have hpre2 : mapGetEntry (eraseInlinks (undoOldContribution p (buildGraph docs))) p
      = some (p, { initNode p note with inlinks := [] }) := by
    rw [hsk1, mapGetEntry_eraseInlinks, hGpe]
    simp [hnpskel, initNode]
  have hsk2 : eraseInlinks (mapSet (undoOldContribution p (buildGraph docs)) p
      (initNode p note)) = eraseInlinks (buildGraph docs) := by
    rw [mapSet_eraseInlinks_stable _ p (initNode p note) hpre2]
    exact hsk1
  have hin2p : inlinksAt (mapSet (undoOldContribution p (buildGraph docs)) p
      (initNode p note)) p = [] := by
    rw [inlinksAt_mapSet, if_pos rfl]
    rfl
  have hin2y : ∀ y, y ≠ p →
      inlinksAt (mapSet (undoOldContribution p (buildGraph docs)) p (initNode p note)) y
        = (inlinksAt (buildGraph docs) y).filter (fun l => l != p) := by
    intro y hy
    rw [inlinksAt_mapSet, if_neg hy]
    exact hin1 y
  -- phase 3
  obtain ⟨hsk3f, hin3f⟩ := inbound_outer (buildGraph docs) hPFM p hpres
    (((mapSet (undoOldContribution p (buildGraph docs)) p (initNode p note)).map
        (fun e => (e.1, e.2.outlinks))).filter (fun po => po.1 != p))
    (mapSet (undoOldContribution p (buildGraph docs)) p (initNode p note)) hsk2
  have hsk3 : eraseInlinks (collectInboundFor p
      (mapSet (undoOldContribution p (buildGraph docs)) p (initNode p note)))
      = eraseInlinks (buildGraph docs) := hsk3f
  have hin3 : ∀ y, inlinksAt (collectInboundFor p
      (mapSet (undoOldContribution p (buildGraph docs)) p (initNode p note))) y
      = if y = p
        then inlinksAt
            (mapSet (undoOldContribution p (buildGraph docs)) p (initNode p note)) p
          ++ ((((mapSet (undoOldContribution p (buildGraph docs)) p
                (initNode p note)).map (fun e => (e.1, e.2.outlinks))).filter
                (fun po => po.1 != p)).flatMap
              (fun po => (po.2.filter
                  (fun o => resolveKey (buildGraph docs) o == some p)).map
                (fun _ => po.1)))
        else inlinksAt
            (mapSet (undoOldContribution p (buildGraph docs)) p (initNode p note)) y :=
    hin3f
  -- the node stored at p after phase 3
  have hout3 : (mapGetEntry (collectInboundFor p
      (mapSet (undoOldContribution p (buildGraph docs)) p (initNode p note))) p).map
        (fun e => e.2.outlinks) = some note.links := by
    rw [outlinks_congr hsk3 p, hGpe]
    show some np.outlinks = some note.links
    rw [hnpout]
  -- the stored node at p after phase 3, needed to unfold phase 4
  have hpres3 : (mapGetEntry (collectInboundFor p
      (mapSet (undoOldContribution p (buildGraph docs)) p (initNode p note))) p).isSome := by
    rw [isSome_congr hsk3 p]
    exact hpres
  obtain ⟨e3, hg3e⟩ : ∃ e3, mapGetEntry (collectInboundFor p
      (mapSet (undoOldContribution p (buildGraph docs)) p (initNode p note))) p
        = some e3 := by
    cases h : mapGetEntry (collectInboundFor p
        (mapSet (undoOldContribution p (buildGraph docs)) p (initNode p note))) p with
    | none => rw [h] at hpres3; simp at hpres3
    | some e3 => exact ⟨e3, rfl⟩
  have hg3p : mapGet (collectInboundFor p
      (mapSet (undoOldContribution p (buildGraph docs)) p (initNode p note))) p
        = some e3.2 := by
    unfold mapGet
    rw [hg3e]
    rfl
  have hn3out : e3.2.outlinks = note.links := by
    rw [hg3e] at hout3
    simpa using hout3
  have hupdate : updateNode (buildGraph docs) p note
      = e3.2.outlinks.foldl (fun h2 o =>
          match resolveEntry h2 o with
          | some e => if e.2.path = p then h2 else pushInlink h2 e.1 p
          | none => h2)
        (collectInboundFor p
          (mapSet (undoOldContribution p (buildGraph docs)) p (initNode p note))) := by
    unfold updateNode addOutboundFrom
    rw [hg3p]
  -- phase 4
  obtain ⟨hsk4, hin4⟩ := outbound_char (buildGraph docs) hPFM p e3.2.outlinks
    (collectInboundFor p
      (mapSet (undoOldContribution p (buildGraph docs)) p (initNode p note))) hsk3
  refine ⟨?_, ?_, ?_⟩
  · rw [hupdate]
    exact hsk4
  · rw [hupdate, hin4 p, if_pos rfl, hin3 p, if_pos rfl, hin2p, List.nil_append,
      buildGraph_inlinksAt docs p]
    unfold specInlinks
    rw [filter_flatMap_ne p (fun o => resolveKey (buildGraph docs) o == some p),
      snapshot_congr hsk2]
  · intro y hy
    rw [hupdate, hin4 y, if_neg hy, hin3 y, if_neg hy, hin2y y hy]
    apply filter_ne_append_map_const_perm
    rw [count_inlinksAt_buildGraph docs p y np hndG hGetp]
    unfold outlinksResolvingTo
    rw [hn3out, hnpout]

/-- Witness instantiating `c1_update_single_node` on the three-note chain,
discharging its hypotheses by computation. -/
theorem c1_update_single_node_witness :
    eraseInlinks (updateNode (buildGraph docsChain3) "a.md" (mkNote "A" ["b"]))
      = eraseInlinks (buildGraph docsChain3) ∧
    inlinksAt (updateNode (buildGraph docsChain3) "a.md" (mkNote "A" ["b"])) "a.md"
      = (inlinksAt (buildGraph docsChain3) "a.md").filter (fun l => l != "a.md") ∧
    ∀ y, y ≠ "a.md" →
      (inlinksAt (updateNode (buildGraph docsChain3) "a.md" (mkNote "A" ["b"])) y).Perm
        (inlinksAt (buildGraph docsChain3) y) :=
  c1_update_single_node docsChain3 "a.md" (mkNote "A" ["b"]) (by decide) (by decide)

/-! ### getConnectedNodes: soundness of the depth-limited traversal -/

theorem reachesWithin_mono {g : Graph} {s t : String} {d d2 : Nat} (h : d ≤ d2) :
    ReachesWithin g s t d → ReachesWithin g s t d2 :=
  fun ⟨n, hn, hp⟩ => ⟨n, hn.trans h, hp⟩

theorem reachesWithin_refl (g : Graph) (s : String) (d : Nat) :
    ReachesWithin g s s d := ⟨0, Nat.zero_le _, PathIn.refl⟩

theorem reachesWithin_step {g : Graph} {s u v : String} {d : Nat}
    (h : ReachesWithin g s u d) (hv : v ∈ nbrPaths g u) :
    ReachesWithin g s v (d + 1) := by
  obtain ⟨n, hn, hp⟩ := h
  exact ⟨n + 1, by omega, PathIn.step hp hv⟩

theorem mapGet_path_eq {g : Graph} (hPFM : PathFieldsMatch g) {k : String}
    {n : GraphNode} (h : mapGet g k = some n) : n.path = k := by
  unfold mapGet at h
  cases he : mapGetEntry g k with
  | none => rw [he] at h; simp at h
  | some e =>
    rw [he] at h
    simp at h
    obtain ⟨hk, hmem⟩ := mapGetEntry_eq_some he
    rw [← h, hPFM e hmem, hk]

theorem nbrPaths_of_mapGet {g : Graph} {path : String} {node : GraphNode}
    (h : mapGet g path = some node) : nbrPaths g path = neighborList g node := by
  unfold nbrPaths
  rw [h]

theorem traverse_succ (g : Graph) (depth fuel : Nat) (path : String)
    (st : List String × List GraphNode) :
    traverse g depth (fuel + 1) path st =
      if path ∈ st.1 then st
      else
        match mapGet g path with
        | none => (st.1 ++ [path], st.2)
        | some node =>
          if 2 ≤ fuel + 1 then
            (neighborList g node).foldl (fun st2 nb => traverse g depth fuel nb st2)
              (st.1 ++ [path], if fuel + 1 ≤ depth then st.2 ++ [node] else st.2)
          else (st.1 ++ [path], if fuel + 1 ≤ depth then st.2 ++ [node] else st.2) :=
  rfl

/-- Invariant of the recursive closure in `getConnectedNodes`: visited stays
duplicate-free and grows monotonically, result paths are duplicate-free,
recorded, distinct from the start, and within `depth` undirected steps of
the start. -/
theorem traverse_sound (g : Graph) (depth : Nat) (s : String)
    (hPFM : PathFieldsMatch g) :
    ∀ (fuel : Nat) (path : String) (st : List String × List GraphNode),
      fuel ≤ depth + 1 →
      st.1.Nodup →
      ((st.2.map (·.path)).Nodup) →
      (∀ n ∈ st.2, n.path ∈ st.1) →
      (∀ n ∈ st.2, ReachesWithin g s n.path depth ∧ n.path ≠ s) →
      (s ∈ st.1 ∨ (path = s ∧ fuel = depth + 1)) →
      ReachesWithin g s path (depth + 1 - fuel) →
      ((traverse g depth fuel path st).1.Nodup ∧
       (((traverse g depth fuel path st).2.map (·.path)).Nodup) ∧
       (∀ n ∈ (traverse g depth fuel path st).2,
          n.path ∈ (traverse g depth fuel path st).1) ∧
       (∀ n ∈ (traverse g depth fuel path st).2,
          ReachesWithin g s n.path depth ∧ n.path ≠ s) ∧
       s ∈ (traverse g depth fuel path st).1 ∧
       ∀ x ∈ st.1, x ∈ (traverse g depth fuel path st).1) := by
  intro fuel
  induction fuel with
  | zero =>
    intro path st hfl h1 h2 h3 h4 h5 h6
    refine ⟨h1, h2, h3, h4, ?_, fun x hx => hx⟩
    rcases h5 with h5 | ⟨-, h5⟩
    · exact h5
    · omega
  | succ f ih =>
    intro path st hfl h1 h2 h3 h4 h5 h6
    rw [traverse_succ]
    by_cases hv : path ∈ st.1
    · rw [if_pos hv]
      refine ⟨h1, h2, h3, h4, ?_, fun x hx => hx⟩
      rcases h5 with h5 | ⟨rfl, -⟩
      · exact h5
      · exact hv
    · rw [if_neg hv]
      have hvis1 : (st.1 ++ [path]).Nodup := by
        rw [List.nodup_append]
        exact ⟨h1, List.nodup_singleton path, by
          intro a ha hb
          simp at hb
          subst hb
          exact hv ha⟩
      have hsin : s ∈ st.1 ++ [path] := by
        rcases h5 with h5 | ⟨rfl, -⟩
        · exact List.mem_append_left _ h5
        · exact List.mem_append_right _ (by simp)
      have hmem1 : ∀ n ∈ st.2, n.path ∈ st.1 ++ [path] :=
        fun n hn => List.mem_append_left _ (h3 n hn)
      cases hnode : mapGet g path with
      | none =>
        simp only [hnode]
        exact ⟨hvis1, h2, hmem1, h4, hsin, fun x hx => List.mem_append_left _ hx⟩
      | some node =>
        simp only [hnode]
        have hnpath : node.path = path := mapGet_path_eq hPFM hnode
        -- the possibly extended result list
        have hres : ∀ r, r = (if f + 1 ≤ depth then st.2 ++ [node] else st.2) →
            ((r.map (·.path)).Nodup ∧ (∀ n ∈ r, n.path ∈ st.1 ++ [path]) ∧
             (∀ n ∈ r, ReachesWithin g s n.path depth ∧ n.path ≠ s)) := by
          intro r hr
          by_cases hpush : f + 1 ≤ depth
          · rw [if_pos hpush] at hr
            subst hr
            refine ⟨?_, ?_, ?_⟩
            · rw [List.map_append, List.nodup_append]
              refine ⟨h2, by simp, ?_⟩
              intro a ha hb
              simp [hnpath] at hb
              subst hb
              rcases List.mem_map.mp ha with ⟨n, hn, hpa⟩
              exact hv (hpa ▸ h3 n hn)
            · intro n hn
              rcases List.mem_append.mp hn with hn | hn
              · exact hmem1 n hn
              · simp at hn
                subst hn
                rw [hnpath]
                exact List.mem_append_right _ (by simp)
            · intro n hn
              rcases List.mem_append.mp hn with hn | hn
              · exact h4 n hn
              · simp at hn
                subst hn
                rw [hnpath]
                constructor
                · exact reachesWithin_mono (by omega) h6
                · intro hc
                  subst hc
                  rcases h5 with h5 | ⟨-, h5⟩
                  · exact hv h5
                  · omega
          · rw [if_neg hpush] at hr
            subst hr
            exact ⟨h2, hmem1, h4⟩
        by_cases hrec : 2 ≤ f + 1
        · rw [if_pos hrec]
          -- neighbors are one step farther than path
          have hnbr : ∀ nb ∈ neighborList g node,
              ReachesWithin g s nb (depth + 1 - f) := by
            intro nb hnb
            have hstep := reachesWithin_step h6
              (by rw [nbrPaths_of_mapGet hnode]; exact hnb)
            have harith : depth + 1 - (f + 1) + 1 = depth + 1 - f := by omega
            rw [harith] at hstep
            exact hstep
          obtain ⟨hr1, hr2, hr3⟩ := hres _ rfl
          -- fold over the neighbor list, reusing the induction hypothesis
          have hfold : ∀ (nbs : List String),
              (∀ nb ∈ nbs, ReachesWithin g s nb (depth + 1 - f)) →
              ∀ st2 : List String × List GraphNode,
                st2.1.Nodup →
                ((st2.2.map (·.path)).Nodup) →
                (∀ n ∈ st2.2, n.path ∈ st2.1) →
                (∀ n ∈ st2.2, ReachesWithin g s n.path depth ∧ n.path ≠ s) →
                s ∈ st2.1 →
                ((nbs.foldl (fun st2 nb => traverse g depth f nb st2) st2).1.Nodup ∧
                 (((nbs.foldl (fun st2 nb => traverse g depth f nb st2) st2).2.map
                    (·.path)).Nodup) ∧
                 (∀ n ∈ (nbs.foldl (fun st2 nb => traverse g depth f nb st2) st2).2,
                    n.path ∈ (nbs.foldl (fun st2 nb => traverse g depth f nb st2) st2).1) ∧
                 (∀ n ∈ (nbs.foldl (fun st2 nb => traverse g depth f nb st2) st2).2,
                    ReachesWithin g s n.path depth ∧ n.path ≠ s) ∧
                 s ∈ (nbs.foldl (fun st2 nb => traverse g depth f nb st2) st2).1 ∧
                 ∀ x ∈ st2.1,
                    x ∈ (nbs.foldl (fun st2 nb => traverse g depth f nb st2) st2).1) := by
            intro nbs
            induction nbs with
            | nil =>
              intro _ st2 g1 g2 g3 g4 g5
              exact ⟨g1, g2, g3, g4, g5, fun x hx => hx⟩
            | cons nb rest ihn =>
              intro hreach st2 g1 g2 g3 g4 g5
              rw [List.foldl_cons]
              obtain ⟨t1, t2, t3, t4, t5, t6⟩ := ih nb st2 (by omega) g1 g2 g3 g4
                (Or.inl g5) (hreach nb (by simp))
              obtain ⟨u1, u2, u3, u4, u5, u6⟩ := ihn
                (fun nb2 h2 => hreach nb2 (by simp [h2]))
                (traverse g depth f nb st2) t1 t2 t3 t4 t5
              exact ⟨u1, u2, u3, u4, u5, fun x hx => u6 x (t6 x hx)⟩
          obtain ⟨w1, w2, w3, w4, w5, w6⟩ := hfold (neighborList g node) hnbr
            (st.1 ++ [path], if f + 1 ≤ depth then st.2 ++ [node] else st.2)
            hvis1 hr1 hr2 hr3 hsin
          exact ⟨w1, w2, w3, w4, w5,
            fun x hx => w6 x (List.mem_append_left _ hx)⟩
        · rw [if_neg hrec]
          obtain ⟨hr1, hr2, hr3⟩ := hres _ rfl
          exact ⟨hvis1, hr1, hr2, hr3, hsin, fun x hx => List.mem_append_left _ hx⟩

/-- C4 amended: `getConnectedNodes` is a depth-limited depth-first
traversal, not breadth-first.  What does hold: when the start reference is
unresolvable the result is empty; otherwise the result never repeats a node,
never contains the start node, and every returned node lies within undirected
distance `depth` of the start.  The claim's completeness direction — that
every node within distance 1..depth is returned — is refuted by the
counterexample: a node first reached at the depth cutoff through a longer
depth-first branch blocks the shorter path, so nodes behind it are missed. -/
theorem c4_connected_nodes_sound (g : Graph) (notePath : String) (depth : Nat)
    (hPFM : PathFieldsMatch g) :
    (resolveNode g notePath = none → getConnectedNodes g notePath depth = []) ∧
    ∀ startNode, resolveNode g notePath = some startNode →
      (((getConnectedNodes g notePath depth).map (·.path)).Nodup ∧
       (∀ n ∈ getConnectedNodes g notePath depth,
          n.path ≠ startNode.path ∧
          ReachesWithin g startNode.path n.path depth)) := by
  constructor
  · intro hres
    unfold getConnectedNodes
    rw [hres]
  · intro startNode hres
    unfold getConnectedNodes
    rw [hres]
    obtain ⟨t1, t2, t3, t4, t5, t6⟩ := traverse_sound g depth startNode.path hPFM
      (depth + 1) startNode.path ([], []) (le_refl _) (by simp) (by simp)
      (by simp) (by simp) (Or.inr ⟨rfl, rfl⟩)
      (by
        have : depth + 1 - (depth + 1) = 0 := by omega
        rw [this]
        exact reachesWithin_refl g startNode.path 0)
    refine ⟨t2, ?_⟩
    intro n hn
    exact ⟨(t4 n hn).2, (t4 n hn).1⟩

/-- Witness instantiating `c4_connected_nodes_sound` on the concrete graph
of the counterexample. -/
theorem c4_connected_nodes_sound_witness :
    ((getConnectedNodes (buildGraph docsDfsMiss) "s.md" 2).map (·.path)).Nodup ∧
    ∀ n ∈ getConnectedNodes (buildGraph docsDfsMiss) "s.md" 2,
      n.path ≠ "s.md" ∧ ReachesWithin (buildGraph docsDfsMiss) "s.md" n.path 2 := by
  have h := (c4_connected_nodes_sound (buildGraph docsDfsMiss) "s.md" 2
    (by unfold PathFieldsMatch; decide)).2
    { path := "s.md", title := "S", tags := [], outlinks := ["a.md", "b.md"],
      inlinks := [] } (by decide)
  exact h

/-! ### updateDocument / removeDocument round trip -/

theorem mapGet_mapSet {β : Type} (k : String) (v : β) (m : List (String × β))
    (k2 : String) :
    mapGet (mapSet m k v) k2 = if k2 = k then some v else mapGet m k2 := by
  unfold mapGet
  rw [mapGetEntry_mapSet]
  by_cases h : k2 = k <;> simp [h]

theorem mapGetEntry_mapDelete_ne {β : Type} {k k2 : String} (h : k2 ≠ k) :
    ∀ (m : List (String × β)), mapGetEntry (mapDelete m k) k2 = mapGetEntry m k2 := by
  intro m
  induction m with
  | nil => rfl
  | cons e rest ih =>
    rcases e with ⟨a, b⟩
    by_cases hak : a = k
    · subst hak
      have h2 : ¬ a = k2 := fun hc => h hc.symm
      simp [mapDelete, mapGetEntry, h2]
    · by_cases h2 : a = k2
      · simp [mapDelete, mapGetEntry, hak, h2, h]
      · simp [mapDelete, mapGetEntry, hak, h2, ih]

theorem mapGet_mapDelete_ne {β : Type} {k k2 : String} (h : k2 ≠ k)
    (m : List (String × β)) : mapGet (mapDelete m k) k2 = mapGet m k2 := by
  unfold mapGet
  rw [mapGetEntry_mapDelete_ne h]

theorem mapDelete_mapSet_ne {β : Type} {k k2 : String} (h : k ≠ k2) (v : β) :
    ∀ (m : List (String × β)),
      mapDelete (mapSet m k2 v) k = mapSet (mapDelete m k) k2 v := by
  intro m
  induction m with
  | nil =>
    have h2 : ¬ k2 = k := fun hc => h hc.symm
    simp [mapSet, mapDelete, h2]
  | cons e rest ih =>
    rcases e with ⟨a, b⟩
    by_cases ha2 : a = k2
    · subst ha2
      have h2 : ¬ a = k := fun hc => h hc.symm
      simp [mapSet, mapDelete, h2]
    · by_cases hak : a = k
      · subst hak
        simp [mapSet, mapDelete, ha2]
      · simp [mapSet, mapDelete, ha2, hak, ih]

theorem mem_keys_of_mapGet {β : Type} {m : List (String × β)} {k : String} {v : β}
    (h : mapGet m k = some v) : k ∈ mapKeys m := by
  unfold mapGet at h
  cases he : mapGetEntry m k with
  | none => rw [he] at h; simp at h
  | some e =>
    obtain ⟨h1, h2⟩ := mapGetEntry_eq_some he
    unfold mapKeys
    exact List.mem_map.mpr ⟨e, h2, h1⟩

theorem mapSet_mapSet_comm {β : Type} {k k2 : String} (h : k ≠ k2) (v v2 : β) :
    ∀ (m : List (String × β)), k ∈ mapKeys m →
      mapSet (mapSet m k2 v2) k v = mapSet (mapSet m k v) k2 v2 := by
  intro m
  induction m with
  | nil => intro hk; simp [mapKeys] at hk
  | cons e rest ih =>
    rcases e with ⟨a, b⟩
    intro hk
    by_cases ha2 : a = k2
    · subst ha2
      have h2 : ¬ a = k := fun hc => h hc.symm
      simp [mapSet, h2]
    · by_cases hak : a = k
      · subst hak
        simp [mapSet, ha2]
      · have hcons : mapKeys ((a, b) :: rest) = a :: mapKeys rest := rfl
        rw [hcons] at hk
        rcases List.mem_cons.mp hk with hk | hk2
        · exact absurd hk.symm hak
        · simp [mapSet, ha2, hak, ih hk2]

theorem mapSet_mapSet_same {β : Type} (k : String) (v v2 : β) :
    ∀ (m : List (String × β)), mapSet (mapSet m k v) k v2 = mapSet m k v2 := by
  intro m
  induction m with
  | nil => simp [mapSet]
  | cons e rest ih =>
    rcases e with ⟨a, b⟩
    by_cases hak : a = k
    · subst hak
      simp [mapSet]
    · simp [mapSet, hak, ih]

theorem mapSet_eq_self {β : Type} {k : String} {v : β} :
    ∀ {m : List (String × β)}, mapGet m k = some v → mapSet m k v = m := by
  intro m
  induction m with
  | nil => intro h; simp [mapGet, mapGetEntry] at h
  | cons e rest ih =>
    rcases e with ⟨a, b⟩
    intro h
    by_cases hak : a = k
    · subst hak
      simp [mapGet, mapGetEntry] at h
      simp [mapSet, h]
    · simp only [mapGet, mapGetEntry, if_neg hak] at h
      simp only [mapSet, if_neg hak]
      rw [ih h]

theorem mapDelete_append_not_mem {β : Type} {k : String} (v : β) :
    ∀ {m : List (String × β)}, k ∉ mapKeys m → mapDelete (m ++ [(k, v)]) k = m := by
  intro m
  induction m with
  | nil =>
    intro _
    show mapDelete [(k, v)] k = []
    unfold mapDelete
    rw [if_pos rfl]
  | cons e rest ih =>
    rcases e with ⟨a, b⟩
    intro h
    have hcons : mapKeys ((a, b) :: rest) = a :: mapKeys rest := rfl
    have hak : a ≠ k := by
      intro hc
      exact h (by rw [hcons, hc]; exact List.mem_cons_self k _)
    have hrest : k ∉ mapKeys rest :=
      fun hc => h (by rw [hcons]; exact List.mem_cons_of_mem a hc)
    show mapDelete ((a, b) :: (rest ++ [(k, v)])) k = (a, b) :: rest
    unfold mapDelete
    rw [if_neg hak]
    rw [ih hrest]

theorem mapGetEntry_none_iff {β : Type} :
    ∀ {m : List (String × β)} {k : String},
      mapGetEntry m k = none ↔ k ∉ mapKeys m := by
  intro m
  induction m with
  | nil => intro k; simp [mapGetEntry, mapKeys]
  | cons e rest ih =>
    intro k
    rcases e with ⟨a, b⟩
    unfold mapGetEntry
    by_cases hak : a = k
    · rw [if_pos hak]
      simp [mapKeys, hak]
    · rw [if_neg hak]
      have hcons : mapKeys ((a, b) :: rest) = a :: mapKeys rest := rfl
      rw [hcons, ih, List.mem_cons, not_or]
      constructor
      · intro hnk
        exact ⟨fun hc => hak hc.symm, hnk⟩
      · intro hnk
        exact hnk.2

theorem mapKeys_mapSet {β : Type} (k : String) (v : β) :
    ∀ (m : List (String × β)),
      mapKeys (mapSet m k v) = if k ∈ mapKeys m then mapKeys m else mapKeys m ++ [k] := by
  intro m
  induction m with
  | nil => simp [mapSet, mapKeys]
  | cons e rest ih =>
    rcases e with ⟨a, b⟩
    show mapKeys (if a = k then (k, v) :: rest else (a, b) :: mapSet rest k v) = _
    by_cases hak : a = k
    · rw [if_pos hak]
      simp [mapKeys, hak]
    · rw [if_neg hak]
      show a :: mapKeys (mapSet rest k v) = _
      rw [ih]
      have hcons : mapKeys ((a, b) :: rest) = a :: mapKeys rest := rfl
      by_cases hk : k ∈ mapKeys rest
      · rw [if_pos hk, if_pos (by rw [hcons]; exact List.mem_cons_of_mem a hk)]
        rfl
      · rw [if_neg hk, if_neg (by
          rw [hcons]
          intro hc
          rcases List.mem_cons.mp hc with hc | hc
          · exact hak hc.symm
          · exact hk hc)]
        rfl

theorem nodup_keys_mapSet {β : Type} {m : List (String × β)} (k : String) (v : β)
    (h : (mapKeys m).Nodup) : (mapKeys (mapSet m k v)).Nodup := by
  rw [mapKeys_mapSet]
  by_cases hk : k ∈ mapKeys m
  · rw [if_pos hk]; exact h
  · rw [if_neg hk]
    rw [List.nodup_append]
    exact ⟨h, List.nodup_singleton k, by
      intro a ha hb
      simp at hb
      subst hb
      exact hk ha⟩

theorem foldl_count_keys_nodup :
    ∀ (ts : List String) (m : List (String × Nat)), (mapKeys m).Nodup →
      (mapKeys (ts.foldl (fun m t => mapSet m t ((mapGet m t).getD 0 + 1)) m)).Nodup := by
  intro ts
  induction ts with
  | nil => intro m h; exact h
  | cons t rest ih =>
    intro m h
    rw [List.foldl_cons]
    exact ih _ (nodup_keys_mapSet t _ h)

theorem countTokens_keys_nodup (tokens : List String) :
    (mapKeys (countTokens tokens)).Nodup :=
  foldl_count_keys_nodup tokens [] (by simp [mapKeys])

theorem bumpDocFreqs_cons (dfs : List (String × Nat)) (t : String) (ts : List String) :
    bumpDocFreqs dfs (t :: ts) =
      bumpDocFreqs (mapSet dfs t ((mapGet dfs t).getD 0 + 1)) ts := rfl

theorem dropDocFreqs_cons (dfs : List (String × Nat)) (t : String) (ts : List String) :
    dropDocFreqs dfs (t :: ts) =
      dropDocFreqs (if (mapGet dfs t).getD 0 ≤ 1 then mapDelete dfs t
                    else mapSet dfs t ((mapGet dfs t).getD 0 - 1)) ts := rfl

/-- The document-frequency decrement of one term commutes with the increments
for a list of other terms. -/
theorem dropOne_bump_comm (t : String) :
    ∀ (ts : List String), t ∉ ts → ∀ dfs : List (String × Nat),
      (if (mapGet (bumpDocFreqs dfs ts) t).getD 0 ≤ 1
       then mapDelete (bumpDocFreqs dfs ts) t
       else mapSet (bumpDocFreqs dfs ts) t ((mapGet (bumpDocFreqs dfs ts) t).getD 0 - 1)) =
      bumpDocFreqs (if (mapGet dfs t).getD 0 ≤ 1 then mapDelete dfs t
                    else mapSet dfs t ((mapGet dfs t).getD 0 - 1)) ts := by
  intro ts
  induction ts with
  | nil => intro _ dfs; rfl
  | cons u us ihu =>
    intro ht dfs
    have htu : t ≠ u := fun h => ht (h ▸ List.mem_cons_self u us)
    rw [bumpDocFreqs_cons]
    rw [ihu (fun h => ht (List.mem_cons_of_mem u h))]
    rw [bumpDocFreqs_cons]
    congr 1
    rw [mapGet_mapSet, if_neg htu]
    have hgu : mapGet (if (mapGet dfs t).getD 0 ≤ 1 then mapDelete dfs t
        else mapSet dfs t ((mapGet dfs t).getD 0 - 1)) u = mapGet dfs u := by
      by_cases hle : (mapGet dfs t).getD 0 ≤ 1
      · rw [if_pos hle, mapGet_mapDelete_ne (fun h => htu h.symm)]
      · rw [if_neg hle, mapGet_mapSet, if_neg (fun h => htu h.symm)]
    rw [hgu]
    by_cases hle : (mapGet dfs t).getD 0 ≤ 1
    · rw [if_pos hle, if_pos hle]
      exact mapDelete_mapSet_ne htu _ dfs
    · rw [if_neg hle, if_neg hle]
      have htm : t ∈ mapKeys dfs := by
        cases hget : mapGet dfs t with
        | none => exfalso; rw [hget] at hle; exact hle (by simp)
        | some c => exact mem_keys_of_mapGet hget
      exact mapSet_mapSet_comm htu _ _ dfs htm

/-- Incrementing then decrementing the document frequencies for the same
duplicate-free term list is the identity on tables with positive counts. -/
theorem drop_bump_cancel :
    ∀ (ts : List String), ts.Nodup →
      ∀ dfs : List (String × Nat), (∀ e ∈ dfs, 1 ≤ e.2) →
        dropDocFreqs (bumpDocFreqs dfs ts) ts = dfs := by
  intro ts
  induction ts with
  | nil => intro _ dfs _; rfl
  | cons t us ih =>
    intro hnd dfs hpos
    rw [bumpDocFreqs_cons, dropDocFreqs_cons]
    rw [dropOne_bump_comm t us (List.nodup_cons.mp hnd).1]
    have hone : (if (mapGet (mapSet dfs t ((mapGet dfs t).getD 0 + 1)) t).getD 0 ≤ 1
        then mapDelete (mapSet dfs t ((mapGet dfs t).getD 0 + 1)) t
        else mapSet (mapSet dfs t ((mapGet dfs t).getD 0 + 1)) t
          ((mapGet (mapSet dfs t ((mapGet dfs t).getD 0 + 1)) t).getD 0 - 1)) = dfs := by
      rw [mapGet_mapSet, if_pos rfl]
      cases hget : mapGet dfs t with
      | none =>
        simp only [Option.getD_none, Option.getD_some]
        rw [if_pos (by omega)]
        have habs : t ∉ mapKeys dfs :=
          mapGetEntry_none_iff.mp (mapGet_eq_none_iff.mp hget)
        rw [mapSet_append_of_not_mem _ habs]
        exact mapDelete_append_not_mem _ habs
      | some c =>
        simp only [Option.getD_some]
        have hc : 1 ≤ c := by
          unfold mapGet at hget
          cases he : mapGetEntry dfs t with
          | none => rw [he] at hget; simp at hget
          | some e =>
            rw [he] at hget
            simp at hget
            exact hget ▸ hpos e (mapGetEntry_eq_some he).2
        rw [if_neg (by omega)]
        rw [mapSet_mapSet_same]
        have hc1 : c + 1 - 1 = c := by omega
        rw [hc1]
        exact mapSet_eq_self hget
    rw [hone]
    exact ih (List.nodup_cons.mp hnd).2 dfs hpos

/-- C10: on an index where `path` is absent (and document frequencies are
positive, as every state the class produces satisfies), `updateDocument(path,
text)` followed by `removeDocument(path)` restores the document map, the
document-frequency table, and the total document count exactly. -/
theorem c10_update_remove_roundtrip (s : TfIdfIndex) (path content : String)
    (habs : path ∉ mapKeys s.documents)
    (hpos : ∀ e ∈ s.documentFreqs, 1 ≤ (e : String × Nat).2) :
    (removeDocument (updateDocument s path content) path).documents = s.documents ∧
    (removeDocument (updateDocument s path content) path).documentFreqs = s.documentFreqs ∧
    (removeDocument (updateDocument s path content) path).totalDocuments =
      s.totalDocuments := by
  have hnone : mapGet s.documents path = none :=
    mapGet_eq_none_iff.mpr (mapGetEntry_none_iff.mpr habs)
  have hrm : removeDocumentInternal s path = s := by
    unfold removeDocumentInternal
    rw [hnone]
  have h1 : (updateDocument s path content).documents =
      mapSet s.documents path
        { path := path, termFreqs := countTokens (tokenize content),
          totalTerms := (tokenize content).length, magnitude := 0 } := by
    simp only [updateDocument, addDocumentInternal, hrm]
  have h2 : (updateDocument s path content).documentFreqs =
      bumpDocFreqs s.documentFreqs (mapKeys (countTokens (tokenize content))) := by
    simp only [updateDocument, addDocumentInternal, hrm]
  have h3 : (updateDocument s path content).totalDocuments = s.totalDocuments + 1 := by
    simp only [updateDocument, addDocumentInternal, hrm]
  have hg : mapGet (updateDocument s path content).documents path =
      some { path := path, termFreqs := countTokens (tokenize content),
             totalTerms := (tokenize content).length, magnitude := 0 } := by
    rw [h1, mapGet_mapSet]
    simp
  have hd : (removeDocument (updateDocument s path content) path).documents =
      mapDelete (updateDocument s path content).documents path := by
    unfold removeDocument removeDocumentInternal
    rw [hg]
  have hf : (removeDocument (updateDocument s path content) path).documentFreqs =
      dropDocFreqs (updateDocument s path content).documentFreqs
        (mapKeys (countTokens (tokenize content))) := by
    unfold removeDocument removeDocumentInternal
    rw [hg]
  have ht : (removeDocument (updateDocument s path content) path).totalDocuments =
      (updateDocument s path content).totalDocuments - 1 := by
    unfold removeDocument removeDocumentInternal
    rw [hg]
  refine ⟨?_, ?_, ?_⟩
  · rw [hd, h1, mapSet_append_of_not_mem _ habs]
    exact mapDelete_append_not_mem _ habs
  · rw [hf, h2]
    exact drop_bump_cancel _ (countTokens_keys_nodup _) _ hpos
  · rw [ht, h3]
    omega

/-- Witness instantiating `c10_update_remove_roundtrip` on a one-document
index. -/
theorem c10_update_remove_roundtrip_witness :
    (removeDocument (updateDocument (buildIndex [("e.md", "vq")]) "d.md" "hello world")
        "d.md").documents = (buildIndex [("e.md", "vq")]).documents ∧
    (removeDocument (updateDocument (buildIndex [("e.md", "vq")]) "d.md" "hello world")
        "d.md").documentFreqs = (buildIndex [("e.md", "vq")]).documentFreqs ∧
    (removeDocument (updateDocument (buildIndex [("e.md", "vq")]) "d.md" "hello world")
        "d.md").totalDocuments = (buildIndex [("e.md", "vq")]).totalDocuments :=
  c10_update_remove_roundtrip (buildIndex [("e.md", "vq")]) "d.md" "hello world"
    (by decide) (by decide)

/-! ### findShortestPath: BFS soundness, optimality and completeness -/

theorem path_of_chain (g : Graph) :
    ∀ (l : List String) (s t : String),
      List.Chain' (fun u v => v ∈ nbrPaths g u) l →
      l.head? = some s → l.getLast? = some t → PathTo g s t (l.length - 1) := by
  intro l
  induction l using List.reverseRecOn with
  | nil => intro s t _ hh _; simp at hh
  | append_singleton l' a ih =>
    intro s t hc hh hl
    have hta : t = a := by
      rw [List.getLast?_concat] at hl
      exact (Option.some.inj hl).symm
    subst hta
    cases l' with
    | nil =>
      simp at hh
      subst hh
      show PathTo g t t ([t].length - 1)
      exact PathIn.refl
    | cons b l'' =>
      rw [List.chain'_append] at hc
      obtain ⟨hc1, _, hedge⟩ := hc
      have hh2 : (b :: l'').head? = some s := hh
      cases hgl : (b :: l'').getLast? with
      | none => simp at hgl
      | some t' =>
        have hp := ih s t' hc1 hh2 hgl
        have hstep : PathTo g s t ((b :: l'').length - 1 + 1) :=
          PathIn.step hp (hedge t' hgl t (by simp))
        have harith : (b :: l'').length - 1 + 1 = ((b :: l'') ++ [t]).length - 1 := by
          simp
        rw [harith] at hstep
        exact hstep

theorem chain_of_path (g : Graph) {s t : String} {n : Nat} (h : PathTo g s t n) :
    ∃ l : List String, List.Chain' (fun u v => v ∈ nbrPaths g u) l ∧
      l.head? = some s ∧ l.getLast? = some t ∧ l.length = n + 1 := by
  induction h with
  | refl => exact ⟨[s], by simp, rfl, rfl, rfl⟩
  | @step u v m hp hv ih =>
    obtain ⟨l, hc, hh, hl, hlen⟩ := ih
    have hne : l ≠ [] := by
      intro hc2
      rw [hc2] at hlen
      simp at hlen
    refine ⟨l ++ [v], ?_, ?_, ?_, ?_⟩
    · rw [List.chain'_append]
      refine ⟨hc, by simp, ?_⟩
      intro x hx y hy
      simp at hy
      subst hy
      rw [hl] at hx
      obtain rfl := Option.some.inj hx.symm
      exact hv
    · cases l with
      | nil => exact absurd rfl hne
      | cons b l'' => exact hh
    · rw [List.getLast?_concat]
    · simp [hlen]

theorem mapGet_isSome_of_mem_keys {β : Type} {m : List (String × β)} {k : String}
    (h : k ∈ mapKeys m) : ∃ v, mapGet m k = some v := by
  cases hg : mapGet m k with
  | none =>
    exact absurd h (mapGetEntry_none_iff.mp (mapGet_eq_none_iff.mp hg))
  | some v => exact ⟨v, rfl⟩

theorem nbr_closed {g : Graph} (hWF : WFGraph g) {u : String}
    (hu : u ∈ mapKeys g) : ∀ w ∈ nbrPaths g u, w ∈ mapKeys g := by
  obtain ⟨hnd2, hPFM, hIKC⟩ := hWF
  obtain ⟨nd, hnd⟩ := mapGet_isSome_of_mem_keys hu
  intro w hw
  rw [nbrPaths_of_mapGet hnd] at hw
  unfold neighborList at hw
  rcases List.mem_append.mp hw with hw | hw
  · rcases List.mem_filterMap.mp hw with ⟨o, _, hro⟩
    cases hr : resolveNode g o with
    | none => rw [hr] at hro; simp at hro
    | some nd2 =>
      rw [hr] at hro
      simp at hro
      unfold resolveNode at hr
      cases hre : resolveEntry g o with
      | none => rw [hre] at hr; simp at hr
      | some e =>
        rw [hre] at hr
        simp at hr
        have hmem := resolveEntry_mem hre
        have hpath : nd2.path = e.1 := by rw [← hr]; exact hPFM e hmem
        rw [← hro, hpath]
        exact List.mem_map.mpr ⟨e, hmem, rfl⟩
  · unfold mapGet at hnd
    cases he : mapGetEntry g u with
    | none => rw [he] at hnd; simp at hnd
    | some e =>
      rw [he] at hnd
      simp at hnd
      have hmem := (mapGetEntry_eq_some he).2
      exact hIKC e hmem w (by rw [hnd]; exact hw)

theorem front_min {queue : List (List String)} {p : List String}
    {rest : List (List String)} (hq : queue = p :: rest) (htl : TwoLevel queue) :
    ∀ q ∈ queue, p.length ≤ q.length := by
  subst hq
  obtain ⟨A, B, l, heq, hA, hB⟩ := htl
  intro q hq
  cases A with
  | nil =>
    simp at heq
    have hpB : p ∈ B := by rw [← heq]; exact List.mem_cons_self _ _
    have hqB : q ∈ B := by rw [← heq]; exact hq
    rw [hB p hpB, hB q hqB]
  | cons p0 A' =>
    have hp0 : p = p0 ∧ rest = A' ++ B := by
      have := heq
      simp at this
      exact ⟨this.1, this.2⟩
    obtain ⟨rfl, hrest⟩ := hp0
    have hpl : p.length = l := hA p (List.mem_cons_self _ _)
    rcases List.mem_cons.mp hq with rfl | hq2
    · exact le_refl _
    · rw [hrest] at hq2
      rcases List.mem_append.mp hq2 with hq3 | hq3
      · rw [hpl, hA q (List.mem_cons_of_mem _ hq3)]
      · rw [hpl, hB q hq3]
        omega

theorem bfsStep_inr (T : String) (cp : List String) :
    ∀ (nbs : List String) (queue : List (List String)) (visited : List String)
      (l : List String),
      bfsStep T cp nbs queue visited = Sum.inr l → l = cp ++ [T] ∧ T ∈ nbs := by
  intro nbs
  induction nbs with
  | nil =>
    intro queue visited l h
    simp [bfsStep] at h
  | cons nb rest ih =>
    intro queue visited l h
    unfold bfsStep at h
    by_cases hv : nb ∈ visited
    · rw [if_pos hv] at h
      obtain ⟨h1, h2⟩ := ih _ _ _ h
      exact ⟨h1, List.mem_cons_of_mem _ h2⟩
    · rw [if_neg hv] at h
      by_cases ht : nb = T
      · rw [if_pos ht] at h
        refine ⟨?_, ?_⟩
        · rw [← Sum.inr.inj h, ht]
        · rw [← ht]
          exact List.mem_cons_self _ _
      · rw [if_neg ht] at h
        obtain ⟨h1, h2⟩ := ih _ _ _ h
        exact ⟨h1, List.mem_cons_of_mem _ h2⟩

theorem bfsStep_inl (T : String) (cp : List String) :
    ∀ (nbs : List String) (queue : List (List String)) (visited : List String)
      (q2 : List (List String)) (v2 : List String),
      bfsStep T cp nbs queue visited = Sum.inl (q2, v2) →
      ∃ new : List String,
        q2 = queue ++ new.map (fun nb => cp ++ [nb]) ∧
        v2 = visited ++ new ∧
        new.Nodup ∧
        (∀ nb ∈ new, nb ∈ nbs ∧ nb ∉ visited ∧ nb ≠ T) ∧
        (∀ nb ∈ nbs, nb ∈ v2) := by
  intro nbs
  induction nbs with
  | nil =>
    intro queue visited q2 v2 h
    simp [bfsStep] at h
    obtain ⟨h1, h2⟩ := h
    exact ⟨[], by simp [h1], by simp [h2], List.nodup_nil, by simp, by simp⟩
  | cons nb rest ih =>
    intro queue visited q2 v2 h
    unfold bfsStep at h
    by_cases hv : nb ∈ visited
    · rw [if_pos hv] at h
      obtain ⟨new, h1, h2, h3, h4, h5⟩ := ih _ _ _ _ h
      refine ⟨new, h1, h2, h3,
        fun x hx => ⟨List.mem_cons_of_mem _ (h4 x hx).1, (h4 x hx).2.1, (h4 x hx).2.2⟩, ?_⟩
      intro x hx
      rcases List.mem_cons.mp hx with rfl | hx2
      · rw [h2]
        exact List.mem_append_left _ hv
      · exact h5 x hx2
    · rw [if_neg hv] at h
      by_cases ht : nb = T
      · rw [if_pos ht] at h
        exact absurd h (by simp)
      · rw [if_neg ht] at h
        obtain ⟨new, h1, h2, h3, h4, h5⟩ := ih _ _ _ _ h
        refine ⟨nb :: new, ?_, ?_, ?_, ?_, ?_⟩
        · rw [h1]
          simp
        · rw [h2]
          simp
        · rw [List.nodup_cons]
          refine ⟨fun hc => ?_, h3⟩
          exact (h4 nb hc).2.1 (List.mem_append_right _ (by simp))
        · intro x hx
          rcases List.mem_cons.mp hx with rfl | hx2
          · exact ⟨List.mem_cons_self _ _, hv, ht⟩
          · obtain ⟨ha, hb, hc⟩ := h4 x hx2
            exact ⟨List.mem_cons_of_mem _ ha,
              fun hcc => hb (List.mem_append_left _ hcc), hc⟩
        · intro x hx
          rcases List.mem_cons.mp hx with rfl | hx2
          · rw [h2]
            exact List.mem_append_left _ (List.mem_append_right _ (by simp))
          · exact h5 x hx2

/-- Any walk from the source to an unvisited node is at least as long (in
nodes, counting edges as length minus one) as some queue entry. -/
theorem bfs_crossing {g : Graph} {S T : String} {queue : List (List String)}
    {visited : List String} (hInv : BfsInv g S T queue visited) :
    ∀ (v : String) (n : Nat), PathTo g S v n → v ∉ visited →
      ∃ q ∈ queue, q.length ≤ n := by
  obtain ⟨hnd, hS, hT, hkeys, hent, hclosed, htl⟩ := hInv
  intro v n hp
  induction hp with
  | refl => intro hv; exact absurd hS hv
  | @step u w m hpu hw ih =>
    intro hv
    by_cases hu : u ∈ visited
    · by_cases hq : ∀ p ∈ queue, entryEnd p ≠ u
      · exact absurd (hclosed u hu hq w hw) hv
      · push_neg at hq
        obtain ⟨p, hpq, hpu2⟩ := hq
        have hup : PathTo g S (entryEnd p) m := by rw [hpu2]; exact hpu
        have hle := (hent p hpq).2.2 m hup
        exact ⟨p, hpq, by omega⟩
    · obtain ⟨q, hq1, hq2⟩ := ih hu
      exact ⟨q, hq1, by omega⟩

theorem entryEnd_concat (l : List String) (a : String) :
    entryEnd (l ++ [a]) = a := by
  unfold entryEnd
  induction l with
  | nil => rfl
  | cons b l ih =>
    cases l with
    | nil => rfl
    | cons c l2 => exact ih

theorem getLast?_entryEnd {p : List String} (h : p ≠ []) :
    p.getLast? = some (entryEnd p) := by
  unfold entryEnd
  cases hl : p.getLast? with
  | none => exact absurd (List.getLast?_eq_none_iff.mp hl) h
  | some a => rw [List.getLastD_eq_getLast?, hl]; rfl

theorem length_filter_split {α : Type} (p q : α → Bool) :
    ∀ l : List α, (l.filter p).length =
      (l.filter (fun a => p a && q a)).length +
      (l.filter (fun a => p a && !q a)).length := by
  intro l
  induction l with
  | nil => rfl
  | cons a l ih =>
    simp only [List.filter_cons]
    cases hp : p a
    · simp [ih]
    · cases hq : q a
      · simp only [Bool.true_and, Bool.not_false, if_pos rfl]
        simp [ih]
        omega
      · simp only [Bool.true_and, Bool.not_true, if_pos rfl]
        simp [ih]
        omega

theorem unvisited_drop {g : Graph} {visited new : List String}
    (hkeys : (mapKeys g).Nodup) (hnnd : new.Nodup)
    (hsub : ∀ x ∈ new, x ∈ mapKeys g) (hfresh : ∀ x ∈ new, x ∉ visited) :
    unvisitedCount g (visited ++ new) + new.length = unvisitedCount g visited := by
  unfold unvisitedCount
  have hsplit := length_filter_split (fun k => decide (k ∉ visited))
    (fun k => decide (k ∈ new)) (mapKeys g)
  have h2 : (mapKeys g).filter (fun k => decide (k ∉ visited ++ new)) =
      (mapKeys g).filter (fun k => decide (k ∉ visited) && !decide (k ∈ new)) := by
    apply List.filter_congr
    intro a _
    by_cases hv : a ∈ visited <;> by_cases hn : a ∈ new <;> simp [hv, hn]
  have h3 : (mapKeys g).filter (fun k => decide (k ∉ visited) && decide (k ∈ new)) =
      (mapKeys g).filter (fun k => decide (k ∈ new)) := by
    apply List.filter_congr
    intro a _
    by_cases hn : a ∈ new
    · simp [hn, hfresh a hn]
    · simp [hn]
  have h4 : ((mapKeys g).filter (fun k => decide (k ∈ new))).length = new.length := by
    have hperm : List.Perm ((mapKeys g).filter (fun k => decide (k ∈ new))) new := by
      rw [List.perm_ext_iff_of_nodup (hkeys.filter _) hnnd]
      intro a
      simp only [List.mem_filter, decide_eq_true_eq]
      exact ⟨fun h => h.2, fun h => ⟨hsub a h, h⟩⟩
    exact hperm.length_eq
  rw [h2]
  rw [h3, h4] at hsplit
  omega

theorem neighborList_getD {g : Graph} {cur : String} (h : cur ∈ mapKeys g) :
    neighborList g ((mapGet g cur).getD defaultNode) = nbrPaths g cur := by
  obtain ⟨nd, hnd⟩ := mapGet_isSome_of_mem_keys h
  rw [hnd]
  show neighborList g nd = nbrPaths g cur
  exact (nbrPaths_of_mapGet hnd).symm

theorem bfsLoop_cons (g : Graph) (T : String) (fuel : Nat) (cp : List String)
    (queue : List (List String)) (visited : List String) :
    bfsLoop g T (fuel + 1) (cp :: queue) visited =
      match bfsStep T cp
          (neighborList g ((mapGet g (cp.getLastD "")).getD defaultNode))
          queue visited with
      | Sum.inr found => some found
      | Sum.inl qv => bfsLoop g T fuel qv.1 qv.2 := rfl

/-- One BFS iteration preserves the invariant and decreases
queue-plus-unvisited by exactly one. -/
theorem bfs_preserve {g : Graph} (hWF : WFGraph g) {S T : String}
    {p : List String} {rest q2 : List (List String)} {visited v2 : List String}
    (hInv : BfsInv g S T (p :: rest) visited)
    (hstep : bfsStep T p (nbrPaths g (entryEnd p)) rest visited = Sum.inl (q2, v2)) :
    BfsInv g S T q2 v2 ∧
    q2.length + unvisitedCount g v2 + 1 =
      (p :: rest).length + unvisitedCount g visited := by
  have hInv0 := hInv
  obtain ⟨hnd, hS, hT, hkeys, hent, hclosed, htl⟩ := hInv
  obtain ⟨⟨hpne, hph, hpc⟩, hep, hop⟩ := hent p (List.mem_cons_self _ _)
  have hcurk : entryEnd p ∈ mapKeys g := hkeys _ hep
  obtain ⟨new, hq2, hv2, hnnd, hnew, hall⟩ := bfsStep_inl T p _ rest visited _ _ hstep
  have hnewk : ∀ x ∈ new, x ∈ mapKeys g := by
    intro x hx
    exact nbr_closed hWF hcurk x (hnew x hx).1
  have hfresh : ∀ x ∈ new, x ∉ visited := fun x hx => (hnew x hx).2.1
  constructor
  · refine ⟨?_, ?_, ?_, ?_, ?_, ?_, ?_⟩
    · rw [hv2, List.nodup_append]
      exact ⟨hnd, hnnd, fun a ha hb => hfresh a hb ha⟩
    · rw [hv2]
      exact List.mem_append_left _ hS
    · rw [hv2]
      intro hc
      rcases List.mem_append.mp hc with hc | hc
      · exact hT hc
      · exact (hnew T hc).2.2 rfl
    · intro v hv
      rw [hv2] at hv
      rcases List.mem_append.mp hv with hv | hv
      · exact hkeys v hv
      · exact hnewk v hv
    · intro q hq
      rw [hq2] at hq
      rcases List.mem_append.mp hq with hq | hq
      · obtain ⟨hvq, heq, hoq⟩ := hent q (List.mem_cons_of_mem _ hq)
        exact ⟨hvq, by rw [hv2]; exact List.mem_append_left _ heq, hoq⟩
      · rcases List.mem_map.mp hq with ⟨nb, hnb, rfl⟩
        obtain ⟨hnbn, hnbv, hnbt⟩ := hnew nb hnb
        refine ⟨⟨by simp, ?_, ?_⟩, ?_, ?_⟩
        · cases p with
          | nil => exact absurd rfl hpne
          | cons b p2 => exact hph
        · rw [List.chain'_append]
          refine ⟨hpc, by simp, ?_⟩
          intro x hx y hy
          simp at hy
          subst hy
          rw [getLast?_entryEnd hpne] at hx
          obtain rfl := Option.some.inj hx.symm
          exact hnbn
        · rw [entryEnd_concat, hv2]
          exact List.mem_append_right _ hnb
        · intro n hpath
          rw [entryEnd_concat] at hpath
          obtain ⟨q3, hq3, hlen3⟩ := bfs_crossing hInv0 nb n hpath hnbv
          have hfm := front_min rfl htl q3 hq3
          simp only [List.length_append, List.length_singleton]
          omega
    · intro v hv hqend w hw
      rw [hv2] at hv
      rcases List.mem_append.mp hv with hv | hv
      · by_cases hq3 : ∀ q ∈ p :: rest, entryEnd q ≠ v
        · rw [hv2]
          exact List.mem_append_left _ (hclosed v hv hq3 w hw)
        · push_neg at hq3
          obtain ⟨q, hqmem, hqv⟩ := hq3
          rcases List.mem_cons.mp hqmem with rfl | hqr
          · rw [← hqv] at hw
            exact hall w hw
          · exact absurd hqv (hqend q (by rw [hq2]; exact List.mem_append_left _ hqr))
      · exact absurd (entryEnd_concat p v) (hqend (p ++ [v])
          (by rw [hq2]; exact List.mem_append_right _ (List.mem_map.mpr ⟨v, hv, rfl⟩)))
    · obtain ⟨A, B, l, heq, hA, hB⟩ := htl
      cases A with
      | nil =>
        simp at heq
        have hpl : p.length = l + 1 := hB p (by rw [← heq]; exact List.mem_cons_self _ _)
        refine ⟨rest, new.map (fun nb => p ++ [nb]), l + 1, hq2, ?_, ?_⟩
        · intro q hq
          exact hB q (by rw [← heq]; exact List.mem_cons_of_mem _ hq)
        · intro q hq
          rcases List.mem_map.mp hq with ⟨nb, _, rfl⟩
          simp [hpl]
      | cons p0 A2 =>
        have heq2 : p = p0 ∧ rest = A2 ++ B := by
          have := heq
          simp at this
          exact ⟨this.1, this.2⟩
        obtain ⟨rfl, hrest⟩ := heq2
        have hpl : p.length = l := hA p (List.mem_cons_self _ _)
        refine ⟨A2, B ++ new.map (fun nb => p ++ [nb]), l, ?_, ?_, ?_⟩
        · rw [hq2, hrest, List.append_assoc]
        · intro q hq
          exact hA q (List.mem_cons_of_mem _ hq)
        · intro q hq
          rcases List.mem_append.mp hq with hq | hq
          · exact hB q hq
          · rcases List.mem_map.mp hq with ⟨nb, _, rfl⟩
            simp [hpl]
  · have hlen : q2.length = rest.length + new.length := by
      rw [hq2, List.length_append, List.length_map]
    have hdrop := unvisited_drop hWF.1 hnnd hnewk hfresh
    rw [hv2, hlen]
    simp only [List.length_cons]
    omega

/-- Whatever the BFS loop returns from an invariant state is a neighbor
chain from the source to the target of minimal length. -/
theorem bfsLoop_sound {g : Graph} (hWF : WFGraph g) {S T : String} :
    ∀ (fuel : Nat) (queue : List (List String)) (visited : List String)
      (l : List String),
      BfsInv g S T queue visited →
      bfsLoop g T fuel queue visited = some l →
      l.head? = some S ∧ l.getLast? = some T ∧
      List.Chain' (fun u v => v ∈ nbrPaths g u) l ∧
      ∀ n, PathTo g S T n → l.length ≤ n + 1 := by
  intro fuel
  induction fuel with
  | zero => intro queue visited l _ h; simp [bfsLoop] at h
  | succ f ih =>
    intro queue visited l hInv h
    cases queue with
    | nil => simp [bfsLoop] at h
    | cons cp rest =>
      rw [bfsLoop_cons] at h
      have hcur : entryEnd cp ∈ visited :=
        (hInv.2.2.2.2.1 cp (List.mem_cons_self _ _)).2.1
      have hcurk : entryEnd cp ∈ mapKeys g := hInv.2.2.2.1 _ hcur
      have hnb : neighborList g ((mapGet g (cp.getLastD "")).getD defaultNode) =
          nbrPaths g (entryEnd cp) := by
        show neighborList g ((mapGet g (entryEnd cp)).getD defaultNode) = _
        exact neighborList_getD hcurk
      rw [hnb] at h
      cases hbs : bfsStep T cp (nbrPaths g (entryEnd cp)) rest visited with
      | inr found =>
        rw [hbs] at h
        simp at h
        subst h
        obtain ⟨hfound, hTnb⟩ := bfsStep_inr T cp _ rest visited found hbs
        subst hfound
        obtain ⟨⟨hpne, hph, hpc⟩, hep, hop⟩ :=
          hInv.2.2.2.2.1 cp (List.mem_cons_self _ _)
        refine ⟨?_, ?_, ?_, ?_⟩
        · cases cp with
          | nil => exact absurd rfl hpne
          | cons b p2 => exact hph
        · rw [List.getLast?_concat]
        · rw [List.chain'_append]
          refine ⟨hpc, by simp, ?_⟩
          intro x hx y hy
          simp at hy
          subst hy
          rw [getLast?_entryEnd hpne] at hx
          obtain rfl := Option.some.inj hx.symm
          exact hTnb
        · intro n hpath
          obtain ⟨q3, hq3, hlen3⟩ := bfs_crossing hInv T n hpath hInv.2.2.1
          have hfm := front_min rfl hInv.2.2.2.2.2.2 q3 hq3
          simp only [List.length_append, List.length_singleton]
          omega
      | inl qv =>
        rw [hbs] at h
        obtain ⟨q2, v2⟩ := qv
        obtain ⟨hInv2, _⟩ := bfs_preserve hWF hInv hbs
        exact ih q2 v2 l hInv2 h

/-- From an invariant state with the target reachable and enough fuel, the
BFS loop finds a path. -/
theorem bfsLoop_complete {g : Graph} (hWF : WFGraph g) {S T : String} :
    ∀ (fuel : Nat) (queue : List (List String)) (visited : List String),
      BfsInv g S T queue visited →
      (∃ n, PathTo g S T n) →
      queue.length + unvisitedCount g visited < fuel →
      ∃ l, bfsLoop g T fuel queue visited = some l := by
  intro fuel
  induction fuel with
  | zero => intro queue visited _ _ hlt; omega
  | succ f ih =>
    intro queue visited hInv hconn hlt
    cases queue with
    | nil =>
      obtain ⟨n, hn⟩ := hconn
      obtain ⟨q, hq, _⟩ := bfs_crossing hInv T n hn hInv.2.2.1
      simp at hq
    | cons cp rest =>
      rw [bfsLoop_cons]
      have hcur : entryEnd cp ∈ visited :=
        (hInv.2.2.2.2.1 cp (List.mem_cons_self _ _)).2.1
      have hcurk : entryEnd cp ∈ mapKeys g := hInv.2.2.2.1 _ hcur
      have hnb : neighborList g ((mapGet g (cp.getLastD "")).getD defaultNode) =
          nbrPaths g (entryEnd cp) := by
        show neighborList g ((mapGet g (entryEnd cp)).getD defaultNode) = _
        exact neighborList_getD hcurk
      rw [hnb]
      cases hbs : bfsStep T cp (nbrPaths g (entryEnd cp)) rest visited with
      | inr found => exact ⟨found, rfl⟩
      | inl qv =>
        obtain ⟨q2, v2⟩ := qv
        obtain ⟨hInv2, hmeas⟩ := bfs_preserve hWF hInv hbs
        have hlt2 : q2.length + unvisitedCount g v2 < f := by
          simp only [List.length_cons] at hmeas hlt
          omega
        exact ih q2 v2 hInv2 hconn hlt2

theorem resolveNode_path_mem {g : Graph} (hPFM : PathFieldsMatch g) {i : String}
    {nd : GraphNode} (h : resolveNode g i = some nd) : nd.path ∈ mapKeys g := by
  unfold resolveNode at h
  cases he : resolveEntry g i with
  | none => rw [he] at h; simp at h
  | some e =>
    rw [he] at h
    simp at h
    have hm := resolveEntry_mem he
    rw [← h, hPFM e hm]
    exact List.mem_map.mpr ⟨e, hm, rfl⟩

theorem bfs_initial {g : Graph} {S T : String}
    (hS : S ∈ mapKeys g) (hST : S ≠ T) : BfsInv g S T [[S]] [S] := by
  refine ⟨List.nodup_singleton S, by simp, ?_, ?_, ?_, ?_, ?_⟩
  · intro hc
    simp at hc
    exact hST hc.symm
  · intro v hv
    simp at hv
    subst hv
    exact hS
  · intro p hp
    simp at hp
    subst hp
    refine ⟨⟨by simp, rfl, by simp⟩, by simp [entryEnd], ?_⟩
    intro n _
    simp
  · intro v hv hqend w hw
    simp at hv
    subst hv
    exact absurd (show entryEnd [v] = v from rfl) (hqend [v] (by simp))
  · exact ⟨[[S]], [], 1, by simp, by simp, by simp⟩

theorem filter_not_singleton_lt {l : List String} {S : String} (h : S ∈ l) :
    (l.filter (fun k => decide (k ∉ [S]))).length < l.length := by
  induction l with
  | nil => simp at h
  | cons a l ih =>
    simp only [List.filter_cons]
    by_cases ha : a ∈ [S]
    · have hd : decide (a ∉ [S]) = false := by simp; simpa using ha
      rw [hd, if_neg Bool.false_ne_true]
      exact Nat.lt_succ_of_le (List.length_filter_le _ _)
    · have hS2 : S ∈ l := by
        rcases List.mem_cons.mp h with rfl | h2
        · exact absurd (by simp) ha
        · exact h2
      have hd : decide (a ∉ [S]) = true := by
        simp
        intro hc
        exact ha (by simp [hc])
      rw [hd, if_pos rfl]
      simp only [List.length_cons]
      exact Nat.succ_lt_succ (ih hS2)

theorem initial_fuel {g : Graph} {S : String} (hS : S ∈ mapKeys g) :
    ([[S]] : List (List String)).length + unvisitedCount g [S] < g.length + 2 := by
  unfold unvisitedCount
  have h1 := filter_not_singleton_lt hS
  have h2 : (mapKeys g).length = g.length := List.length_map _ _
  simp only [List.length_singleton]
  omega

/-- C6: on a well-formed graph, `findShortestPath` returns `[a]` when both
references resolve to the same node `a`; returns `none` exactly when an
endpoint fails to resolve or no walk connects the resolved endpoints in the
resolved-outlink-plus-inlink adjacency; and otherwise returns a
minimum-length sequence of ids from the resolved source to the resolved
target whose consecutive elements are neighbors. -/
theorem c6_shortest_path (g : Graph) (source target : String) (hWF : WFGraph g) :
    ((resolveNode g source = none ∨ resolveNode g target = none) →
      findShortestPath g source target = none) ∧
    (∀ sN tN, resolveNode g source = some sN → resolveNode g target = some tN →
      (sN.path = tN.path → findShortestPath g source target = some [sN.path]) ∧
      (¬ Connected g sN.path tN.path → findShortestPath g source target = none) ∧
      (Connected g sN.path tN.path →
        ∃ l, findShortestPath g source target = some l ∧
          l.head? = some sN.path ∧ l.getLast? = some tN.path ∧
          List.Chain' (fun u v => v ∈ nbrPaths g u) l ∧
          ∀ l2, l2.head? = some sN.path → l2.getLast? = some tN.path →
            List.Chain' (fun u v => v ∈ nbrPaths g u) l2 →
            l.length ≤ l2.length)) := by
  constructor
  · intro h
    unfold findShortestPath
    rcases h with h | h
    · rw [h]
    · rw [h]
      cases h2 : resolveNode g source with
      | none => rfl
      | some s => rfl
  · intro sN tN hsr htr
    refine ⟨?_, ?_, ?_⟩
    · intro heq
      unfold findShortestPath
      rw [hsr, htr]
      show (if sN.path = tN.path then some [sN.path]
            else bfsLoop g tN.path (g.length + 2) [[sN.path]] [sN.path]) =
        some [sN.path]
      rw [if_pos heq]
    · intro hnc
      unfold findShortestPath
      rw [hsr, htr]
      show (if sN.path = tN.path then some [sN.path]
            else bfsLoop g tN.path (g.length + 2) [[sN.path]] [sN.path]) = none
      by_cases heq : sN.path = tN.path
      · exact absurd ⟨0, heq ▸ PathIn.refl⟩ hnc
      · rw [if_neg heq]
        cases hres : bfsLoop g tN.path (g.length + 2) [[sN.path]] [sN.path] with
        | none => rfl
        | some l =>
          exfalso
          have hSk : sN.path ∈ mapKeys g := resolveNode_path_mem hWF.2.1 hsr
          have hInv := bfs_initial hSk heq
          obtain ⟨hh, hl, hc, _⟩ := bfsLoop_sound hWF _ _ _ l hInv hres
          exact hnc ⟨l.length - 1, path_of_chain g l _ _ hc hh hl⟩
    · intro hconn
      by_cases heq : sN.path = tN.path
      · refine ⟨[sN.path], ?_, rfl, by simp [heq], by simp, ?_⟩
        · unfold findShortestPath
          rw [hsr, htr]
          show (if sN.path = tN.path then some [sN.path]
                else bfsLoop g tN.path (g.length + 2) [[sN.path]] [sN.path]) =
            some [sN.path]
          rw [if_pos heq]
        · intro l2 hh2 _ _
          have hl2ne : l2 ≠ [] := by
            intro hc3
            rw [hc3] at hh2
            simp at hh2
          have := List.length_pos.mpr hl2ne
          simp only [List.length_singleton]
          omega
      · have hSk : sN.path ∈ mapKeys g := resolveNode_path_mem hWF.2.1 hsr
        have hInv := bfs_initial hSk heq
        obtain ⟨l, hres⟩ := bfsLoop_complete hWF (g.length + 2) _ _ hInv hconn
          (initial_fuel hSk)
        obtain ⟨hh, hl, hc, hmin⟩ := bfsLoop_sound hWF _ _ _ l hInv hres
        refine ⟨l, ?_, hh, hl, hc, ?_⟩
        · unfold findShortestPath
          rw [hsr, htr]
          show (if sN.path = tN.path then some [sN.path]
                else bfsLoop g tN.path (g.length + 2) [[sN.path]] [sN.path]) =
            some l
          rw [if_neg heq]
          exact hres
        · intro l2 hh2 hl2 hc2
          have hp2 := path_of_chain g l2 _ _ hc2 hh2 hl2
          have hle := hmin (l2.length - 1) hp2
          have hl2ne : l2 ≠ [] := by
            intro hc3
            rw [hc3] at hh2
            simp at hh2
          have hpos := List.length_pos.mpr hl2ne
          omega

/-- Witness instantiating `c6_shortest_path` on the three-node chain. -/
theorem c6_shortest_path_witness :
    ∃ l, findShortestPath (buildGraph docsChain3) "a.md" "c.md" = some l ∧
      l.head? = some "a.md" ∧ l.getLast? = some "c.md" ∧
      List.Chain' (fun u v => v ∈ nbrPaths (buildGraph docsChain3) u) l ∧
      ∀ l2, l2.head? = some "a.md" → l2.getLast? = some "c.md" →
        List.Chain' (fun u v => v ∈ nbrPaths (buildGraph docsChain3) u) l2 →
        l.length ≤ l2.length := by
  have hWF : WFGraph (buildGraph docsChain3) := by
    unfold WFGraph PathFieldsMatch InlinkKeysClosed
    decide
  have hconn : Connected (buildGraph docsChain3) "a.md" "c.md" :=
    ⟨2, PathIn.step (u := "b.md") (PathIn.step PathIn.refl (by decide)) (by decide)⟩
  exact ((c6_shortest_path (buildGraph docsChain3) "a.md" "c.md" hWF).2
    { path := "a.md", title := "A", tags := [], outlinks := ["b"], inlinks := [] }
    { path := "c.md", title := "C", tags := [], outlinks := [], inlinks := ["b.md"] }
    (by decide) (by decide)).2.2 hconn

/-! ### findBridgeNotes: component counting semantics -/

theorem pathIn_congr {nbr1 nbr2 : String → List String}
    (h : ∀ u, nbr1 u = nbr2 u) {s : String} :
    ∀ {t : String} {n : Nat}, PathIn nbr1 s t n → PathIn nbr2 s t n := by
  intro t n hp
  induction hp with
  | refl => exact PathIn.refl
  | @step u v m hpu hv ih => exact PathIn.step ih (h u ▸ hv)

theorem pathIn_append {nbr : String → List String} {s u : String} :
    ∀ {t : String} {n m : Nat}, PathIn nbr s u n → PathIn nbr u t m →
      PathIn nbr s t (n + m) := by
  intro t n m h1 h2
  induction h2 with
  | refl => exact h1
  | @step a b k hpa hb ih => exact PathIn.step ih hb

theorem pathIn_closed {nbr : String → List String} {P : String → Prop}
    (hcl : ∀ u, P u → ∀ v ∈ nbr u, P v) {s : String} (hs : P s) :
    ∀ {t : String} {n : Nat}, PathIn nbr s t n → P t := by
  intro t n hp
  induction hp with
  | refl => exact hs
  | @step u v m hpu hv ih => exact hcl u ih v hv

theorem reach_symm_pred {nbr : String → List String} {P : String → Prop}
    (hcl : ∀ u, P u → ∀ v ∈ nbr u, P v)
    (hsym : ∀ u, P u → ∀ v ∈ nbr u, u ∈ nbr v) {s t : String} (hs : P s) :
    (∃ n, PathIn nbr s t n) → ∃ n, PathIn nbr t s n := by
  rintro ⟨n, hp⟩
  induction hp with
  | refl => exact ⟨0, PathIn.refl⟩
  | @step u v m hpu hv ih =>
    obtain ⟨k, hk⟩ := ih
    have hu : P u := pathIn_closed hcl hs hpu
    exact ⟨1 + k, pathIn_append (PathIn.step PathIn.refl (hsym u hu v hv)) hk⟩

theorem nbrEx_mem {g : Graph} {ex : Option String} {u w : String} :
    w ∈ nbrEx g ex u ↔ w ∈ nbrPaths g u ∧ some w ≠ ex := by
  unfold nbrEx
  simp [List.mem_filter]

theorem nbrEx_closed_pred {g : Graph} (hWF : WFGraph g) (ex : Option String) :
    ∀ u, (u ∈ mapKeys g ∧ some u ≠ ex) → ∀ v ∈ nbrEx g ex u,
      v ∈ mapKeys g ∧ some v ≠ ex := by
  intro u hu v hv
  obtain ⟨hv1, hv2⟩ := nbrEx_mem.mp hv
  exact ⟨nbr_closed hWF hu.1 v hv1, hv2⟩

theorem nbrEx_symm_pred {g : Graph} (_hWF : WFGraph g) (hsym : SymmAdj g)
    (ex : Option String) :
    ∀ u, (u ∈ mapKeys g ∧ some u ≠ ex) → ∀ v ∈ nbrEx g ex u,
      u ∈ nbrEx g ex v := by
  intro u hu v hv
  obtain ⟨hv1, _⟩ := nbrEx_mem.mp hv
  exact nbrEx_mem.mpr ⟨hsym u hu.1 v hv1, hu.2⟩

theorem length_le_of_inj_witness {W : String → String → Prop} :
    ∀ (l1 l2 : List String),
      l1.Nodup →
      (∀ a ∈ l1, ∃ b ∈ l2, W a b) →
      (∀ a1 ∈ l1, ∀ a2 ∈ l1, ∀ b ∈ l2, W a1 b → W a2 b → a1 = a2) →
      l1.length ≤ l2.length := by
  intro l1
  induction l1 with
  | nil => intro l2 _ _ _; simp
  | cons a rest ih =>
    intro l2 hnd hwit hinj
    obtain ⟨b, hb, hWab⟩ := hwit a (List.mem_cons_self _ _)
    have hrest : rest.length ≤ (l2.erase b).length := by
      apply ih (l2.erase b) (List.nodup_cons.mp hnd).2
      · intro a2 ha2
        obtain ⟨b2, hb2, hW2⟩ := hwit a2 (List.mem_cons_of_mem _ ha2)
        refine ⟨b2, ?_, hW2⟩
        refine (List.mem_erase_of_ne ?_).mpr hb2
        intro hbe
        subst hbe
        exact (List.nodup_cons.mp hnd).1
          (hinj a (List.mem_cons_self _ _) a2 (List.mem_cons_of_mem _ ha2) b2 hb
            hWab hW2 ▸ ha2)
      · intro a1 h1 a2 h2 b2 hb2 hx hy
        exact hinj a1 (List.mem_cons_of_mem _ h1) a2 (List.mem_cons_of_mem _ h2)
          b2 (List.mem_of_mem_erase hb2) hx hy
    have hlen := List.length_erase_of_mem hb
    have hpos : 0 < l2.length := List.length_pos.mpr (List.ne_nil_of_mem hb)
    simp only [List.length_cons]
    omega

/-- Two representative lists for the same symmetric reachability structure
have the same length: the component count is well defined. -/
theorem isComponentCount_unique {nbr : String → List String}
    {univ : List String} {c1 c2 : Nat}
    (hsymR : ∀ a ∈ univ, ∀ b, (∃ n, PathIn nbr a b n) → ∃ n, PathIn nbr b a n)
    (h1 : IsComponentCount nbr univ c1) (h2 : IsComponentCount nbr univ c2) :
    c1 = c2 := by
  obtain ⟨r1, hl1, hnd1, hu1, hp1, hc1⟩ := h1
  obtain ⟨r2, hl2, hnd2, hu2, hp2, hc2⟩ := h2
  have hle : ∀ (ra rb : List String), ra.Nodup →
      (∀ r ∈ ra, r ∈ univ) →
      (∀ x ∈ ra, ∀ y ∈ ra, (∃ n, PathIn nbr x y n) → x = y) →
      (∀ r ∈ rb, r ∈ univ) →
      (∀ k ∈ univ, ∃ r ∈ rb, ∃ n, PathIn nbr r k n) →
      ra.length ≤ rb.length := by
    intro ra rb hnd hau hap hbu hbc
    apply length_le_of_inj_witness ra rb hnd
    · intro x hx
      exact hbc x (hau x hx)
    · intro x hx y hy b hbmem hWx hWy
      obtain ⟨n2, hn2⟩ := hWy
      obtain ⟨n3, hn3⟩ := hsymR b (hbu b hbmem) x hWx
      exact hap x hx y hy ⟨n3 + n2, pathIn_append hn3 hn2⟩
  have h12 := hle r1 r2 hnd1 hu1 hp1 hu2 hc2
  have h21 := hle r2 r1 hnd2 hu2 hp2 hu1 hc1
  omega

theorem bfsVisit_zero (g : Graph) (ex : Option String) (q visited : List String) :
    bfsVisit g ex 0 q visited = visited := rfl

theorem bfsVisit_nil (g : Graph) (ex : Option String) (f : Nat)
    (visited : List String) : bfsVisit g ex (f + 1) [] visited = visited := rfl

theorem bfsVisit_cons (g : Graph) (ex : Option String) (f : Nat)
    (cur : String) (queue visited : List String) :
    bfsVisit g ex (f + 1) (cur :: queue) visited =
      bfsVisit g ex f
        (((neighborList g ((mapGet g cur).getD defaultNode)).foldl
          (fun qv2 nb =>
            if nb ∉ qv2.2 ∧ some nb ≠ ex then (qv2.1 ++ [nb], qv2.2 ++ [nb])
            else qv2) (queue, visited)).1)
        (((neighborList g ((mapGet g cur).getD defaultNode)).foldl
          (fun qv2 nb =>
            if nb ∉ qv2.2 ∧ some nb ≠ ex then (qv2.1 ++ [nb], qv2.2 ++ [nb])
            else qv2) (queue, visited)).2) := rfl

theorem bfsVisit_fold (ex : Option String) :
    ∀ (nbs queue visited : List String),
      ∃ new : List String,
        nbs.foldl (fun qv2 nb =>
          if nb ∉ qv2.2 ∧ some nb ≠ ex then (qv2.1 ++ [nb], qv2.2 ++ [nb])
          else qv2) (queue, visited) = (queue ++ new, visited ++ new) ∧
        new.Nodup ∧
        (∀ x ∈ new, x ∈ nbs ∧ x ∉ visited ∧ some x ≠ ex) ∧
        (∀ x ∈ nbs, some x ≠ ex → x ∈ visited ++ new) := by
  intro nbs
  induction nbs with
  | nil =>
    intro queue visited
    exact ⟨[], by simp, List.nodup_nil, by simp, by simp⟩
  | cons nb rest ih =>
    intro queue visited
    rw [List.foldl_cons]
    by_cases hc : nb ∉ visited ∧ some nb ≠ ex
    · rw [if_pos hc]
      obtain ⟨new, h1, h2, h3, h4⟩ := ih (queue ++ [nb]) (visited ++ [nb])
      refine ⟨nb :: new, ?_, ?_, ?_, ?_⟩
      · rw [h1]
        simp
      · rw [List.nodup_cons]
        refine ⟨fun hmem => ?_, h2⟩
        exact (h3 nb hmem).2.1 (List.mem_append_right _ (by simp))
      · intro x hx
        rcases List.mem_cons.mp hx with rfl | hx2
        · exact ⟨List.mem_cons_self _ _, hc.1, hc.2⟩
        · obtain ⟨ha, hb, hcx⟩ := h3 x hx2
          exact ⟨List.mem_cons_of_mem _ ha,
            fun hcc => hb (List.mem_append_left _ hcc), hcx⟩
      · intro x hx hxe
        rcases List.mem_cons.mp hx with rfl | hx2
        · exact List.mem_append_right _ (List.mem_cons_self _ _)
        · have h5 := h4 x hx2 hxe
          simp at h5 ⊢
          tauto
    · rw [if_neg hc]
      obtain ⟨new, h1, h2, h3, h4⟩ := ih queue visited
      push_neg at hc
      refine ⟨new, h1, h2, ?_, ?_⟩
      · intro x hx
        obtain ⟨ha, hb, hcx⟩ := h3 x hx
        exact ⟨List.mem_cons_of_mem _ ha, hb, hcx⟩
      intro x hx hxe
      rcases List.mem_cons.mp hx with rfl | hx2
      · by_cases hv : x ∈ visited
        · exact List.mem_append_left _ hv
        · exact absurd (hc hv) hxe
      · exact h4 x hx2 hxe

/-- `bfsVisit` with sufficient fuel returns a superset of `visited` that is
closed under the exclusion-filtered adjacency; every addition satisfies any
adjacency-closed predicate holding on the queue. -/
theorem bfsVisit_spec {g : Graph} (hWF : WFGraph g) (ex : Option String)
    (P : String → Prop) (hP : ∀ u, P u → ∀ w ∈ nbrEx g ex u, P w) :
    ∀ (fuel : Nat) (queue visited : List String),
      (∀ u ∈ queue, u ∈ visited) →
      (∀ u ∈ queue, u ∈ mapKeys g ∧ some u ≠ ex) →
      (∀ u ∈ queue, P u) →
      visited.Nodup →
      (∀ v ∈ visited, v ∈ mapKeys g ∨ some v = ex) →
      (∀ v ∈ visited, v ∉ queue → some v = ex ∨
        ∀ w ∈ nbrEx g ex v, w ∈ visited) →
      queue.length + unvisitedCount g visited < fuel →
      (∀ v ∈ visited, v ∈ bfsVisit g ex fuel queue visited) ∧
      (bfsVisit g ex fuel queue visited).Nodup ∧
      (∀ v ∈ bfsVisit g ex fuel queue visited, v ∈ mapKeys g ∨ some v = ex) ∧
      (∀ v ∈ bfsVisit g ex fuel queue visited, some v = ex ∨
        ∀ w ∈ nbrEx g ex v, w ∈ bfsVisit g ex fuel queue visited) ∧
      (∀ v ∈ bfsVisit g ex fuel queue visited, v ∈ visited ∨ P v) := by
  intro fuel
  induction fuel with
  | zero => intro queue visited _ _ _ _ _ _ hlt; omega
  | succ f ih =>
    intro queue visited hqv hqk hqP hnd hvk hcl hlt
    cases queue with
    | nil =>
      rw [bfsVisit_nil]
      refine ⟨fun v hv => hv, hnd, hvk, ?_, fun v hv => Or.inl hv⟩
      intro v hv
      exact hcl v hv (by simp)
    | cons cur rest =>
      obtain ⟨hcurk, hcurx⟩ := hqk cur (List.mem_cons_self _ _)
      have hnb : neighborList g ((mapGet g cur).getD defaultNode) =
          nbrPaths g cur := neighborList_getD hcurk
      obtain ⟨new, h1, h2, h3, h4⟩ := bfsVisit_fold ex (nbrPaths g cur) rest visited
      have heq : bfsVisit g ex (f + 1) (cur :: rest) visited =
          bfsVisit g ex f (rest ++ new) (visited ++ new) := by
        rw [bfsVisit_cons, hnb, h1]
      rw [heq]
      have hnewk : ∀ x ∈ new, x ∈ mapKeys g ∧ some x ≠ ex := by
        intro x hx
        exact ⟨nbr_closed hWF hcurk x (h3 x hx).1, (h3 x hx).2.2⟩
      have hnewP : ∀ x ∈ new, P x := by
        intro x hx
        exact hP cur (hqP cur (List.mem_cons_self _ _)) x
          (nbrEx_mem.mpr ⟨(h3 x hx).1, (h3 x hx).2.2⟩)
      have hfresh : ∀ x ∈ new, x ∉ visited := fun x hx => (h3 x hx).2.1
      have hmain := ih (rest ++ new) (visited ++ new)
        (by
          intro u hu
          rcases List.mem_append.mp hu with hu | hu
          · exact List.mem_append_left _ (hqv u (List.mem_cons_of_mem _ hu))
          · exact List.mem_append_right _ hu)
        (by
          intro u hu
          rcases List.mem_append.mp hu with hu | hu
          · exact hqk u (List.mem_cons_of_mem _ hu)
          · exact hnewk u hu)
        (by
          intro u hu
          rcases List.mem_append.mp hu with hu | hu
          · exact hqP u (List.mem_cons_of_mem _ hu)
          · exact hnewP u hu)
        (by
          rw [List.nodup_append]
          exact ⟨hnd, h2, fun a ha hb => hfresh a hb ha⟩)
        (by
          intro v hv
          rcases List.mem_append.mp hv with hv | hv
          · exact hvk v hv
          · exact Or.inl (hnewk v hv).1)
        (by
          intro v hv hvq
          rcases List.mem_append.mp hv with hv | hv
          · by_cases hvc : v = cur
            · subst hvc
              right
              intro w hw
              obtain ⟨hw1, hw2⟩ := nbrEx_mem.mp hw
              exact h4 w (by rw [← hnb] at hw1; rw [hnb] at hw1; exact hw1) hw2
            · have hvr : v ∉ cur :: rest := by
                intro hc2
                rcases List.mem_cons.mp hc2 with rfl | hc3
                · exact hvc rfl
                · exact hvq (List.mem_append_left _ hc3)
              rcases hcl v hv hvr with hx | hx
              · exact Or.inl hx
              · exact Or.inr (fun w hw => List.mem_append_left _ (hx w hw))
          · exact absurd (List.mem_append_right rest hv) hvq)
        (by
          have hdrop := unvisited_drop hWF.1 h2 (fun x hx => (hnewk x hx).1) hfresh
          simp only [List.length_append, List.length_cons] at hlt ⊢
          omega)
      obtain ⟨m1, m2, m3, m4, m5⟩ := hmain
      refine ⟨?_, m2, m3, m4, ?_⟩
      · intro v hv
        exact m1 v (List.mem_append_left _ hv)
      · intro v hv
        rcases m5 v hv with hv2 | hv2
        · rcases List.mem_append.mp hv2 with hv3 | hv3
          · exact Or.inl hv3
          · exact Or.inr (hnewP v hv3)
        · exact Or.inr hv2

theorem ccAux_nil (g : Graph) (ex : Option String) (visited : List String)
    (count : Nat) : countComponentsAux g ex [] visited count = count := rfl

theorem ccAux_cons (g : Graph) (ex : Option String) (p : String)
    (rest visited : List String) (count : Nat) :
    countComponentsAux g ex (p :: rest) visited count =
      if p ∈ visited then countComponentsAux g ex rest visited count
      else countComponentsAux g ex rest
        (bfsVisit g ex (g.length + 2) [p] (visited ++ [p])) (count + 1) := rfl

/-- A set closed under the filtered adjacency absorbs reachability from its
non-excluded members. -/
theorem closed_absorb {g : Graph} {ex : Option String} {visited : List String}
    (hcl : ∀ v ∈ visited, some v = ex ∨ ∀ w ∈ nbrEx g ex v, w ∈ visited)
    {r t : String} (hr : r ∈ visited) (hre : some r ≠ ex)
    (h : ReachEx g ex r t) : t ∈ visited := by
  obtain ⟨n, hn⟩ := h
  have hres := pathIn_closed (P := fun v => v ∈ visited ∧ some v ≠ ex)
    (fun u hu w hw => by
      rcases hcl u hu.1 with hx | hx
      · exact absurd hx hu.2
      · exact ⟨hx w hw, (nbrEx_mem.mp hw).2⟩)
    ⟨hr, hre⟩ hn
  exact hres.1

/-- The shared loop of `countComponents`/`countComponentsWithout` counts one
per reachability class: each pass that finds an unvisited key adds it as a
fresh representative and absorbs its whole component. -/
theorem ccAux_spec {g : Graph} (hWF : WFGraph g) (hsym : SymmAdj g)
    (ex : Option String) :
    ∀ (remaining : List String), (∀ u ∈ remaining, u ∈ mapKeys g) →
    ∀ (visited : List String) (count : Nat) (reps : List String),
      (∀ v ∈ visited, v ∈ mapKeys g ∨ some v = ex) →
      visited.Nodup →
      (∀ v ∈ visited, some v = ex ∨ ∀ w ∈ nbrEx g ex v, w ∈ visited) →
      (∀ u, some u = ex → u ∈ visited) →
      reps.length = count →
      reps.Nodup →
      (∀ r ∈ reps, r ∈ mapKeys g ∧ some r ≠ ex) →
      (∀ r1 ∈ reps, ∀ r2 ∈ reps, ReachEx g ex r1 r2 → r1 = r2) →
      (∀ k ∈ visited, some k ≠ ex → ∃ r ∈ reps, ReachEx g ex r k) →
      (∀ r ∈ reps, r ∈ visited) →
      ∃ reps2 : List String,
        countComponentsAux g ex remaining visited count = reps2.length ∧
        reps2.Nodup ∧
        (∀ r ∈ reps2, r ∈ mapKeys g ∧ some r ≠ ex) ∧
        (∀ r1 ∈ reps2, ∀ r2 ∈ reps2, ReachEx g ex r1 r2 → r1 = r2) ∧
        (∀ k, (k ∈ visited ∨ k ∈ remaining) → some k ≠ ex →
          ∃ r ∈ reps2, ReachEx g ex r k) := by
  intro remaining
  induction remaining with
  | nil =>
    intro _ visited count reps hvk hnd hcl hexv hrl hrnd hrk hrp hrc hrv
    refine ⟨reps, ?_, hrnd, hrk, hrp, ?_⟩
    · rw [ccAux_nil]
      exact hrl.symm
    · intro k hk hke
      rcases hk with hk | hk
      · exact hrc k hk hke
      · simp at hk
  | cons p rest ih =>
    intro hrem visited count reps hvk hnd hcl hexv hrl hrnd hrk hrp hrc hrv
    rw [ccAux_cons]
    by_cases hp : p ∈ visited
    · rw [if_pos hp]
      obtain ⟨reps2, e1, e2, e3, e4, e5⟩ :=
        ih (fun u hu => hrem u (List.mem_cons_of_mem _ hu)) visited count reps
          hvk hnd hcl hexv hrl hrnd hrk hrp hrc hrv
      refine ⟨reps2, e1, e2, e3, e4, ?_⟩
      intro k hk hke
      rcases hk with hk | hk
      · exact e5 k (Or.inl hk) hke
      · rcases List.mem_cons.mp hk with rfl | hk2
        · exact e5 k (Or.inl hp) hke
        · exact e5 k (Or.inr hk2) hke
    · rw [if_neg hp]
      have hpk : p ∈ mapKeys g := hrem p (List.mem_cons_self _ _)
      have hpe : some p ≠ ex := fun hc => hp (hexv p hc)
      have hPcl : ∀ u, ReachEx g ex p u → ∀ w ∈ nbrEx g ex u, ReachEx g ex p w := by
        rintro u ⟨n, hn⟩ w hw
        exact ⟨n + 1, PathIn.step hn hw⟩
      obtain ⟨s1, s2, s3, s4, s5⟩ := bfsVisit_spec hWF ex (ReachEx g ex p) hPcl
        (g.length + 2) [p] (visited ++ [p])
        (by
          intro u hu
          simp at hu
          subst hu
          exact List.mem_append_right _ (by simp))
        (by
          intro u hu
          simp at hu
          subst hu
          exact ⟨hpk, hpe⟩)
        (by
          intro u hu
          simp at hu
          subst hu
          exact ⟨0, PathIn.refl⟩)
        (by
          rw [List.nodup_append]
          refine ⟨hnd, List.nodup_singleton _, ?_⟩
          intro a ha hb
          simp at hb
          subst hb
          exact hp ha)
        (by
          intro v hv
          rcases List.mem_append.mp hv with hv | hv
          · exact hvk v hv
          · simp at hv
            subst hv
            exact Or.inl hpk)
        (by
          intro v hv hvq
          rcases List.mem_append.mp hv with hv | hv
          · rcases hcl v hv with hx | hx
            · exact Or.inl hx
            · exact Or.inr (fun w hw => List.mem_append_left _ (hx w hw))
          · simp at hv
            subst hv
            exact absurd (by simp : v ∈ [v]) hvq)
        (by
          have hle := List.length_filter_le
            (fun k => decide (k ∉ visited ++ [p])) (mapKeys g)
          have hlen : (mapKeys g).length = g.length := List.length_map _ _
          unfold unvisitedCount
          simp only [List.length_singleton]
          omega)
      obtain ⟨reps2, e1, e2, e3, e4, e5⟩ :=
        ih (fun u hu => hrem u (List.mem_cons_of_mem _ hu))
          (bfsVisit g ex (g.length + 2) [p] (visited ++ [p])) (count + 1)
          (reps ++ [p]) s3 s2 s4
          (fun u hu => s1 u (List.mem_append_left _ (hexv u hu)))
          (by simp [hrl])
          (by
            rw [List.nodup_append]
            refine ⟨hrnd, List.nodup_singleton _, ?_⟩
            intro a ha hb
            simp at hb
            subst hb
            exact hp (hrv a ha))
          (by
            intro r hr
            rcases List.mem_append.mp hr with hr | hr
            · exact hrk r hr
            · simp at hr
              subst hr
              exact ⟨hpk, hpe⟩)
          (by
            intro r1 h1 r2 h2 hre
            rcases List.mem_append.mp h1 with h1 | h1
            · rcases List.mem_append.mp h2 with h2 | h2
              · exact hrp r1 h1 r2 h2 hre
              · simp at h2
                rw [h2] at hre
                rw [h2]
                exact absurd (closed_absorb hcl (hrv r1 h1) (hrk r1 h1).2 hre) hp
            · rcases List.mem_append.mp h2 with h2 | h2
              · simp at h1
                rw [h1] at hre
                rw [h1]
                have hback := reach_symm_pred
                  (nbrEx_closed_pred hWF ex) (nbrEx_symm_pred hWF hsym ex)
                  ⟨hpk, hpe⟩ hre
                exact absurd (closed_absorb hcl (hrv r2 h2) (hrk r2 h2).2 hback) hp
              · simp at h1 h2
                rw [h1, h2])
          (by
            intro k hk hke
            rcases s5 k hk with hk2 | hk2
            · rcases List.mem_append.mp hk2 with hk3 | hk3
              · obtain ⟨r, hr1, hr2⟩ := hrc k hk3 hke
                exact ⟨r, List.mem_append_left _ hr1, hr2⟩
              · simp at hk3
                subst hk3
                exact ⟨k, List.mem_append_right _ (by simp), ⟨0, PathIn.refl⟩⟩
            · exact ⟨p, List.mem_append_right _ (by simp), hk2⟩)
          (by
            intro r hr
            rcases List.mem_append.mp hr with hr | hr
            · exact s1 r (List.mem_append_left _ (hrv r hr))
            · simp at hr
              subst hr
              exact s1 r (List.mem_append_right _ (by simp)))
      refine ⟨reps2, e1, e2, e3, e4, ?_⟩
      intro k hk hke
      rcases hk with hk | hk
      · exact e5 k (Or.inl (s1 k (List.mem_append_left _ hk))) hke
      · rcases List.mem_cons.mp hk with rfl | hk2
        · exact e5 k (Or.inl (s1 k (List.mem_append_right _ (by simp)))) hke
        · exact e5 k (Or.inr hk2) hke

theorem nbrEx_none (g : Graph) (u : String) : nbrEx g none u = nbrPaths g u := by
  unfold nbrEx
  simp

/-- `countComponents` computes the number of connected components of the
undirected adjacency. -/
theorem countComponents_isCount (g : Graph) (hWF : WFGraph g)
    (hsym : SymmAdj g) :
    IsComponentCount (nbrPaths g) (mapKeys g) (countComponents g) := by
  obtain ⟨reps2, e1, e2, e3, e4, e5⟩ := ccAux_spec hWF hsym none (mapKeys g)
    (fun u hu => hu) [] 0 []
    (by simp) List.nodup_nil (by simp) (by simp) rfl List.nodup_nil
    (by simp) (by simp) (by simp) (by simp)
  refine ⟨reps2, e1.symm, e2, fun r hr => (e3 r hr).1, ?_, ?_⟩
  · intro r1 h1 r2 h2 hre
    apply e4 r1 h1 r2 h2
    obtain ⟨n, hn⟩ := hre
    exact ⟨n, pathIn_congr (fun u => (nbrEx_none g u).symm) hn⟩
  · intro k hk
    obtain ⟨r, hr1, hr2⟩ := e5 k (Or.inr hk) (by simp)
    obtain ⟨n, hn⟩ := hr2
    exact ⟨r, hr1, n, pathIn_congr (fun u => nbrEx_none g u) hn⟩

theorem pathEx_ne {g : Graph} {x s : String} (hs : s ≠ x) :
    ∀ {t : String} {n : Nat}, PathIn (nbrEx g (some x)) s t n → t ≠ x := by
  intro t n hp
  induction hp with
  | refl => exact hs
  | @step u v m hpu hv ih =>
    intro hc
    exact (nbrEx_mem.mp hv).2 (by rw [hc])

theorem nbrEx_some_eq_without {g : Graph} {x u : String} (hu : u ≠ x) :
    nbrEx g (some x) u = nbrPathsWithout g x u := by
  unfold nbrEx nbrPathsWithout
  rw [if_neg hu]
  apply List.filter_congr
  intro a _
  by_cases h : a = x <;> simp [h]

theorem pathEx_iff_without {g : Graph} {x s : String} (hs : s ≠ x)
    {t : String} {n : Nat} :
    PathIn (nbrEx g (some x)) s t n ↔ PathIn (nbrPathsWithout g x) s t n := by
  constructor
  · intro hp
    induction hp with
    | refl => exact PathIn.refl
    | @step u v m hpu hv ih =>
      have hun : u ≠ x := pathEx_ne hs hpu
      exact PathIn.step ih (by rw [← nbrEx_some_eq_without hun]; exact hv)
  · intro hp
    induction hp with
    | refl => exact PathIn.refl
    | @step u v m hpu hv ih =>
      have hun : u ≠ x := by
        intro hc
        rw [hc] at hv
        unfold nbrPathsWithout at hv
        rw [if_pos rfl] at hv
        simp at hv
      exact PathIn.step ih (by rw [nbrEx_some_eq_without hun]; exact hv)

/-- `countComponentsWithout` computes the number of connected components of
the subgraph with one node and its incident edges removed. -/
theorem countComponentsWithout_isCount (g : Graph) (hWF : WFGraph g)
    (hsym : SymmAdj g) {x : String} (hx : x ∈ mapKeys g) :
    IsComponentCount (nbrPathsWithout g x)
      ((mapKeys g).filter (fun k => decide (k ≠ x)))
      (countComponentsWithout g x) := by
  obtain ⟨reps2, e1, e2, e3, e4, e5⟩ := ccAux_spec hWF hsym (some x) (mapKeys g)
    (fun u hu => hu) [x] 0 []
    (by
      intro v hv
      simp at hv
      subst hv
      exact Or.inl hx)
    (List.nodup_singleton x)
    (by
      intro v hv
      simp at hv
      subst hv
      exact Or.inl rfl)
    (by
      intro u hu
      simp at hu
      simp [hu])
    rfl List.nodup_nil (by simp) (by simp)
    (by
      intro k hk hke
      simp at hk
      subst hk
      exact absurd rfl hke)
    (by simp)
  refine ⟨reps2, e1.symm, e2, ?_, ?_, ?_⟩
  · intro r hr
    have h3 := e3 r hr
    rw [List.mem_filter]
    refine ⟨h3.1, ?_⟩
    simp
    intro hc
    exact h3.2 (by rw [hc])
  · intro r1 h1 r2 h2 hre
    apply e4 r1 h1 r2 h2
    obtain ⟨n, hn⟩ := hre
    have hr1x : r1 ≠ x := fun hc => (e3 r1 h1).2 (by rw [hc])
    exact ⟨n, (pathEx_iff_without hr1x).mpr hn⟩
  · intro k hk
    rw [List.mem_filter] at hk
    have hkx : k ≠ x := by simpa using hk.2
    obtain ⟨r, hr1, hr2⟩ := e5 k (Or.inr hk.1)
      (fun hc => hkx (Option.some.inj hc))
    obtain ⟨n, hn⟩ := hr2
    have hrx : r ≠ x := fun hc => (e3 r hr1).2 (by rw [hc])
    exact ⟨r, hr1, n, (pathEx_iff_without hrx).mp hn⟩

theorem findBridgeNotes_mem (g : Graph) (n : GraphNode) :
    n ∈ findBridgeNotes g ↔
      ∃ e ∈ g, (e : String × GraphNode).2 = n ∧
        countComponents g < countComponentsWithout g e.1 := by
  have hfold : ∀ (l : List (String × GraphNode)) (acc : List GraphNode),
      n ∈ l.foldl (fun acc e =>
        if countComponents g < countComponentsWithout g e.1
        then acc ++ [e.2] else acc) acc ↔
      n ∈ acc ∨ ∃ e ∈ l, e.2 = n ∧
        countComponents g < countComponentsWithout g e.1 := by
    intro l
    induction l with
    | nil => intro acc; simp
    | cons e rest ihl =>
      intro acc
      rw [List.foldl_cons]
      by_cases hc : countComponents g < countComponentsWithout g e.1
      · rw [if_pos hc, ihl]
        constructor
        · rintro (h | h)
          · rcases List.mem_append.mp h with h | h
            · exact Or.inl h
            · simp at h
              exact Or.inr ⟨e, List.mem_cons_self _ _, h.symm, hc⟩
          · obtain ⟨e2, he2, hn2, hc2⟩ := h
            exact Or.inr ⟨e2, List.mem_cons_of_mem _ he2, hn2, hc2⟩
        · rintro (h | h)
          · exact Or.inl (List.mem_append_left _ h)
          · obtain ⟨e2, he2, hn2, hc2⟩ := h
            rcases List.mem_cons.mp he2 with rfl | he3
            · exact Or.inl (List.mem_append_right _ (by simp [hn2]))
            · exact Or.inr ⟨e2, he3, hn2, hc2⟩
      · rw [if_neg hc, ihl]
        constructor
        · rintro (h | h)
          · exact Or.inl h
          · obtain ⟨e2, he2, hn2, hc2⟩ := h
            exact Or.inr ⟨e2, List.mem_cons_of_mem _ he2, hn2, hc2⟩
        · rintro (h | h)
          · exact Or.inl h
          · obtain ⟨e2, he2, hn2, hc2⟩ := h
            rcases List.mem_cons.mp he2 with rfl | he3
            · exact absurd hc2 hc
            · exact Or.inr ⟨e2, he3, hn2, hc2⟩
  show n ∈ g.foldl (fun acc e =>
      if countComponents g < countComponentsWithout g e.1
      then acc ++ [e.2] else acc) [] ↔ _
  rw [hfold]
  simp

theorem mapGetEntry_of_nodup {β : Type} :
    ∀ {m : List (String × β)}, (mapKeys m).Nodup →
      ∀ {e : String × β}, e ∈ m → mapGetEntry m e.1 = some e := by
  intro m
  induction m with
  | nil =>
    intro _ e he
    simp at he
  | cons a rest ihm =>
    intro hnd e he
    obtain ⟨k, v⟩ := a
    have hcons : mapKeys ((k, v) :: rest) = k :: mapKeys rest := rfl
    rw [hcons] at hnd
    rcases List.mem_cons.mp he with rfl | he2
    · show (if k = k then some (k, v) else mapGetEntry rest k) = some (k, v)
      rw [if_pos rfl]
    · have hke : k ≠ e.1 := by
        intro hc
        exact (List.nodup_cons.mp hnd).1
          (hc ▸ List.mem_map.mpr ⟨e, he2, rfl⟩)
      show (if k = e.1 then some (k, v) else mapGetEntry rest e.1) = some e
      rw [if_neg hke]
      exact ihm (List.nodup_cons.mp hnd).2 he2

theorem isolated_no_in {g : Graph} (hsym : SymmAdj g)
    {x : String} (hnil : nbrPaths g x = []) :
    ∀ v ∈ mapKeys g, x ∉ nbrPaths g v := by
  intro v hv hc
  have h2 := hsym v hv x hc
  rw [hnil] at h2
  simp at h2

theorem isolated_reach {g : Graph} {x : String} (hnil : nbrPaths g x = []) :
    ∀ {t : String} {n : Nat}, PathIn (nbrPaths g) x t n → t = x := by
  intro t n hp
  induction hp with
  | refl => rfl
  | @step u v m hpu hv ih =>
    rw [ih, hnil] at hv
    simp at hv

theorem path_avoid_isolated {g : Graph} (hWF : WFGraph g) (hsym : SymmAdj g)
    {x r : String} (hnil : nbrPaths g x = [])
    (hr : r ∈ mapKeys g) (hrx : r ≠ x) :
    ∀ {t : String} {n : Nat}, PathIn (nbrPaths g) r t n →
      t ≠ x ∧ PathIn (nbrPathsWithout g x) r t n := by
  intro t n hp
  induction hp with
  | refl => exact ⟨hrx, PathIn.refl⟩
  | @step u v m hpu hv ih =>
    obtain ⟨hux, hw⟩ := ih
    have hu : u ∈ mapKeys g :=
      pathIn_closed (P := (· ∈ mapKeys g))
        (fun a ha w hw2 => nbr_closed hWF ha w hw2) hr hpu
    have hvx : v ≠ x := fun hc => isolated_no_in hsym hnil u hu (hc ▸ hv)
    refine ⟨hvx, PathIn.step hw ?_⟩
    unfold nbrPathsWithout
    rw [if_neg hux, List.mem_filter]
    exact ⟨hv, by simp [hvx]⟩

theorem pathIn_without_mono {g : Graph} {x s : String} :
    ∀ {t : String} {n : Nat}, PathIn (nbrPathsWithout g x) s t n →
      PathIn (nbrPaths g) s t n := by
  intro t n hp
  induction hp with
  | refl => exact PathIn.refl
  | @step u v m hpu hv ih =>
    refine PathIn.step ih ?_
    unfold nbrPathsWithout at hv
    by_cases hc : u = x
    · rw [if_pos hc] at hv
      simp at hv
    · rw [if_neg hc] at hv
      exact (List.mem_filter.mp hv).1

/-- Excluding an isolated node can only lose its own singleton component:
the remaining component count never exceeds the baseline. -/
theorem degree0_count_le (g : Graph) (hWF : WFGraph g) (hsym : SymmAdj g)
    {e : String × GraphNode} (he : e ∈ g) (hout : e.2.outlinks = [])
    (hin : e.2.inlinks = []) :
    countComponentsWithout g e.1 ≤ countComponents g := by
  have hx : e.1 ∈ mapKeys g := List.mem_map.mpr ⟨e, he, rfl⟩
  have hget : mapGet g e.1 = some e.2 := by
    unfold mapGet
    rw [mapGetEntry_of_nodup hWF.1 he]
    rfl
  have hnil : nbrPaths g e.1 = [] := by
    rw [nbrPaths_of_mapGet hget]
    unfold neighborList
    rw [hout, hin]
    rfl
  obtain ⟨reps, hlen, hnd, hrk, hrp, hrc⟩ := countComponents_isCount g hWF hsym
  obtain ⟨r, hr, n, hrpath⟩ := hrc e.1 hx
  have hrx : r = e.1 := by
    cases hrpath with
    | refl => rfl
    | @step u v2 m hpu hv =>
      have hu : u ∈ mapKeys g :=
        pathIn_closed (P := (· ∈ mapKeys g))
          (fun a ha w hw2 => nbr_closed hWF ha w hw2) (hrk r hr) hpu
      exact absurd hv (isolated_no_in hsym hnil u hu)
  have hxreps : e.1 ∈ reps := hrx ▸ hr
  have hwo : IsComponentCount (nbrPathsWithout g e.1)
      ((mapKeys g).filter (fun k => decide (k ≠ e.1)))
      ((reps.erase e.1).length) := by
    refine ⟨reps.erase e.1, rfl, hnd.erase _, ?_, ?_, ?_⟩
    · intro r2 hr2
      have hmem := List.mem_of_mem_erase hr2
      have hne : r2 ≠ e.1 := ((List.Nodup.mem_erase_iff hnd).mp hr2).1
      rw [List.mem_filter]
      exact ⟨hrk r2 hmem, by simp [hne]⟩
    · intro r1 h1 r2 h2 hre
      obtain ⟨n2, hn2⟩ := hre
      exact hrp r1 (List.mem_of_mem_erase h1) r2 (List.mem_of_mem_erase h2)
        ⟨n2, pathIn_without_mono hn2⟩
    · intro k hk
      rw [List.mem_filter] at hk
      have hkx : k ≠ e.1 := by simpa using hk.2
      obtain ⟨r2, hr2, n2, hn2⟩ := hrc k hk.1
      have hr2x : r2 ≠ e.1 := by
        intro hc
        rw [hc] at hn2
        exact hkx (isolated_reach hnil hn2)
      obtain ⟨hkx2, hw⟩ := path_avoid_isolated hWF hsym hnil (hrk r2 hr2) hr2x hn2
      exact ⟨r2, (List.Nodup.mem_erase_iff hnd).mpr ⟨hr2x, hr2⟩, n2, hw⟩
  have hsymW : ∀ a ∈ (mapKeys g).filter (fun k => decide (k ≠ e.1)), ∀ b,
      (∃ n2, PathIn (nbrPathsWithout g e.1) a b n2) →
      ∃ n2, PathIn (nbrPathsWithout g e.1) b a n2 := by
    intro a ha b hre
    rw [List.mem_filter] at ha
    have hax : a ≠ e.1 := by simpa using ha.2
    refine reach_symm_pred (P := fun u => u ∈ mapKeys g ∧ u ≠ e.1) ?_ ?_
      ⟨ha.1, hax⟩ hre
    · intro u hu w hw
      unfold nbrPathsWithout at hw
      rw [if_neg hu.2, List.mem_filter] at hw
      exact ⟨nbr_closed hWF hu.1 w hw.1, by simpa using hw.2⟩
    · intro u hu w hw
      unfold nbrPathsWithout at hw
      rw [if_neg hu.2, List.mem_filter] at hw
      have hwx : w ≠ e.1 := by simpa using hw.2
      unfold nbrPathsWithout
      rw [if_neg hwx, List.mem_filter]
      exact ⟨hsym u hu.1 w hw.1, by simp [hu.2]⟩
  have heq := isComponentCount_unique hsymW
    (countComponentsWithout_isCount g hWF hsym hx) hwo
  have hlen2 := List.length_erase_of_mem hxreps
  omega

/-- C7: on a well-formed graph with symmetric adjacency, `countComponents`
and `countComponentsWithout` compute the semantic connected-component counts
(of the full graph, and of the graph with one node and its incident edges
excluded), `findBridgeNotes` returns exactly the stored nodes whose
exclusion strictly increases that count, and a node of degree 0 is never
returned.  On the concrete 3-cycle the result is empty; on the 3-chain it is
exactly the middle node. -/
theorem c7_bridge_notes (g : Graph) (hWF : WFGraph g) (hsym : SymmAdj g) :
    IsComponentCount (nbrPaths g) (mapKeys g) (countComponents g) ∧
    (∀ x ∈ mapKeys g, IsComponentCount (nbrPathsWithout g x)
        ((mapKeys g).filter (fun k => decide (k ≠ x)))
        (countComponentsWithout g x)) ∧
    (∀ n, n ∈ findBridgeNotes g ↔
        ∃ e ∈ g, (e : String × GraphNode).2 = n ∧
          countComponents g < countComponentsWithout g e.1) ∧
    (∀ e ∈ g, (e : String × GraphNode).2.outlinks = [] →
        (e : String × GraphNode).2.inlinks = [] →
        (e : String × GraphNode).2 ∉ findBridgeNotes g) ∧
    findBridgeNotes (buildGraph docsTriangle) = [] ∧
    (findBridgeNotes (buildGraph docsChain3)).map (fun nd => nd.path) =
      ["b.md"] := by
  refine ⟨countComponents_isCount g hWF hsym,
    fun x hx => countComponentsWithout_isCount g hWF hsym hx,
    fun n => findBridgeNotes_mem g n, ?_, by decide, by decide⟩
  intro e he hout hin hmem
  obtain ⟨e2, he2, heq, hlt⟩ := (findBridgeNotes_mem g e.2).mp hmem
  have h21 : e2.1 = e.1 := by
    have hp2 := hWF.2.1 e2 he2
    have hp1 := hWF.2.1 e he
    rw [← hp2, ← hp1, heq]
  rw [h21] at hlt
  exact absurd hlt (not_lt.mpr (degree0_count_le g hWF hsym he hout hin))

/-- Witness instantiating `c7_bridge_notes` on the three-node chain. -/
theorem c7_bridge_notes_witness :
    (findBridgeNotes (buildGraph docsChain3)).map (fun nd => nd.path) =
      ["b.md"] :=
  (c7_bridge_notes (buildGraph docsChain3)
    (by unfold WFGraph PathFieldsMatch InlinkKeysClosed; decide)
    (by unfold SymmAdj; decide)).2.2.2.2.2

/-! ### search score rounding -/

theorem log_32_pos : (0:ℝ) < Real.log (3 / 2) := Real.log_pos (by norm_num)

theorem log_32_le_half : Real.log (3 / 2) ≤ 1 / 2 := by
  have h := Real.log_le_sub_one_of_pos (show (0:ℝ) < 3 / 2 by norm_num)
  linarith

theorem one_le_log_3 : (1:ℝ) ≤ Real.log 3 := by
  have h1 : Real.exp 1 < 3 := lt_trans Real.exp_one_lt_d9 (by norm_num)
  have h2 := Real.log_lt_log (Real.exp_pos 1) h1
  rw [Real.log_exp] at h2
  linarith

set_option maxHeartbeats 2000000 in
/-- Counterexample to C8 as stated: on the index of a 10101-word document
(10100 "zz", one "uq") plus a one-word document "vq", the query "tq uq"
matches the first document with a positive cosine score below 1/20000, so
`Math.round(score * 10000) / 10000` rounds it to exactly 0 — the returned
result list contains a score that is not strictly greater than 0. -/
theorem c8_counterexample :
    tfSearch s8 "tq uq" 10 = [("d.md", (0 : ℝ))] := by
  have hq : tokenize "tq uq" = ["tq", "uq"] := by decide
  have hcnt : countTokens ["tq", "uq"] = [("tq", 1), ("uq", 1)] := by decide
  have hL0 := log_32_pos
  have hL2 := log_32_le_half
  have hL3 := one_le_log_3
  have hlog3pos : (0:ℝ) < Real.log 3 := by linarith
  -- term weights
  have hw_congr : ∀ (t : String) (f T : Nat),
      tfidfWeight (ensureMagnitudes s8) t f T = tfidfWeight s8 t f T :=
    fun t f T => rfl
  have hdftq : mapGet s8.documentFreqs "tq" = none := by decide
  have hdfuq : mapGet s8.documentFreqs "uq" = some 1 := by decide
  have hdfzz : mapGet s8.documentFreqs "zz" = some 1 := by decide
  have htd : s8.totalDocuments = 2 := rfl
  have hqwtq : tfidfWeight s8 "tq" 1 2 = 1 / 2 * Real.log 3 := by
    unfold tfidfWeight
    rw [hdftq, htd]
    norm_num
  have hqwuq : tfidfWeight s8 "uq" 1 2 = 1 / 2 * Real.log (3 / 2) := by
    unfold tfidfWeight
    rw [hdfuq, htd]
    norm_num
  have hdwuq : tfidfWeight s8 "uq" 1 10101 = 1 / 10101 * Real.log (3 / 2) := by
    unfold tfidfWeight
    rw [hdfuq, htd]
    norm_num
  have hwzz : tfidfWeight s8 "zz" 10100 10101 = 10100 / 10101 * Real.log (3 / 2) := by
    unfold tfidfWeight
    rw [hdfzz, htd]
    norm_num
  -- the cached magnitude of the large document
  have hmagd : docMagnitude s8 s8doc =
      Real.sqrt (10100 / 10101 * Real.log (3 / 2) * (10100 / 10101 * Real.log (3 / 2)) +
        (1 / 10101 * Real.log (3 / 2) * (1 / 10101 * Real.log (3 / 2)) + 0)) := by
    show Real.sqrt
        (tfidfWeight s8 "zz" 10100 10101 * tfidfWeight s8 "zz" 10100 10101 +
          (tfidfWeight s8 "uq" 1 10101 * tfidfWeight s8 "uq" 1 10101 + 0)) = _
    rw [hwzz, hdwuq]
  have hwzzpos : (0:ℝ) < 10100 / 10101 * Real.log (3 / 2) :=
    mul_pos (by norm_num) hL0
  have hmagd_pos : 0 < docMagnitude s8 s8doc := by
    rw [hmagd]
    apply Real.sqrt_pos.mpr
    nlinarith [mul_self_nonneg (1 / 10101 * Real.log (3 / 2))]
  -- the cosine similarity of the large document against the query
  have hQpos : (0:ℝ) < Real.sqrt (0 + 1 / 2 * Real.log 3 * (1 / 2 * Real.log 3) +
      1 / 2 * Real.log (3 / 2) * (1 / 2 * Real.log (3 / 2))) := by
    apply Real.sqrt_pos.mpr
    nlinarith [mul_self_nonneg (1 / 2 * Real.log (3 / 2))]
  have hgettq : mapGet ([("zz", (10100:Nat)), ("uq", 1)]) "tq" = none := by decide
  have hgetuq : mapGet ([("zz", (10100:Nat)), ("uq", 1)]) "uq" = some 1 := by decide
  have hstepd : cosineSimilarityWithQuery (ensureMagnitudes s8)
      [("tq", 1), ("uq", 1)] 2
      { path := "d.md", termFreqs := [("zz", 10100), ("uq", 1)],
        totalTerms := 10101, magnitude := docMagnitude s8 s8doc } =
      if docMagnitude s8 s8doc = 0 then 0
      else if Real.sqrt (0 +
          tfidfWeight (ensureMagnitudes s8) "tq" 1 2 *
            tfidfWeight (ensureMagnitudes s8) "tq" 1 2 +
          tfidfWeight (ensureMagnitudes s8) "uq" 1 2 *
            tfidfWeight (ensureMagnitudes s8) "uq" 1 2) = 0 then 0
      else (0 + tfidfWeight (ensureMagnitudes s8) "uq" 1 2 *
          tfidfWeight (ensureMagnitudes s8) "uq" 1 10101) /
        (Real.sqrt (0 +
          tfidfWeight (ensureMagnitudes s8) "tq" 1 2 *
            tfidfWeight (ensureMagnitudes s8) "tq" 1 2 +
          tfidfWeight (ensureMagnitudes s8) "uq" 1 2 *
            tfidfWeight (ensureMagnitudes s8) "uq" 1 2) *
         docMagnitude s8 s8doc) := rfl
  have hcosd : cosineSimilarityWithQuery (ensureMagnitudes s8)
      [("tq", 1), ("uq", 1)] 2
      { path := "d.md", termFreqs := [("zz", 10100), ("uq", 1)],
        totalTerms := 10101, magnitude := docMagnitude s8 s8doc } =
      (0 + 1 / 2 * Real.log (3 / 2) * (1 / 10101 * Real.log (3 / 2))) /
        (Real.sqrt (0 + 1 / 2 * Real.log 3 * (1 / 2 * Real.log 3) +
          1 / 2 * Real.log (3 / 2) * (1 / 2 * Real.log (3 / 2))) *
         docMagnitude s8 s8doc) := by
    rw [hstepd]
    rw [if_neg (show ¬ docMagnitude s8 s8doc = 0 from hmagd_pos.ne')]
    rw [hw_congr, hw_congr, hw_congr, hqwtq, hqwuq, hdwuq]
    rw [if_neg hQpos.ne']
  have hnum_pos : (0:ℝ) <
      0 + 1 / 2 * Real.log (3 / 2) * (1 / 10101 * Real.log (3 / 2)) := by
    have h := mul_pos (mul_pos (show (0:ℝ) < 1 / 2 by norm_num) hL0)
      (mul_pos (show (0:ℝ) < 1 / 10101 by norm_num) hL0)
    linarith
  have hcos_pos : (0:ℝ) <
      (0 + 1 / 2 * Real.log (3 / 2) * (1 / 10101 * Real.log (3 / 2))) /
        (Real.sqrt (0 + 1 / 2 * Real.log 3 * (1 / 2 * Real.log 3) +
          1 / 2 * Real.log (3 / 2) * (1 / 2 * Real.log (3 / 2))) *
         docMagnitude s8 s8doc) :=
    div_pos hnum_pos (mul_pos hQpos hmagd_pos)
  have hQge : 1 / 2 * Real.log 3 ≤
      Real.sqrt (0 + 1 / 2 * Real.log 3 * (1 / 2 * Real.log 3) +
        1 / 2 * Real.log (3 / 2) * (1 / 2 * Real.log (3 / 2))) := by
    rw [show (0:ℝ) + 1 / 2 * Real.log 3 * (1 / 2 * Real.log 3) +
        1 / 2 * Real.log (3 / 2) * (1 / 2 * Real.log (3 / 2)) =
        1 / 2 * Real.log 3 * (1 / 2 * Real.log 3) +
        1 / 2 * Real.log (3 / 2) * (1 / 2 * Real.log (3 / 2)) by ring]
    apply Real.le_sqrt' (by positivity) |>.mpr
    nlinarith [mul_self_nonneg (1 / 2 * Real.log (3 / 2))]
  have hMge : 10100 / 10101 * Real.log (3 / 2) ≤ docMagnitude s8 s8doc := by
    rw [hmagd]
    apply Real.le_sqrt' hwzzpos |>.mpr
    nlinarith [mul_self_nonneg (1 / 10101 * Real.log (3 / 2))]
  have hcos_ub :
      (0 + 1 / 2 * Real.log (3 / 2) * (1 / 10101 * Real.log (3 / 2))) /
        (Real.sqrt (0 + 1 / 2 * Real.log 3 * (1 / 2 * Real.log 3) +
          1 / 2 * Real.log (3 / 2) * (1 / 2 * Real.log (3 / 2))) *
         docMagnitude s8 s8doc) ≤ 1 / 20200 := by
    rw [div_le_iff₀ (mul_pos hQpos hmagd_pos)]
    have hden : 1 / 2 * Real.log 3 * (10100 / 10101 * Real.log (3 / 2)) ≤
        Real.sqrt (0 + 1 / 2 * Real.log 3 * (1 / 2 * Real.log 3) +
          1 / 2 * Real.log (3 / 2) * (1 / 2 * Real.log (3 / 2))) *
        docMagnitude s8 s8doc :=
      mul_le_mul hQge hMge hwzzpos.le (Real.sqrt_nonneg _)
    have hkey : 0 + 1 / 2 * Real.log (3 / 2) * (1 / 10101 * Real.log (3 / 2)) ≤
        1 / 20200 * (1 / 2 * Real.log 3 * (10100 / 10101 * Real.log (3 / 2))) := by
      have h2L : 2 * Real.log (3 / 2) ≤ Real.log 3 := by linarith
      nlinarith [mul_le_mul_of_nonneg_left h2L hL0.le]
    have hstep2 : 1 / 20200 * (1 / 2 * Real.log 3 * (10100 / 10101 * Real.log (3 / 2))) ≤
        1 / 20200 * (Real.sqrt (0 + 1 / 2 * Real.log 3 * (1 / 2 * Real.log 3) +
          1 / 2 * Real.log (3 / 2) * (1 / 2 * Real.log (3 / 2))) *
        docMagnitude s8 s8doc) :=
      mul_le_mul_of_nonneg_left hden (by norm_num)
    linarith
  -- the small document scores zero
  have hgettq2 : mapGet ([("vq", (1:Nat))]) "tq" = none := by decide
  have hgetuq2 : mapGet ([("vq", (1:Nat))]) "uq" = none := by decide
  have hstepe : cosineSimilarityWithQuery (ensureMagnitudes s8)
      [("tq", 1), ("uq", 1)] 2
      { path := "e.md", termFreqs := [("vq", 1)], totalTerms := 1,
        magnitude := docMagnitude s8 s8other } =
      if docMagnitude s8 s8other = 0 then 0
      else if Real.sqrt (0 +
          tfidfWeight (ensureMagnitudes s8) "tq" 1 2 *
            tfidfWeight (ensureMagnitudes s8) "tq" 1 2 +
          tfidfWeight (ensureMagnitudes s8) "uq" 1 2 *
            tfidfWeight (ensureMagnitudes s8) "uq" 1 2) = 0 then 0
      else (0 : ℝ) /
        (Real.sqrt (0 +
          tfidfWeight (ensureMagnitudes s8) "tq" 1 2 *
            tfidfWeight (ensureMagnitudes s8) "tq" 1 2 +
          tfidfWeight (ensureMagnitudes s8) "uq" 1 2 *
            tfidfWeight (ensureMagnitudes s8) "uq" 1 2) *
         docMagnitude s8 s8other) := rfl
  have hcose : cosineSimilarityWithQuery (ensureMagnitudes s8)
      [("tq", 1), ("uq", 1)] 2
      { path := "e.md", termFreqs := [("vq", 1)], totalTerms := 1,
        magnitude := docMagnitude s8 s8other } = 0 := by
    rw [hstepe]
    by_cases hm : docMagnitude s8 s8other = 0
    · rw [if_pos hm]
    · rw [if_neg hm]
      split
      · rfl
      · exact zero_div _
  -- the rounded score is exactly zero
  have hr0 : round4 (cosineSimilarityWithQuery (ensureMagnitudes s8)
      [("tq", 1), ("uq", 1)] 2
      { path := "d.md", termFreqs := [("zz", 10100), ("uq", 1)],
        totalTerms := 10101, magnitude := docMagnitude s8 s8doc }) = 0 := by
    rw [hcosd]
    unfold round4 jsRound
    have hfl : ⌊(0 + 1 / 2 * Real.log (3 / 2) * (1 / 10101 * Real.log (3 / 2))) /
        (Real.sqrt (0 + 1 / 2 * Real.log 3 * (1 / 2 * Real.log 3) +
          1 / 2 * Real.log (3 / 2) * (1 / 2 * Real.log (3 / 2))) *
         docMagnitude s8 s8doc) * 10000 + 1 / 2⌋ = 0 := by
      rw [Int.floor_eq_zero_iff]
      rw [Set.mem_Ico]
      constructor
      · nlinarith [hcos_pos]
      · nlinarith [hcos_ub]
    rw [hfl]
    norm_num
  -- assemble the search pipeline
  have hdocs : (ensureMagnitudes s8).documents =
      [("d.md",
        { path := "d.md", termFreqs := [("zz", 10100), ("uq", 1)],
          totalTerms := 10101, magnitude := docMagnitude s8 s8doc }),
       ("e.md",
        { path := "e.md", termFreqs := [("vq", 1)], totalTerms := 1,
          magnitude := docMagnitude s8 s8other })] := rfl
  have hposd : 0 < cosineSimilarityWithQuery (ensureMagnitudes s8)
      [("tq", 1), ("uq", 1)] 2
      { path := "d.md", termFreqs := [("zz", 10100), ("uq", 1)],
        totalTerms := 10101, magnitude := docMagnitude s8 s8doc } := by
    rw [hcosd]
    exact hcos_pos
  show (if (tokenize "tq uq").isEmpty then ([] : List (String × ℝ)) else
      (sortScoresDesc ((ensureMagnitudes s8).documents.foldl
        (fun acc pd =>
          if 0 < cosineSimilarityWithQuery (ensureMagnitudes s8)
              (countTokens (tokenize "tq uq")) (tokenize "tq uq").length pd.2
          then acc ++ [(pd.1, round4 (cosineSimilarityWithQuery (ensureMagnitudes s8)
              (countTokens (tokenize "tq uq")) (tokenize "tq uq").length pd.2))]
          else acc) [])).take 10) = [("d.md", (0:ℝ))]
  rw [hq]
  rw [show (["tq", "uq"] : List String).isEmpty = false from rfl]
  rw [if_neg Bool.false_ne_true]
  rw [hcnt]
  rw [show (["tq", "uq"] : List String).length = 2 from rfl]
  rw [hdocs]
  rw [List.foldl_cons]
  simp only []
  rw [if_pos hposd]
  rw [List.foldl_cons]
  simp only []
  rw [hcose]
  rw [if_neg (lt_irrefl (0:ℝ))]
  rw [List.foldl_nil]
  rw [hr0]
  rfl

theorem list_cauchy (l : List (ℝ × ℝ)) :
    (l.map (fun p => p.1 * p.2)).sum ≤
      Real.sqrt ((l.map (fun p => p.1 * p.1)).sum) *
      Real.sqrt ((l.map (fun p => p.2 * p.2)).sum) := by
  have h := Real.sum_mul_le_sqrt_mul_sqrt (Finset.univ : Finset (Fin l.length))
    (fun i => (l.get i).1) (fun i => (l.get i).2)
  simp only [pow_two] at h
  have e1 : (l.map (fun p => p.1 * p.2)).sum
      = ∑ i : Fin l.length, (l.get i).1 * (l.get i).2 :=
    (Fin.sum_univ_get' l (fun p => p.1 * p.2)).symm
  have e2 : (l.map (fun p => p.1 * p.1)).sum
      = ∑ i : Fin l.length, (l.get i).1 * (l.get i).1 :=
    (Fin.sum_univ_get' l (fun p => p.1 * p.1)).symm
  have e3 : (l.map (fun p => p.2 * p.2)).sum
      = ∑ i : Fin l.length, (l.get i).2 * (l.get i).2 :=
    (Fin.sum_univ_get' l (fun p => p.2 * p.2)).symm
  rw [e1, e2, e3]
  exact h

theorem sum_map_nonneg {α : Type} {f : α → ℝ} (l : List α)
    (hf : ∀ x ∈ l, 0 ≤ f x) : 0 ≤ (l.map f).sum := by
  induction l with
  | nil => simp
  | cons a rest ih =>
    simp only [List.map_cons, List.sum_cons]
    have h1 := hf a (List.mem_cons_self _ _)
    have h2 := ih (fun x hx => hf x (List.mem_cons_of_mem _ hx))
    linarith

theorem sum_map_filter_le {α : Type} {f : α → ℝ} (p : α → Bool) (l : List α)
    (hf : ∀ x ∈ l, 0 ≤ f x) : ((l.filter p).map f).sum ≤ (l.map f).sum := by
  induction l with
  | nil => simp
  | cons a rest ih =>
    have h1 := hf a (List.mem_cons_self _ _)
    have h2 := ih (fun x hx => hf x (List.mem_cons_of_mem _ hx))
    rw [List.filter_cons]
    by_cases hp : p a
    · rw [if_pos hp]
      simp only [List.map_cons, List.sum_cons]
      linarith
    · rw [if_neg hp]
      simp only [List.map_cons, List.sum_cons]
      linarith

theorem sum_sq_le_entries {F G : String × Nat → ℝ} (hF : ∀ e, 0 ≤ F e) :
    ∀ (l1 l2 : List (String × Nat)),
      (mapKeys l1).Nodup →
      (∀ a ∈ l1, ∃ e ∈ l2, e.1 = a.1 ∧ G a = F e) →
      (l1.map G).sum ≤ (l2.map F).sum := by
  intro l1
  induction l1 with
  | nil =>
    intro l2 _ _
    simp only [List.map_nil, List.sum_nil]
    exact sum_map_nonneg l2 (fun x _ => hF x)
  | cons a rest ih =>
    intro l2 hnd hwit
    obtain ⟨e, he, hek, heG⟩ := hwit a (List.mem_cons_self _ _)
    obtain ⟨l2t, hperm⟩ : ∃ l2t, List.Perm l2 (e :: l2t) :=
      ⟨_, List.perm_cons_erase he⟩
    have hsum : (l2.map F).sum = F e + (l2t.map F).sum := by
      rw [(hperm.map F).sum_eq]
      simp
    have hcons : mapKeys (a :: rest) = a.1 :: mapKeys rest := rfl
    rw [hcons] at hnd
    have hrest : (rest.map G).sum ≤ (l2t.map F).sum := by
      apply ih l2t (List.nodup_cons.mp hnd).2
      intro a2 ha2
      obtain ⟨e2, he2, hek2, hG2⟩ := hwit a2 (List.mem_cons_of_mem _ ha2)
      refine ⟨e2, ?_, hek2, hG2⟩
      rcases List.mem_cons.mp (hperm.mem_iff.mp he2) with hc | hc
      · exfalso
        apply (List.nodup_cons.mp hnd).1
        rw [← hek, ← hc, hek2]
        exact List.mem_map.mpr ⟨a2, ha2, rfl⟩
      · exact hc
    simp only [List.map_cons, List.sum_cons]
    rw [heG, hsum]
    linarith

theorem mem_insertScoreDesc {r x : String × ℝ} :
    ∀ {l : List (String × ℝ)}, x ∈ insertScoreDesc r l ↔ x = r ∨ x ∈ l := by
  intro l
  induction l with
  | nil => simp [insertScoreDesc]
  | cons a rest ih =>
    unfold insertScoreDesc
    by_cases hc : r.2 < a.2
    · rw [if_pos hc]
      constructor
      · intro h
        rcases List.mem_cons.mp h with rfl | h2
        · exact Or.inr (List.mem_cons_self _ _)
        · rcases ih.mp h2 with h3 | h3
          · exact Or.inl h3
          · exact Or.inr (List.mem_cons_of_mem _ h3)
      · intro h
        rcases h with rfl | h2
        · exact List.mem_cons_of_mem _ (ih.mpr (Or.inl rfl))
        · rcases List.mem_cons.mp h2 with rfl | h3
          · exact List.mem_cons_self _ _
          · exact List.mem_cons_of_mem _ (ih.mpr (Or.inr h3))
    · rw [if_neg hc]
      constructor
      · intro h
        rcases List.mem_cons.mp h with rfl | h2
        · exact Or.inl rfl
        · exact Or.inr h2
      · intro h
        rcases h with rfl | h2
        · exact List.mem_cons_self _ _
        · exact List.mem_cons_of_mem _ h2

theorem insertScoreDesc_sorted {r : String × ℝ} :
    ∀ {l : List (String × ℝ)},
      List.Pairwise (fun a b => (b : String × ℝ).2 ≤ (a : String × ℝ).2) l →
      List.Pairwise (fun a b => (b : String × ℝ).2 ≤ (a : String × ℝ).2)
        (insertScoreDesc r l) := by
  intro l
  induction l with
  | nil => intro _; simp [insertScoreDesc]
  | cons a rest ih =>
    intro hp
    obtain ⟨hhead, htail⟩ := List.pairwise_cons.mp hp
    unfold insertScoreDesc
    by_cases hc : r.2 < a.2
    · rw [if_pos hc]
      rw [List.pairwise_cons]
      refine ⟨?_, ih htail⟩
      intro b hb
      rcases mem_insertScoreDesc.mp hb with rfl | h2
      · exact hc.le
      · exact hhead b h2
    · rw [if_neg hc]
      rw [List.pairwise_cons]
      refine ⟨?_, hp⟩
      intro b hb
      rcases List.mem_cons.mp hb with rfl | h2
      · exact not_lt.mp hc
      · exact le_trans (hhead b h2) (not_lt.mp hc)

theorem sortScoresDesc_sorted (l : List (String × ℝ)) :
    List.Pairwise (fun a b => (b : String × ℝ).2 ≤ (a : String × ℝ).2)
      (sortScoresDesc l) := by
  unfold sortScoresDesc
  induction l with
  | nil => simp
  | cons a rest ih => exact insertScoreDesc_sorted ih

theorem mem_sortScoresDesc {x : String × ℝ} :
    ∀ {l : List (String × ℝ)}, x ∈ sortScoresDesc l ↔ x ∈ l := by
  intro l
  induction l with
  | nil => simp [sortScoresDesc]
  | cons a rest ih =>
    show x ∈ insertScoreDesc a (sortScoresDesc rest) ↔ _
    rw [mem_insertScoreDesc]
    constructor
    · intro h
      rcases h with rfl | h2
      · exact List.mem_cons_self _ _
      · exact List.mem_cons_of_mem _ (ih.mp h2)
    · intro h
      rcases List.mem_cons.mp h with rfl | h2
      · exact Or.inl rfl
      · exact Or.inr (ih.mpr h2)

theorem round4_nonneg {x : ℝ} (hx : 0 < x) : 0 ≤ round4 x := by
  unfold round4 jsRound
  apply div_nonneg ?_ (by norm_num)
  have h : (0:ℤ) ≤ ⌊x * 10000 + 1 / 2⌋ := by
    apply Int.le_floor.mpr
    push_cast
    nlinarith
  exact_mod_cast h

theorem round4_le_one {x : ℝ} (hx : x ≤ 1) : round4 x ≤ 1 := by
  unfold round4 jsRound
  rw [div_le_one (by norm_num : (0:ℝ) < 10000)]
  have h2 : x * 10000 + 1 / 2 ≤ (10000 : ℝ) + 1 / 2 := by nlinarith
  have h : ⌊x * 10000 + 1 / 2⌋ ≤ 10000 :=
    calc ⌊x * 10000 + 1 / 2⌋ ≤ ⌊(10000 : ℝ) + 1 / 2⌋ := Int.floor_le_floor h2
      _ = 10000 := by
        rw [Int.floor_eq_iff]
        norm_num
  exact_mod_cast h

theorem ensure_documentFreqs (s : TfIdfIndex) :
    (ensureMagnitudes s).documentFreqs = s.documentFreqs := by
  unfold ensureMagnitudes
  split <;> rfl

theorem ensure_totalDocuments (s : TfIdfIndex) :
    (ensureMagnitudes s).totalDocuments = s.totalDocuments := by
  unfold ensureMagnitudes
  split <;> rfl

theorem tfidfWeight_congr {s s2 : TfIdfIndex}
    (hdf : s.documentFreqs = s2.documentFreqs)
    (htd : s.totalDocuments = s2.totalDocuments) (t : String) (f T : Nat) :
    tfidfWeight s t f T = tfidfWeight s2 t f T := by
  unfold tfidfWeight
  rw [hdf, htd]

theorem docMagnitude_congr {s s2 : TfIdfIndex}
    (hdf : s.documentFreqs = s2.documentFreqs)
    (htd : s.totalDocuments = s2.totalDocuments) {d d2 : DocumentVector}
    (htf : d.termFreqs = d2.termFreqs) (htt : d.totalTerms = d2.totalTerms) :
    docMagnitude s d = docMagnitude s2 d2 := by
  unfold docMagnitude
  rw [htf, htt]
  congr 1
  refine congrArg List.sum ?_
  apply List.map_congr_left
  intro tc _
  rw [tfidfWeight_congr hdf htd]

/-- After `ensureMagnitudes`, every stored magnitude is the cached L2 norm —
given that the index was either dirty (so they are recomputed) or already
consistent. -/
theorem ensure_docMag (s : TfIdfIndex)
    (hwf : s.dirty = true ∨
      ∀ pd ∈ s.documents, pd.2.magnitude = docMagnitude s pd.2) :
    ∀ pd ∈ (ensureMagnitudes s).documents,
      pd.2.magnitude = docMagnitude (ensureMagnitudes s) pd.2 := by
  have hdf := ensure_documentFreqs s
  have htd := ensure_totalDocuments s
  by_cases hd : s.dirty = true
  · intro pd hpd
    unfold ensureMagnitudes at hpd
    rw [if_pos hd] at hpd
    rcases List.mem_map.mp hpd with ⟨pd0, hpd0, rfl⟩
    show docMagnitude s pd0.2 = _
    exact docMagnitude_congr hdf.symm htd.symm rfl rfl
  · intro pd hpd
    have hall : ∀ pd ∈ s.documents, pd.2.magnitude = docMagnitude s pd.2 := by
      rcases hwf with hwf | hwf
      · exact absurd hwf hd
      · exact hwf
    have hsame : ensureMagnitudes s = s := by
      unfold ensureMagnitudes
      rw [if_neg hd]
    rw [hsame] at hpd ⊢
    rw [hall pd hpd]

/-- `cosineSimilarityWithQuery` with its `let`s expanded. -/
theorem cosineSimilarityWithQuery_eq (s2 : TfIdfIndex) (qf : List (String × Nat))
    (qlen : Nat) (doc : DocumentVector) :
    cosineSimilarityWithQuery s2 qf qlen doc =
      if doc.magnitude = 0 then 0
      else
        if Real.sqrt (qf.foldl
            (fun (acc : ℝ × ℝ) (tc : String × Nat) =>
              if (mapGet doc.termFreqs tc.1).getD 0 = 0 then
                (acc.1, acc.2 + tfidfWeight s2 tc.1 tc.2 qlen *
                  tfidfWeight s2 tc.1 tc.2 qlen)
              else
                (acc.1 + tfidfWeight s2 tc.1 tc.2 qlen *
                    tfidfWeight s2 tc.1 ((mapGet doc.termFreqs tc.1).getD 0)
                      doc.totalTerms,
                  acc.2 + tfidfWeight s2 tc.1 tc.2 qlen *
                    tfidfWeight s2 tc.1 tc.2 qlen)) ((0 : ℝ), (0 : ℝ))).2 = 0 then 0
        else (qf.foldl
            (fun (acc : ℝ × ℝ) (tc : String × Nat) =>
              if (mapGet doc.termFreqs tc.1).getD 0 = 0 then
                (acc.1, acc.2 + tfidfWeight s2 tc.1 tc.2 qlen *
                  tfidfWeight s2 tc.1 tc.2 qlen)
              else
                (acc.1 + tfidfWeight s2 tc.1 tc.2 qlen *
                    tfidfWeight s2 tc.1 ((mapGet doc.termFreqs tc.1).getD 0)
                      doc.totalTerms,
                  acc.2 + tfidfWeight s2 tc.1 tc.2 qlen *
                    tfidfWeight s2 tc.1 tc.2 qlen)) ((0 : ℝ), (0 : ℝ))).1 /
          (Real.sqrt (qf.foldl
            (fun (acc : ℝ × ℝ) (tc : String × Nat) =>
              if (mapGet doc.termFreqs tc.1).getD 0 = 0 then
                (acc.1, acc.2 + tfidfWeight s2 tc.1 tc.2 qlen *
                  tfidfWeight s2 tc.1 tc.2 qlen)
              else
                (acc.1 + tfidfWeight s2 tc.1 tc.2 qlen *
                    tfidfWeight s2 tc.1 ((mapGet doc.termFreqs tc.1).getD 0)
                      doc.totalTerms,
                  acc.2 + tfidfWeight s2 tc.1 tc.2 qlen *
                    tfidfWeight s2 tc.1 tc.2 qlen)) ((0 : ℝ), (0 : ℝ))).2 *
            doc.magnitude) := rfl

/-- The similarity loop accumulates the dot product over matched terms and the
squared query magnitude over all query terms. -/
theorem cosine_fold_spec (s2 : TfIdfIndex) (qlen : Nat) (doc : DocumentVector) :
    ∀ (l : List (String × Nat)) (acc : ℝ × ℝ),
      l.foldl
        (fun (acc : ℝ × ℝ) (tc : String × Nat) =>
          if (mapGet doc.termFreqs tc.1).getD 0 = 0 then
            (acc.1, acc.2 + tfidfWeight s2 tc.1 tc.2 qlen *
              tfidfWeight s2 tc.1 tc.2 qlen)
          else
            (acc.1 + tfidfWeight s2 tc.1 tc.2 qlen *
                tfidfWeight s2 tc.1 ((mapGet doc.termFreqs tc.1).getD 0)
                  doc.totalTerms,
              acc.2 + tfidfWeight s2 tc.1 tc.2 qlen *
                tfidfWeight s2 tc.1 tc.2 qlen)) acc
      = (acc.1 + ((l.filter
            (fun tc => decide ((mapGet doc.termFreqs tc.1).getD 0 ≠ 0))).map
            (fun tc => tfidfWeight s2 tc.1 tc.2 qlen *
              tfidfWeight s2 tc.1 ((mapGet doc.termFreqs tc.1).getD 0)
                doc.totalTerms)).sum,
         acc.2 + (l.map (fun tc => tfidfWeight s2 tc.1 tc.2 qlen *
              tfidfWeight s2 tc.1 tc.2 qlen)).sum) := by
  intro l
  induction l with
  | nil => intro acc; simp
  | cons tc rest ih =>
    intro acc
    rw [List.foldl_cons, List.filter_cons]
    by_cases h : (mapGet doc.termFreqs tc.1).getD 0 = 0
    · have hd : (decide ((mapGet doc.termFreqs tc.1).getD 0 ≠ 0)) = false := by
        simp [h]
      simp only [if_pos h]
      rw [ih, hd]
      simp only [Bool.false_eq_true, if_false, List.map_cons, List.sum_cons,
        Prod.mk.injEq]
      constructor <;> ring
    · have hd : (decide ((mapGet doc.termFreqs tc.1).getD 0 ≠ 0)) = true := by
        simp [h]
      simp only [if_neg h]
      rw [ih, hd]
      simp only [if_true, List.map_cons, List.sum_cons, Prod.mk.injEq]
      constructor <;> ring

/-- A document sharing no term with the query scores exactly zero: the dot
product accumulates nothing, so the quotient is `0 / …` (or one of the
zero-guards fires). -/
theorem cosine_zero_of_no_shared (s2 : TfIdfIndex) (qf : List (String × Nat))
    (qlen : Nat) (doc : DocumentVector)
    (hno : ∀ t ∈ qf, (mapGet doc.termFreqs t.1).getD 0 = 0) :
    cosineSimilarityWithQuery s2 qf qlen doc = 0 := by
  rw [cosineSimilarityWithQuery_eq]
  by_cases hm : doc.magnitude = 0
  · rw [if_pos hm]
  · rw [if_neg hm, cosine_fold_spec s2 qlen doc qf ((0 : ℝ), (0 : ℝ))]
    have hfilter : qf.filter
        (fun tc => decide ((mapGet doc.termFreqs tc.1).getD 0 ≠ 0)) = [] := by
      rw [List.filter_eq_nil_iff]
      intro a ha
      simp [hno a ha]
    rw [hfilter]
    simp only [List.map_nil, List.sum_nil, add_zero, zero_add, zero_div, ite_self]

/-- Cauchy–Schwarz for the similarity loop: on an index whose stored magnitude
is the document's true L2 norm, every cosine score is at most 1. -/
theorem cosine_le_one (s2 : TfIdfIndex) (qf : List (String × Nat)) (qlen : Nat)
    (doc : DocumentVector) (hnd : (mapKeys qf).Nodup)
    (hmag : doc.magnitude = docMagnitude s2 doc) :
    cosineSimilarityWithQuery s2 qf qlen doc ≤ 1 := by
  rw [cosineSimilarityWithQuery_eq]
  by_cases hm : doc.magnitude = 0
  · rw [if_pos hm]
    norm_num
  · rw [if_neg hm, cosine_fold_spec s2 qlen doc qf ((0 : ℝ), (0 : ℝ))]
    simp only [zero_add]
    by_cases hq : Real.sqrt ((qf.map (fun tc => tfidfWeight s2 tc.1 tc.2 qlen *
        tfidfWeight s2 tc.1 tc.2 qlen)).sum) = 0
    · rw [if_pos hq]
      norm_num
    · rw [if_neg hq]
      have hQpos : 0 < Real.sqrt ((qf.map (fun tc => tfidfWeight s2 tc.1 tc.2 qlen *
          tfidfWeight s2 tc.1 tc.2 qlen)).sum) :=
        lt_of_le_of_ne (Real.sqrt_nonneg _) (Ne.symm hq)
      have hMpos : 0 < doc.magnitude := by
        have h0 : 0 ≤ doc.magnitude := by
          rw [hmag]
          exact Real.sqrt_nonneg _
        exact lt_of_le_of_ne h0 (Ne.symm hm)
      rw [div_le_one (mul_pos hQpos hMpos)]
      have hcs := list_cauchy ((qf.filter
          (fun tc => decide ((mapGet doc.termFreqs tc.1).getD 0 ≠ 0))).map
        (fun tc => (tfidfWeight s2 tc.1 tc.2 qlen,
          tfidfWeight s2 tc.1 ((mapGet doc.termFreqs tc.1).getD 0)
            doc.totalTerms)))
      rw [List.map_map, List.map_map, List.map_map] at hcs
      have h1 : (((qf.filter
            (fun tc => decide ((mapGet doc.termFreqs tc.1).getD 0 ≠ 0))).map
            (fun tc => tfidfWeight s2 tc.1 tc.2 qlen *
              tfidfWeight s2 tc.1 tc.2 qlen)).sum)
          ≤ ((qf.map (fun tc => tfidfWeight s2 tc.1 tc.2 qlen *
              tfidfWeight s2 tc.1 tc.2 qlen)).sum) :=
        sum_map_filter_le _ qf (fun tc _ => mul_self_nonneg _)
      have h2 : (((qf.filter
            (fun tc => decide ((mapGet doc.termFreqs tc.1).getD 0 ≠ 0))).map
            (fun tc => tfidfWeight s2 tc.1 ((mapGet doc.termFreqs tc.1).getD 0)
                doc.totalTerms *
              tfidfWeight s2 tc.1 ((mapGet doc.termFreqs tc.1).getD 0)
                doc.totalTerms)).sum)
          ≤ ((doc.termFreqs.map (fun e => tfidfWeight s2 e.1 e.2 doc.totalTerms *
              tfidfWeight s2 e.1 e.2 doc.totalTerms)).sum) := by
        apply sum_sq_le_entries
        · intro e
          exact mul_self_nonneg _
        · exact hnd.sublist (List.Sublist.map _ (List.filter_sublist qf))
        · intro a ha
          have hpa : (mapGet doc.termFreqs a.1).getD 0 ≠ 0 := by
            have hf := List.of_mem_filter ha
            simpa using hf
          have hg : ∃ e ∈ doc.termFreqs, e.1 = a.1 ∧
              (mapGet doc.termFreqs a.1).getD 0 = e.2 := by
            cases hee : mapGetEntry doc.termFreqs a.1 with
            | none =>
              exfalso
              apply hpa
              unfold mapGet
              rw [hee]
              rfl
            | some e =>
              obtain ⟨hek, hem⟩ := mapGetEntry_eq_some hee
              refine ⟨e, hem, hek, ?_⟩
              unfold mapGet
              rw [hee]
              rfl
          obtain ⟨e, hem, hek, hval⟩ := hg
          exact ⟨e, hem, hek, by rw [hval, hek]⟩
      have h3 : Real.sqrt (((qf.filter
            (fun tc => decide ((mapGet doc.termFreqs tc.1).getD 0 ≠ 0))).map
            (fun tc => tfidfWeight s2 tc.1 ((mapGet doc.termFreqs tc.1).getD 0)
                doc.totalTerms *
              tfidfWeight s2 tc.1 ((mapGet doc.termFreqs tc.1).getD 0)
                doc.totalTerms)).sum)
          ≤ doc.magnitude := by
        have hdm : docMagnitude s2 doc = Real.sqrt
            ((doc.termFreqs.map (fun e => tfidfWeight s2 e.1 e.2 doc.totalTerms *
              tfidfWeight s2 e.1 e.2 doc.totalTerms)).sum) := rfl
        rw [hmag, hdm]
        exact Real.sqrt_le_sqrt h2
      have h4 : Real.sqrt (((qf.filter
            (fun tc => decide ((mapGet doc.termFreqs tc.1).getD 0 ≠ 0))).map
            (fun tc => tfidfWeight s2 tc.1 tc.2 qlen *
              tfidfWeight s2 tc.1 tc.2 qlen)).sum)
          ≤ Real.sqrt ((qf.map (fun tc => tfidfWeight s2 tc.1 tc.2 qlen *
              tfidfWeight s2 tc.1 tc.2 qlen)).sum) :=
        Real.sqrt_le_sqrt h1
      calc (((qf.filter
            (fun tc => decide ((mapGet doc.termFreqs tc.1).getD 0 ≠ 0))).map
            (fun tc => tfidfWeight s2 tc.1 tc.2 qlen *
              tfidfWeight s2 tc.1 ((mapGet doc.termFreqs tc.1).getD 0)
                doc.totalTerms)).sum)
          ≤ Real.sqrt (((qf.filter
              (fun tc => decide ((mapGet doc.termFreqs tc.1).getD 0 ≠ 0))).map
              (fun tc => tfidfWeight s2 tc.1 tc.2 qlen *
                tfidfWeight s2 tc.1 tc.2 qlen)).sum) *
            Real.sqrt (((qf.filter
              (fun tc => decide ((mapGet doc.termFreqs tc.1).getD 0 ≠ 0))).map
              (fun tc => tfidfWeight s2 tc.1 ((mapGet doc.termFreqs tc.1).getD 0)
                  doc.totalTerms *
                tfidfWeight s2 tc.1 ((mapGet doc.termFreqs tc.1).getD 0)
                  doc.totalTerms)).sum) := hcs
        _ ≤ Real.sqrt ((qf.map (fun tc => tfidfWeight s2 tc.1 tc.2 qlen *
              tfidfWeight s2 tc.1 tc.2 qlen)).sum) * doc.magnitude :=
            mul_le_mul h4 h3 (Real.sqrt_nonneg _) (Real.sqrt_nonneg _)

/-- Membership in the result-accumulating fold of `search`: a pair is collected
exactly for a document whose score is strictly positive, carrying that score
rounded to four decimals. -/
theorem tfsearch_fold_mem (s2 : TfIdfIndex) (qf : List (String × Nat))
    (qlen : Nat) :
    ∀ (docs : List (String × DocumentVector)) (acc : List (String × ℝ))
      (r : String × ℝ),
      (r ∈ docs.foldl
        (fun acc pd =>
          if 0 < cosineSimilarityWithQuery s2 qf qlen pd.2 then
            acc ++ [(pd.1, round4 (cosineSimilarityWithQuery s2 qf qlen pd.2))]
          else acc) acc
      ↔ r ∈ acc ∨ ∃ pd ∈ docs, 0 < cosineSimilarityWithQuery s2 qf qlen pd.2 ∧
          r = (pd.1, round4 (cosineSimilarityWithQuery s2 qf qlen pd.2))) := by
  intro docs
  induction docs with
  | nil =>
    intro acc r
    simp
  | cons pd rest ih =>
    intro acc r
    rw [List.foldl_cons]
    by_cases h : 0 < cosineSimilarityWithQuery s2 qf qlen pd.2
    · simp only [if_pos h]
      rw [ih]
      constructor
      · rintro (hmem | ⟨pd2, hpd2, hpos, hr⟩)
        · rcases List.mem_append.mp hmem with h2 | h2
          · exact Or.inl h2
          · exact Or.inr ⟨pd, List.mem_cons_self _ _, h, List.mem_singleton.mp h2⟩
        · exact Or.inr ⟨pd2, List.mem_cons_of_mem _ hpd2, hpos, hr⟩
      · rintro (hmem | ⟨pd2, hpd2, hpos, hr⟩)
        · exact Or.inl (List.mem_append_left _ hmem)
        · rcases List.mem_cons.mp hpd2 with rfl | h2
          · exact Or.inl (List.mem_append_right _ (List.mem_singleton.mpr hr))
          · exact Or.inr ⟨pd2, h2, hpos, hr⟩
    · simp only [if_neg h]
      rw [ih]
      constructor
      · rintro (hmem | ⟨pd2, hpd2, hpos, hr⟩)
        · exact Or.inl hmem
        · exact Or.inr ⟨pd2, List.mem_cons_of_mem _ hpd2, hpos, hr⟩
      · rintro (hmem | ⟨pd2, hpd2, hpos, hr⟩)
        · exact Or.inl hmem
        · rcases List.mem_cons.mp hpd2 with rfl | h2
          · exact absurd hpos h
          · exact Or.inr ⟨pd2, h2, hpos, hr⟩

/-- `search` with its `let`s expanded. -/
theorem tfSearch_eq (s : TfIdfIndex) (query : String) (limit : Nat) :
    tfSearch s query limit =
      if (tokenize query).isEmpty then []
      else (sortScoresDesc ((ensureMagnitudes s).documents.foldl
        (fun acc pd =>
          if 0 < cosineSimilarityWithQuery (ensureMagnitudes s)
              (countTokens (tokenize query)) (tokenize query).length pd.2 then
            acc ++ [(pd.1, round4 (cosineSimilarityWithQuery (ensureMagnitudes s)
              (countTokens (tokenize query)) (tokenize query).length pd.2))]
          else acc) [])).take limit := rfl

/-- C8 (amended): for every index whose cached magnitudes are consistent (in
particular any dirty index, which `search` recomputes), each returned score is
the four-decimal rounding of a cosine score in `(0, 1]` — so it lies in
`[0, 1]` after rounding, not necessarily strictly above 0 — the results are
sorted by non-increasing rounded score and truncated to `limit`, every result
names a document sharing a term with the query, and a document sharing no term
with the query scores exactly 0. -/
theorem c8_search_spec (s : TfIdfIndex) (query : String) (limit : Nat)
    (hwf : s.dirty = true ∨
      ∀ pd ∈ s.documents, pd.2.magnitude = docMagnitude s pd.2) :
    (∀ r ∈ tfSearch s query limit,
      (0 ≤ r.2 ∧ r.2 ≤ 1) ∧
      ∃ pd ∈ (ensureMagnitudes s).documents, pd.1 = r.1 ∧
        (∃ t ∈ countTokens (tokenize query),
          (mapGet pd.2.termFreqs t.1).getD 0 ≠ 0) ∧
        ∃ score : ℝ, 0 < score ∧ score ≤ 1 ∧ r.2 = round4 score) ∧
    List.Pairwise (fun a b => (b : String × ℝ).2 ≤ (a : String × ℝ).2)
      (tfSearch s query limit) ∧
    (tfSearch s query limit).length ≤ limit ∧
    (∀ pd ∈ (ensureMagnitudes s).documents,
      (∀ t ∈ countTokens (tokenize query),
        (mapGet pd.2.termFreqs t.1).getD 0 = 0) →
      cosineSimilarityWithQuery (ensureMagnitudes s) (countTokens (tokenize query))
        (tokenize query).length pd.2 = 0) := by
  have hD : ∀ pd ∈ (ensureMagnitudes s).documents,
      (∀ t ∈ countTokens (tokenize query),
        (mapGet pd.2.termFreqs t.1).getD 0 = 0) →
      cosineSimilarityWithQuery (ensureMagnitudes s) (countTokens (tokenize query))
        (tokenize query).length pd.2 = 0 :=
    fun pd _ hno => cosine_zero_of_no_shared (ensureMagnitudes s)
      (countTokens (tokenize query)) (tokenize query).length pd.2 hno
  rw [tfSearch_eq]
  by_cases hemp : (tokenize query).isEmpty
  · rw [if_pos hemp]
    exact ⟨by simp, by simp, by simp, hD⟩
  · rw [if_neg hemp]
    refine ⟨?_, ?_, ?_, hD⟩
    · intro r hr
      have hr2 : r ∈ sortScoresDesc ((ensureMagnitudes s).documents.foldl
          (fun acc pd =>
            if 0 < cosineSimilarityWithQuery (ensureMagnitudes s)
                (countTokens (tokenize query)) (tokenize query).length pd.2 then
              acc ++ [(pd.1, round4 (cosineSimilarityWithQuery (ensureMagnitudes s)
                (countTokens (tokenize query)) (tokenize query).length pd.2))]
            else acc) []) := List.take_subset _ _ hr
      have hr3 := mem_sortScoresDesc.mp hr2
      have hr4 := (tfsearch_fold_mem (ensureMagnitudes s)
        (countTokens (tokenize query)) (tokenize query).length
        (ensureMagnitudes s).documents [] r).mp hr3
      rcases hr4 with h0 | ⟨pd, hpd, hpos, hreq⟩
      · exact absurd h0 (List.not_mem_nil r)
      · have hmagpd := ensure_docMag s hwf pd hpd
        have hle := cosine_le_one (ensureMagnitudes s)
          (countTokens (tokenize query)) (tokenize query).length pd.2
          (countTokens_keys_nodup (tokenize query)) hmagpd
        have hshared : ∃ t ∈ countTokens (tokenize query),
            (mapGet pd.2.termFreqs t.1).getD 0 ≠ 0 := by
          by_contra hc
          push_neg at hc
          have h0 := cosine_zero_of_no_shared (ensureMagnitudes s)
            (countTokens (tokenize query)) (tokenize query).length pd.2 hc
          rw [h0] at hpos
          exact lt_irrefl 0 hpos
        subst hreq
        exact ⟨⟨round4_nonneg hpos, round4_le_one hle⟩, pd, hpd, rfl, hshared,
          cosineSimilarityWithQuery (ensureMagnitudes s)
            (countTokens (tokenize query)) (tokenize query).length pd.2,
          hpos, hle, rfl⟩
    · exact List.Pairwise.sublist (List.take_sublist _ _) (sortScoresDesc_sorted _)
    · exact List.length_take_le _ _

theorem c8_search_spec_witness :
    s8.dirty = true ∧
    List.Pairwise (fun a b => (b : String × ℝ).2 ≤ (a : String × ℝ).2)
      (tfSearch s8 "tq uq" 10) :=
  ⟨rfl, (c8_search_spec s8 "tq uq" 10 (Or.inl rfl)).2.1⟩

end Obsidian
